import Mathlib

/-!
# Fenwick tree (`ft.h`): embedding and verification

The functions of `src/ft.h` (`ft_lsb`, `ft_init`, `ft_update`, `ft_query`, `ft_index_of`) and
the brute-force reference `sum_of` of `src/ft_test.h` are embedded as executable functions.
The 1-based variants `ft_lsb`, `ft_update`, `ft_query` and `ft_index_of` of `src/ft.c` are
embedded under the same names with the suffix `_c`.

Conventions of the embedding:

* an array `uint64_t x[]` is a `List Nat`; reads and writes are bounds-checked (`load`,
  `store`) and an access outside the list yields `none`;
* `assert(c)` is `c_assert c`: a failing assertion yields `none`;
* `uint64_t` arithmetic is arithmetic on `Nat` reduced modulo `2 ^ 64` (`uint64`);
* `int32_t` and `uint32_t` values are integers; every conversion or arithmetic result is
  wrapped to 32 bits (`int32`, `uint32`), two's complement;
* `size_t n` is a `Nat`;
* a `for` loop with an unmodified counter is a monadic fold over the range of its counter,
  a `while` loop is a recursion on a fuel argument that yields `none` when the fuel runs
  out; the theorems show that the fuel supplied by the top-level functions suffices;
* a loop with ghost outputs (`ft_update_loop_count`, `ft_query_loop_count`,
  `ft_index_of_loop_trace`) repeats the loop it is named after and additionally returns the
  number of executed iterations and the exit index, or the list of the loop states.
-/

namespace Ft

/-- The constant `UINT64_MAX`. -/
def UINT64_MAX : Nat := 2 ^ 64 - 1

/-- The macro `ft_max_bits`. -/
def ft_max_bits : Nat := 31

/-- Conversion to `int32_t`: wrap to the range `[-2 ^ 31, 2 ^ 31)`. -/
def int32 (x : Int) : Int := (x + 2 ^ 31) % 2 ^ 32 - 2 ^ 31

/-- Conversion to `uint32_t`: reduce modulo `2 ^ 32`; also the 32-bit pattern of an `int`. -/
def uint32 (x : Int) : Nat := (x % 2 ^ 32).toNat

/-- Result of an unsigned 64-bit addition: reduce modulo `2 ^ 64`. -/
def uint64 (x : Nat) : Nat := x % 2 ^ 64

/-- The statement `assert(c)`. -/
def c_assert (c : Bool) : Option Unit := if c then some () else none

/-- Read of `mem[i]`. -/
def load (mem : List Nat) (i : Int) : Option Nat :=
  if 0 ≤ i then mem[i.toNat]? else none

/-- Write `mem[i] = v`. -/
def store (mem : List Nat) (i : Int) (v : Nat) : Option (List Nat) :=
  if 0 ≤ i ∧ i.toNat < mem.length then some (mem.set i.toNat v) else none

/-- The function `ft_lsb`: `assert(0 < i && i < (1uLL << ft_max_bits)); return i & (~i + 1);`
The bitwise and is taken on the 32-bit patterns of `i` and of `~i + 1`. -/
def ft_lsb (i : Int) : Option Int := do
  c_assert (decide (0 < i ∧ i < 2 ^ ft_max_bits))
  pure (int32 ((uint32 i &&& uint32 (Int.not i + 1) : Nat) : Int))

/-- Body of the first loop of `ft_init`: `tree[i] = a[i]`. -/
def ft_init_copy (a : List Nat) (tree : List Nat) (i : Nat) : Option (List Nat) := do
  let v ← load a i
  store tree i v

/-- Body of the second loop of `ft_init`: fold the cell of `i` into the cell of its parent
`i + ft_lsb(i)`, when the parent is at most `m`. -/
def ft_init_fold (m : Int) (tree : List Nat) (i : Nat) : Option (List Nat) := do
  let l ← ft_lsb i
  let parent : Int := int32 (i + l)
  if parent ≤ m then do
    let tp ← load tree (parent - 1)
    let ti ← load tree ((i : Int) - 1)
    c_assert (decide (tp < UINT64_MAX - ti))
    store tree (parent - 1) (uint64 (tp + ti))
  else pure tree

/-- The function `ft_init(tree, n, a)`: the first loop runs `i = 0, ..., m - 1` and the second
`i = 1, ..., m`, with `m = (int32_t)n`; both are empty when `m ≤ 0`. -/
def ft_init (tree : List Nat) (n : Nat) (a : List Nat) : Option (List Nat) := do
  c_assert (decide (2 ≤ n ∧ n ≤ 2 ^ ft_max_bits))
  let m : Int := int32 n
  let tree ← (List.range' 0 m.toNat).foldlM (ft_init_copy a) tree
  (List.range' 1 m.toNat).foldlM (ft_init_fold m) tree

/-- The loop `while (i < m) { ... }` of `ft_update`. -/
def ft_update_loop (m : Int) (inc : Nat) : Nat → List Nat → Int → Option (List Nat)
  | 0, _, _ => none
  | fuel + 1, tree, i =>
    if i < m then do
      let ti ← load tree i
      c_assert (decide (ti ≤ UINT64_MAX - inc))
      let tree ← store tree i (uint64 (ti + inc))
      let l ← ft_lsb (int32 (i + 1))
      ft_update_loop m inc fuel tree (int32 (i + l))
    else some tree

/-- The function `ft_update(tree, n, i, inc)`. -/
def ft_update (tree : List Nat) (n : Nat) (i : Int) (inc : Nat) : Option (List Nat) := do
  c_assert (decide (2 ≤ n ∧ n ≤ 2 ^ ft_max_bits))
  let m : Int := int32 n
  c_assert (decide (0 ≤ i ∧ i < m))
  ft_update_loop m inc (n + 1) tree i

/-- The loop `while (i >= 0) { ... }` of `ft_query`. -/
def ft_query_loop (tree : List Nat) (n : Nat) : Nat → Nat → Int → Option Nat
  | 0, _, _ => none
  | fuel + 1, sum, i =>
    if 0 ≤ i then do
      let sum ← if i < int32 n then do
          let ti ← load tree i
          pure (uint64 (sum + ti))
        else pure sum
      let l ← ft_lsb (int32 (i + 1))
      ft_query_loop tree n fuel sum (int32 (i - l))
    else some sum

/-- The function `ft_query(tree, n, i)`. -/
def ft_query (tree : List Nat) (n : Nat) (i : Int) : Option Nat := do
  c_assert (decide (2 ≤ n ∧ n ≤ 2 ^ ft_max_bits))
  ft_query_loop tree n (i.toNat + 2) 0 i

/-- The loop `while (mask != 0) { ... }` of `ft_index_of` on the state `(value, i, mask)`;
it returns the final `(value, i)`. The test `t <= n && value >= tree[t - 1]` reads the cell
only when `t <= n`. -/
def ft_index_of_loop (tree : List Nat) (n : Nat) : Nat → Nat → Nat → Nat → Option (Nat × Nat)
  | 0, _, _, _ => none
  | fuel + 1, value, i, mask =>
    if mask ≠ 0 then
      let t : Nat := uint32 (i + mask)
      if t ≤ n then do
        let c ← load tree (uint32 ((t : Int) - 1))
        if value ≥ c then ft_index_of_loop tree n fuel (value - c) t (mask >>> 1)
        else ft_index_of_loop tree n fuel value i (mask >>> 1)
      else ft_index_of_loop tree n fuel value i (mask >>> 1)
    else some (value, i)

/-- The function `ft_index_of(tree, n, sum)`. -/
def ft_index_of (tree : List Nat) (n : Nat) (sum : Nat) : Option Int := do
  c_assert (decide (2 ≤ n ∧ n ≤ 2 ^ ft_max_bits))
  c_assert (decide (n &&& (n - 1) = 0))
  let total ← load tree ((n : Int) - 1)
  if sum ≥ total then pure (int32 ((n : Int) - 1))
  else do
    let r ← ft_index_of_loop tree n 33 sum 0 (uint32 (n >>> 1))
    pure (if r.2 = 0 ∧ r.1 < sum then -1 else int32 (uint32 ((r.2 : Int) - 1)))

/-- The test helper `sum_of(a, i, j)`: the sum of `a[k]` for `k = i, ..., j`, the counter
being `k = i + d` for `d = 0, ..., j - i`. -/
def sum_of (a : List Nat) (i j : Int) : Option Nat :=
  (List.range (j + 1 - i).toNat).foldlM (fun (sum : Nat) (d : Nat) => do
    let v ← load a (i + d)
    pure (uint64 (sum + v))) 0

/-! ### Specification-level notions -/

/-- Least significant set bit of `i` (`0` for `i = 0`), by recursion on the binary digits. -/
def lowbit (i : Nat) : Nat :=
  if i = 0 then 0 else if i % 2 = 1 then 1 else 2 * lowbit (i / 2)
decreasing_by omega

/-- Sum of the weights at 0-based positions `x ≤ k < y`. -/
def seg (a : List Nat) (x y : Nat) : Nat := ∑ k in Finset.Ico x y, a.getD k 0

/-- Value the Fenwick invariant prescribes for the cell of 1-based position `j`. -/
def fen (a : List Nat) (j : Nat) : Nat := seg a (j - lowbit j) j

/-- Sum of the cells of the children `c ≤ k` of node `j` (children are the `c` with
`c + lowbit c = j`). -/
def childSum (a : List Nat) (j k : Nat) : Nat :=
  ∑ c in Finset.range k, if (c + 1) + lowbit (c + 1) = j then fen a (c + 1) else 0

/-- The cell array satisfies the Fenwick invariant for the weights `a`. -/
def Built (a : List Nat) (n : Nat) (tree : List Nat) : Prop :=
  tree.length = n ∧ ∀ j : Nat, j < n → tree[j]? = some (fen a (j + 1))

/-- State of the cell array after the children `≤ k` have been folded in. -/
def CellInv (a : List Nat) (n k : Nat) (tree : List Nat) : Prop :=
  tree.length = n ∧ ∀ j : Nat, j < n → tree[j]? = some (a.getD j 0 + childSum a (j + 1) k)

/-- Brute-force sum of the weights at positions `< i` (`0` for `i ≤ 0`). -/
def S (a : List Nat) (i : Int) : Nat := ∑ k in Finset.range i.toNat, a.getD k 0

/-- The cell of 1-based position `j` covers the 1-based position `q`. -/
def covers (q j : Nat) : Prop := j - lowbit j < q ∧ q ≤ j

instance (q j : Nat) : Decidable (covers q j) := by unfold covers; infer_instance

/-- The cell array holds the values `f 0, ..., f (n-1)`. -/
def Cells (f : Nat → Nat) (n : Nat) (tree : List Nat) : Prop :=
  tree.length = n ∧ ∀ j : Nat, j < n → tree[j]? = some (f j)

/-- Position `q` brackets `target`: `ft_query(tree, n, q) ≤ target < ft_query(tree, n, q+1)`,
both queries returning a value. -/
def brackets (tree : List Nat) (n target : Nat) (q : Int) : Prop :=
  match ft_query tree n q, ft_query tree n (q + 1) with
  | some x, some y => x ≤ target ∧ target < y
  | _, _ => False

instance (tree : List Nat) (n target : Nat) (q : Int) : Decidable (brackets tree n target q) := by
  unfold brackets; split <;> infer_instance

/-! ### The body of `ft_index_of` and loops with ghost outputs -/

/-- Lines 67-79 of `ft.h`: the body of `ft_index_of` after its two assertions (the early
return at or above `tree[n-1]`, the descent and the final conversion). -/
def ft_index_of_body (tree : List Nat) (n : Nat) (sum : Nat) : Option Int := do
  let total ← load tree ((n : Int) - 1)
  if sum ≥ total then pure (int32 ((n : Int) - 1))
  else do
    let r ← ft_index_of_loop tree n 33 sum 0 (uint32 (n >>> 1))
    pure (if r.2 = 0 ∧ r.1 < sum then -1 else int32 (uint32 ((r.2 : Int) - 1)))

/-- The loop of `ft_index_of` with a ghost output: the states `(value, i, mask)` at every
evaluation of the loop condition, the last one being the exit state. -/
def ft_index_of_loop_trace (tree : List Nat) (n : Nat) :
    Nat → Nat → Nat → Nat → Option (List (Nat × Nat × Nat))
  | 0, _, _, _ => none
  | fuel + 1, value, i, mask =>
    if mask ≠ 0 then
      let t : Nat := uint32 (i + mask)
      if t ≤ n then do
        let c ← load tree (uint32 ((t : Int) - 1))
        if value ≥ c then do
          let tr ← ft_index_of_loop_trace tree n fuel (value - c) t (mask >>> 1)
          pure ((value, i, mask) :: tr)
        else do
          let tr ← ft_index_of_loop_trace tree n fuel value i (mask >>> 1)
          pure ((value, i, mask) :: tr)
      else do
        let tr ← ft_index_of_loop_trace tree n fuel value i (mask >>> 1)
        pure ((value, i, mask) :: tr)
    else some [(value, i, mask)]

/-- The loop of `ft_update` with two ghost outputs: the index at loop exit and the number of
executed iterations. -/
def ft_update_loop_count (m : Int) (inc : Nat) :
    Nat → List Nat → Int → Option (List Nat × Int × Nat)
  | 0, _, _ => none
  | fuel + 1, tree, i =>
    if i < m then do
      let ti ← load tree i
      c_assert (decide (ti ≤ UINT64_MAX - inc))
      let tree ← store tree i (uint64 (ti + inc))
      let l ← ft_lsb (int32 (i + 1))
      let r ← ft_update_loop_count m inc fuel tree (int32 (i + l))
      pure (r.1, r.2.1, r.2.2 + 1)
    else some (tree, i, 0)

/-- The loop of `ft_query` with two ghost outputs: the index at loop exit and the number of
executed iterations. -/
def ft_query_loop_count (tree : List Nat) (n : Nat) : Nat → Nat → Int → Option (Nat × Int × Nat)
  | 0, _, _ => none
  | fuel + 1, sum, i =>
    if 0 ≤ i then do
      let sum ← if i < int32 n then do
          let ti ← load tree i
          pure (uint64 (sum + ti))
        else pure sum
      let l ← ft_lsb (int32 (i + 1))
      let r ← ft_query_loop_count tree n fuel sum (int32 (i - l))
      pure (r.1, r.2.1, r.2.2 + 1)
    else some (sum, i, 0)

/-- Number of set bits of `j`. -/
def popcount (j : Nat) : Nat :=
  if j = 0 then 0 else j % 2 + popcount (j / 2)
decreasing_by omega

/-! ### The 1-based variant of `ft.c` -/

/-- Conversion to `size_t` (64 bits). -/
def size_t (x : Int) : Nat := (x % 2 ^ 64).toNat

/-- The function `ft_lsb` of `ft.c`: `assert(ix < (1u << ft_max_bits));
const int32_t i = (int32_t)ix; assert(i != 0); assert((i & (~i + 1)) == (i & -i));
return i & (~i + 1);` -/
def ft_lsb_c (ix : Nat) : Option Int := do
  c_assert (decide (ix < 2 ^ ft_max_bits))
  let i : Int := int32 ix
  c_assert (decide (i ≠ 0))
  c_assert (decide (uint32 i &&& uint32 (Int.not i + 1) = uint32 i &&& uint32 (-i)))
  pure (int32 ((uint32 i &&& uint32 (Int.not i + 1) : Nat) : Int))

/-- The loop `while (i < m + 1) { ... }` of `ft_update` in `ft.c`, on the 1-based index. -/
def ft_update_c_loop (m : Int) (inc : Nat) : Nat → List Nat → Int → Option (List Nat)
  | 0, _, _ => none
  | fuel + 1, tree, i =>
    if i < int32 (m + 1) then do
      let ti ← load tree (i - 1)
      c_assert (decide (ti ≤ UINT64_MAX - inc))
      let tree ← store tree (i - 1) (uint64 (ti + inc))
      let l ← ft_lsb_c (size_t i)
      ft_update_c_loop m inc fuel tree (int32 (i + l))
    else some tree

/-- The function `ft_update(tree, n, i, inc)` of `ft.c`. -/
def ft_update_c (tree : List Nat) (n : Nat) (i : Int) (inc : Nat) : Option (List Nat) := do
  c_assert (decide (2 ≤ n ∧ n ≤ 2 ^ ft_max_bits))
  let m : Int := int32 n
  c_assert (decide (0 ≤ i ∧ i < m))
  let i : Int := int32 (i + 1)
  c_assert (decide (i < int32 (m + 1)))
  ft_update_c_loop m inc (n + 1) tree i

/-- The loop `while (i > 0) { ... }` of `ft_query` in `ft.c`, on the 1-based index. -/
def ft_query_c_loop (tree : List Nat) (m : Int) : Nat → Nat → Int → Option Nat
  | 0, _, _ => none
  | fuel + 1, sum, i =>
    if 0 < i then do
      c_assert (decide (0 ≤ i - 1 ∧ i - 1 < m))
      let ti ← load tree (i - 1)
      let l ← ft_lsb_c (size_t i)
      ft_query_c_loop tree m fuel (uint64 (sum + ti)) (int32 (i - l))
    else some sum

/-- The function `ft_query(tree, n, i)` of `ft.c`. -/
def ft_query_c (tree : List Nat) (n : Nat) (i : Int) : Option Nat := do
  c_assert (decide (2 ≤ n ∧ n ≤ 2 ^ ft_max_bits))
  if i = -1 then pure 0
  else
    let m : Int := int32 n
    ft_query_c_loop tree m (i.toNat + 2) 0 (int32 (i + 1))

/-- The function `ft_index_of(tree, n, sum)` of `ft.c`; its loop is the one of `ft.h`, the
two returns are `(int32_t)n - 1` and `(int32_t)i - 1`. -/
def ft_index_of_c (tree : List Nat) (n : Nat) (sum : Nat) : Option Int := do
  c_assert (decide (2 ≤ n ∧ n ≤ 2 ^ ft_max_bits))
  c_assert (decide (n &&& (n - 1) = 0))
  let total ← load tree ((n : Int) - 1)
  if sum ≥ total then pure (int32 (int32 n - 1))
  else do
    let r ← ft_index_of_loop tree n 33 sum 0 (uint32 (n >>> 1))
    pure (if r.2 = 0 ∧ r.1 < sum then -1 else int32 (int32 r.2 - 1))

/-! ### The least significant bit -/

theorem lowbit_zero : lowbit 0 = 0 := by rw [lowbit]; simp

theorem lowbit_odd (h : Nat) : lowbit (2 * h + 1) = 1 := by
  rw [lowbit]; simp; omega

theorem lowbit_two_mul (h : Nat) : lowbit (2 * h) = 2 * lowbit h := by
  rcases Nat.eq_zero_or_pos h with rfl | hp
  · simp [lowbit_zero]
  · rw [lowbit]
    have h1 : ¬ (2 * h = 0) := by omega
    have h2 : ¬ ((2 * h) % 2 = 1) := by omega
    have h3 : 2 * h / 2 = h := by omega
    simp only [h1, h2, h3, if_false]

theorem lowbit_pos : ∀ i : Nat, 0 < i → 0 < lowbit i := by
  intro i
  induction i using Nat.strong_induction_on with
  | _ i ih =>
    intro hi
    rcases Nat.even_or_odd' i with ⟨h, rfl | rfl⟩
    · rw [lowbit_two_mul]
      have := ih h (by omega) (by omega)
      omega
    · rw [lowbit_odd]; omega

theorem lowbit_dvd : ∀ i : Nat, lowbit i ∣ i := by
  intro i
  induction i using Nat.strong_induction_on with
  | _ i ih =>
    rcases Nat.even_or_odd' i with ⟨h, rfl | rfl⟩
    · rcases Nat.eq_zero_or_pos h with rfl | hp
      · simp
      · rw [lowbit_two_mul]
        exact Nat.mul_dvd_mul_left 2 (ih h (by omega))
    · rw [lowbit_odd]; exact one_dvd _

theorem lowbit_pow : ∀ i : Nat, 0 < i → ∃ t, lowbit i = 2 ^ t := by
  intro i
  induction i using Nat.strong_induction_on with
  | _ i ih =>
    intro hi
    rcases Nat.even_or_odd' i with ⟨h, rfl | rfl⟩
    · obtain ⟨t, ht⟩ := ih h (by omega) (by omega)
      exact ⟨t + 1, by rw [lowbit_two_mul, ht, pow_succ]; ring⟩
    · exact ⟨0, by rw [lowbit_odd]; rfl⟩

theorem lowbit_not_two_dvd : ∀ i : Nat, 0 < i → ¬ (2 * lowbit i ∣ i) := by
  intro i
  induction i using Nat.strong_induction_on with
  | _ i ih =>
    intro hi
    rcases Nat.even_or_odd' i with ⟨h, rfl | rfl⟩
    · rw [lowbit_two_mul]
      intro hd
      exact ih h (by omega) (by omega) ((Nat.mul_dvd_mul_iff_left (by norm_num)).1 hd)
    · rw [lowbit_odd]; omega

theorem pow_dvd_lowbit : ∀ (s i : Nat), 0 < i → 2 ^ s ∣ i → 2 ^ s ∣ lowbit i := by
  intro s
  induction s with
  | zero => intro i _ _; simp
  | succ s ih =>
    intro i hi hd
    have h2 : 2 ∣ i := Dvd.dvd.trans (Dvd.intro_left (2 ^ s) rfl) hd
    obtain ⟨h, rfl⟩ := h2
    rw [lowbit_two_mul, pow_succ, mul_comm]
    apply Nat.mul_dvd_mul_left
    apply ih h (by omega)
    rw [pow_succ, mul_comm] at hd
    exact (Nat.mul_dvd_mul_iff_left (by norm_num)).1 hd

theorem lowbit_le (i : Nat) (hi : 0 < i) : lowbit i ≤ i := Nat.le_of_dvd hi (lowbit_dvd i)

/-- characterisation -/
theorem lowbit_eq_of (i t : Nat) (hi : 0 < i) (h1 : 2 ^ t ∣ i) (h2 : ¬ 2 ^ (t + 1) ∣ i) :
    lowbit i = 2 ^ t := by
  obtain ⟨s, hs⟩ := lowbit_pow i hi
  have a1 : 2 ^ t ∣ 2 ^ s := hs ▸ pow_dvd_lowbit t i hi h1
  have a2 : t ≤ s := (Nat.pow_dvd_pow_iff_le_right (by norm_num)).1 a1
  rcases Nat.lt_or_ge t s with hlt | hge
  · exfalso; apply h2
    have : 2 ^ (t + 1) ∣ 2 ^ s := pow_dvd_pow 2 hlt
    exact this.trans (hs ▸ lowbit_dvd i)
  · have : s = t := by omega
    rw [hs, this]

theorem land_even (h k : Nat) : (2 * h) &&& (2 * k) = 2 * (h &&& k) := by
  have := Nat.land_bit false h false k
  simpa [Nat.bit_val] using this
theorem land_odd (h k : Nat) : (2 * h + 1) &&& (2 * k + 1) = 2 * (h &&& k) + 1 := by
  have := Nat.land_bit true h true k
  simpa [Nat.bit_val] using this
theorem land_even_odd (h k : Nat) : (2 * h) &&& (2 * k + 1) = 2 * (h &&& k) := by
  have := Nat.land_bit false h true k
  simpa [Nat.bit_val] using this
theorem land_odd_even (h k : Nat) : (2 * h + 1) &&& (2 * k) = 2 * (h &&& k) := by
  have := Nat.land_bit true h false k
  simpa [Nat.bit_val] using this

theorem land_compl : ∀ (w h : Nat), h < 2 ^ w → h &&& (2 ^ w - 1 - h) = 0 := by
  intro w
  induction w with
  | zero => intro h hh; simp at hh; subst hh; simp
  | succ w ih =>
    intro h hh
    have hp : 2 ^ (w + 1) = 2 * 2 ^ w := by rw [pow_succ]; ring
    rcases Nat.even_or_odd' h with ⟨g, rfl | rfl⟩
    · have e : 2 ^ (w + 1) - 1 - 2 * g = 2 * (2 ^ w - 1 - g) + 1 := by omega
      rw [e, land_even_odd, ih g (by omega)]
    · have e : 2 ^ (w + 1) - 1 - (2 * g + 1) = 2 * (2 ^ w - 1 - g) := by omega
      rw [e, land_odd_even, ih g (by omega)]

theorem land_neg : ∀ (w i : Nat), 0 < i → i < 2 ^ w → i &&& (2 ^ w - i) = lowbit i := by
  intro w
  induction w with
  | zero => intro i h0 h1; simp at h1; omega
  | succ w ih =>
    intro i h0 h1
    have hp : 2 ^ (w + 1) = 2 * 2 ^ w := by rw [pow_succ]; ring
    rcases Nat.even_or_odd' i with ⟨g, rfl | rfl⟩
    · have e : 2 ^ (w + 1) - 2 * g = 2 * (2 ^ w - g) := by omega
      rw [e, land_even, ih g (by omega) (by omega), lowbit_two_mul]
    · have e : 2 ^ (w + 1) - (2 * g + 1) = 2 * (2 ^ w - 1 - g) + 1 := by omega
      rw [e, land_odd, land_compl w g (by omega), lowbit_odd]

theorem int32_of_small (x : Int) (h0 : -2 ^ 31 ≤ x) (h1 : x < 2 ^ 31) : int32 x = x := by
  unfold int32; omega

theorem uint32_of_small (x : Nat) (h1 : x < 2 ^ 32) : uint32 (x : Int) = x := by
  unfold uint32; omega

theorem uint32_neg (x : Nat) (h0 : 0 < x) (h1 : x < 2 ^ 32) : uint32 (-(x : Int)) = 2 ^ 32 - x := by
  unfold uint32; omega

theorem ft_lsb_eq (i : Nat) (h0 : 0 < i) (h1 : i < 2 ^ 31) :
    ft_lsb (i : Int) = some ((lowbit i : Nat) : Int) := by
  have hnot : Int.not (i : Int) + 1 = -(i : Int) := by
    cases i with
    | zero => omega
    | succ k =>
      show Int.negSucc (k + 1) + 1 = -((k + 1 : Nat) : Int)
      rw [Int.negSucc_eq]; push_cast; ring
  have hle := lowbit_le i h0
  unfold ft_lsb c_assert
  have hc : decide (0 < (i : Int) ∧ (i : Int) < 2 ^ ft_max_bits) = true := by
    simp [ft_max_bits]; omega
  rw [hc, hnot, uint32_of_small i (by omega), uint32_neg i h0 (by omega),
    land_neg 32 i h0 (by omega)]
  simp
  exact int32_of_small _ (by omega) (by omega)

/-! ### Memory access -/

theorem load_nat (mem : List Nat) (i : Nat) : load mem (i : Int) = mem[i]? := by
  unfold load; simp

theorem store_nat (mem : List Nat) (i v : Nat) (h : i < mem.length) :
    store mem (i : Int) v = some (mem.set i v) := by
  unfold store; simp [h]

theorem copy_loop (a : List Nat) : ∀ (k : Nat) (tree : List Nat), k ≤ a.length → k ≤ tree.length →
    (List.range' 0 k).foldlM (ft_init_copy a) tree = some (a.take k ++ tree.drop k) := by
  intro k
  induction k with
  | zero => intro tree _ _; simp
  | succ k ih =>
    intro tree h1 h2
    rw [List.range'_concat, List.foldlM_append, ih tree (by omega) (by omega)]
    have hk : k < a.length := by omega
    simp only [Option.some_bind, mul_one, zero_add, one_mul, List.foldlM_cons, List.foldlM_nil,
      ft_init_copy,
      load_nat, List.getElem?_eq_getElem hk, Option.bind_eq_bind]
    rw [store_nat _ _ _ (by simp; omega)]
    simp only [Option.some_bind, Option.pure_def, Option.bind_some]
    congr 1
    apply List.ext_getElem?
    intro j
    rw [List.getElem?_set]
    simp only [List.getElem?_append, List.getElem?_take, List.length_take, List.getElem?_drop,
      List.length_append, List.length_drop]
    by_cases hj : k = j
    · subst hj
      have : min k a.length = k := by omega
      have : min (k+1) a.length = k + 1 := by omega
      simp [*]
      omega
    · have e1 : min k a.length = k := by omega
      have e2 : min (k+1) a.length = k + 1 := by omega
      simp only [hj, if_false, e1, e2]
      by_cases c1 : j < k
      · have : j < k + 1 := by omega
        simp [c1, this]
      · have : ¬ j < k + 1 := by omega
        simp [c1, this]
        congr 1; omega

/-! ### Segment sums and the Fenwick cell value -/

theorem seg_self (a : List Nat) (x : Nat) : seg a x x = 0 := by simp [seg]

theorem seg_consec (a : List Nat) (x y z : Nat) (h1 : x ≤ y) (h2 : y ≤ z) :
    seg a x y + seg a y z = seg a x z := by
  unfold seg; exact Finset.sum_Ico_consecutive _ h1 h2

theorem seg_succ (a : List Nat) (x y : Nat) (h : x ≤ y) :
    seg a x (y + 1) = seg a x y + a.getD y 0 := by
  unfold seg; exact Finset.sum_Ico_succ_top h _

theorem seg_mono_right (a : List Nat) (x y z : Nat) (h1 : x ≤ y) (h2 : y ≤ z) :
    seg a x y ≤ seg a x z := by
  rw [← seg_consec a x y z h1 h2]; omega

theorem seg_le_zero (a : List Nat) (x y : Nat) (h1 : x ≤ y) : seg a x y ≤ seg a 0 y := by
  rw [← seg_consec a 0 x y (by omega) h1]; omega

theorem seg_zero_eq_take (a : List Nat) : ∀ k : Nat, seg a 0 k = (a.take k).sum := by
  intro k
  induction k with
  | zero => simp [seg]
  | succ k ih =>
    rw [seg_succ a 0 k (by omega), ih]
    by_cases h : k < a.length
    · rw [List.sum_take_succ a k h, List.getD_eq_getElem a 0 h]
    · have h1 : a.length ≤ k := by omega
      rw [List.take_of_length_le h1, List.take_of_length_le (by omega),
        List.getD_eq_default a 0 h1]
      simp

theorem seg_le_sum (a : List Nat) (x y : Nat) (h : x ≤ y) : seg a x y ≤ a.sum := by
  have h1 := seg_le_zero a x y h
  have h2 := seg_mono_right a 0 y (max y a.length) (by omega) (by omega)
  rw [seg_zero_eq_take a (max y a.length), List.take_of_length_le (by omega)] at h2
  omega

theorem seg_Ioc (a : List Nat) (x y : Nat) :
    ∑ k in Finset.Ioc x y, a.getD (k - 1) 0 = seg a x y := by
  unfold seg
  rcases Nat.lt_or_ge y x with h | h
  · rw [Finset.Ioc_eq_empty (by omega), Finset.Ico_eq_empty (by omega)]; simp
  · induction y, h using Nat.le_induction with
    | base => simp
    | succ y hy ih =>
      rw [Finset.sum_Ioc_succ_top hy, Finset.sum_Ico_succ_top hy, ih]
      simp

/-! ### Children of a Fenwick node -/

theorem two_lowbit_dvd_add : ∀ x : Nat, 0 < x → 2 * lowbit x ∣ x + lowbit x := by
  intro x
  induction x using Nat.strong_induction_on with
  | _ x ih =>
    intro hx
    rcases Nat.even_or_odd' x with ⟨h, rfl | rfl⟩
    · rw [lowbit_two_mul]
      have := ih h (by omega) (by omega)
      rw [← Nat.mul_add]
      exact Nat.mul_dvd_mul_left 2 this
    · rw [lowbit_odd]; exact ⟨h + 1, by ring⟩

theorem lowbit_sub_pow (j s t : Nat) (hj : 0 < j) (ht : lowbit j = 2 ^ t) (hs : s < t) :
    lowbit (j - 2 ^ s) = 2 ^ s ∧ 2 ^ s < j := by
  have hd : 2 ^ t ∣ j := ht ▸ lowbit_dvd j
  have hlt : 2 ^ s < 2 ^ t := Nat.pow_lt_pow_right (by norm_num) hs
  have hle : 2 ^ t ≤ j := Nat.le_of_dvd hj hd
  have d1 : 2 ^ (s + 1) ∣ j := (pow_dvd_pow 2 (by omega)).trans hd
  have d0 : 2 ^ s ∣ j := (pow_dvd_pow 2 (by omega)).trans hd
  refine ⟨lowbit_eq_of _ s (by omega) ((Nat.dvd_sub' d0 (dvd_refl _))) ?_, by omega⟩
  intro hc
  have : 2 ^ (s + 1) ∣ j - (j - 2 ^ s) := Nat.dvd_sub' d1 hc
  have e : j - (j - 2 ^ s) = 2 ^ s := by omega
  rw [e] at this
  have := Nat.le_of_dvd (by positivity) this
  have : 2 ^ s < 2 ^ (s + 1) := Nat.pow_lt_pow_right (by norm_num) (by omega)
  omega

theorem child_exp (c j s t : Nat) (hc : 0 < c) (hcj : c + lowbit c = j)
    (hs : lowbit c = 2 ^ s) (ht : lowbit j = 2 ^ t) : s < t := by
  have h1 := two_lowbit_dvd_add c hc
  rw [hcj, hs] at h1
  have h2 : 2 ^ (s + 1) ∣ j := by rw [pow_succ, mul_comm]; exact h1
  have h3 := pow_dvd_lowbit (s + 1) j (by omega) h2
  rw [ht] at h3
  have := (Nat.pow_dvd_pow_iff_le_right (by norm_num)).1 h3
  omega

theorem childSum_succ (a : List Nat) (j k : Nat) :
    childSum a j (k + 1) =
      childSum a j k + if (k + 1) + lowbit (k + 1) = j then fen a (k + 1) else 0 := by
  unfold childSum; rw [Finset.sum_range_succ]

theorem childSum_stable (a : List Nat) (j : Nat) : ∀ k : Nat, j - 1 ≤ k →
    childSum a j k = childSum a j (j - 1) := by
  intro k hk
  induction k, hk using Nat.le_induction with
  | base => rfl
  | succ k hk ih =>
    rw [childSum_succ, ih]
    have := lowbit_pos (k + 1) (by omega)
    have : ¬ ((k + 1) + lowbit (k + 1) = j) := by omega
    simp [this]

theorem childSum_mono (a : List Nat) (j k k' : Nat) (h : k ≤ k') :
    childSum a j k ≤ childSum a j k' := by
  induction k', h using Nat.le_induction with
  | base => exact le_refl _
  | succ k' _ ih => rw [childSum_succ]; omega

theorem children_tele (a : List Nat) (j t : Nat) (hj : 0 < j) (ht : lowbit j = 2 ^ t) :
    ∀ t' : Nat, t' ≤ t →
      ∑ s in Finset.range t', fen a (j - 2 ^ s) = seg a (j - 2 ^ t') (j - 1) := by
  intro t'
  induction t' with
  | zero => intro _; simp [seg_self]
  | succ t' ih =>
    intro h
    rw [Finset.sum_range_succ, ih (by omega)]
    obtain ⟨h1, h2⟩ := lowbit_sub_pow j t' t hj ht (by omega)
    unfold fen
    rw [h1]
    have e : j - 2 ^ t' - 2 ^ t' = j - 2 ^ (t' + 1) := by rw [pow_succ]; omega
    rw [e, add_comm]
    have hp : 0 < 2 ^ t' := by positivity
    exact seg_consec a _ _ _ (by rw [pow_succ]; omega) (by omega)

theorem childSum_full (a : List Nat) (j : Nat) (hj : 0 < j) :
    childSum a j (j - 1) = seg a (j - lowbit j) (j - 1) := by
  obtain ⟨t, ht⟩ := lowbit_pow j hj
  have key : (Finset.range (j - 1)).filter (fun c => (c + 1) + lowbit (c + 1) = j)
      = (Finset.range t).image (fun s => j - 2 ^ s - 1) := by
    ext c
    simp only [Finset.mem_filter, Finset.mem_range, Finset.mem_image]
    constructor
    · rintro ⟨h1, h2⟩
      obtain ⟨s, hs⟩ := lowbit_pow (c + 1) (by omega)
      refine ⟨s, child_exp (c + 1) j s t (by omega) h2 hs ht, ?_⟩
      rw [hs] at h2; omega
    · rintro ⟨s, hs, rfl⟩
      obtain ⟨h1, h2⟩ := lowbit_sub_pow j s t hj ht hs
      have hp : 0 < 2 ^ s := by positivity
      have e : j - 2 ^ s - 1 + 1 = j - 2 ^ s := by omega
      rw [e, h1]
      constructor <;> omega
  unfold childSum
  rw [← Finset.sum_filter, key, Finset.sum_image]
  · rw [ht, ← children_tele a j t hj ht t (le_refl _)]
    apply Finset.sum_congr rfl
    intro s hs
    obtain ⟨h1, h2⟩ := lowbit_sub_pow j s t hj ht (Finset.mem_range.1 hs)
    have hp : 0 < 2 ^ s := by positivity
    congr 1; omega
  · intro s1 hs1 s2 hs2 heq
    have hs1' := Finset.mem_range.1 hs1
    have hs2' := Finset.mem_range.1 hs2
    obtain ⟨_, h2⟩ := lowbit_sub_pow j s1 t hj ht hs1'
    obtain ⟨_, h2'⟩ := lowbit_sub_pow j s2 t hj ht hs2'
    have hp1 : 0 < 2 ^ s1 := by positivity
    have hp2 : 0 < 2 ^ s2 := by positivity
    have : 2 ^ s1 = 2 ^ s2 := by
      simp only at heq
      omega
    exact Nat.pow_right_injective (le_refl 2) this

theorem fen_eq_child (a : List Nat) (j : Nat) (hj : 0 < j) :
    a.getD (j - 1) 0 + childSum a j (j - 1) = fen a j := by
  rw [childSum_full a j hj]
  unfold fen
  have h1 := lowbit_pos j hj
  have h2 := lowbit_le j hj
  have := seg_succ a (j - lowbit j) (j - 1) (by omega)
  have e : j - 1 + 1 = j := by omega
  rw [e] at this
  omega

theorem cell_bound (a : List Nat) (j k : Nat) (hj : 0 < j) :
    a.getD (j - 1) 0 + childSum a j k ≤ fen a j := by
  rw [← fen_eq_child a j hj]
  rcases Nat.le_total k (j - 1) with h | h
  · have := childSum_mono a j k (j - 1) h; omega
  · rw [childSum_stable a j k h]

theorem fen_le_sum (a : List Nat) (j : Nat) : fen a j ≤ a.sum := by
  unfold fen; exact seg_le_sum a _ _ (by omega)

/-! ### Correctness of `ft_init` -/

theorem obind_some {α β : Type} (x : α) (f : α → Option β) : (some x >>= f) = f x := by
  simp

theorem obind_none {α β : Type} (f : α → Option β) : (none >>= f) = none := by
  simp

theorem load_of_eq (mem : List Nat) (x : Int) (j : Nat) (h : x = (j : Int)) :
    load mem x = mem[j]? := by
  subst h; exact load_nat mem j

theorem store_of_eq (mem : List Nat) (x : Int) (j v : Nat) (h : x = (j : Int))
    (hj : j < mem.length) : store mem x v = some (mem.set j v) := by
  subst h; exact store_nat mem j v hj

theorem uint64_of_small (x : Nat) (h : x < 2 ^ 64) : uint64 x = x := by
  unfold uint64; omega

theorem ft_init_fold_eval (a : List Nat) (n k : Nat) (tree : List Nat)
    (hn : n < 2 ^ 30) (hk : k < n) (inv : CellInv a n k tree) :
    ft_init_fold (n : Int) tree (k + 1) =
      if (k + 1) + lowbit (k + 1) ≤ n then
        if a.getD (k + lowbit (k + 1)) 0 + childSum a (k + 1 + lowbit (k + 1)) k
            < UINT64_MAX - fen a (k + 1) then
          some (tree.set (k + lowbit (k + 1))
            (uint64 (a.getD (k + lowbit (k + 1)) 0 + childSum a (k + 1 + lowbit (k + 1)) k
              + fen a (k + 1))))
        else none
      else some tree := by
  obtain ⟨hlen, hcell⟩ := inv
  have hl0 := lowbit_pos (k + 1) (by omega)
  have hl1 := lowbit_le (k + 1) (by omega)
  unfold ft_init_fold
  rw [ft_lsb_eq (k + 1) (by omega) (by omega)]
  simp only [obind_some]
  have hi32 : int32 (((k + 1 : Nat) : Int) + ((lowbit (k + 1) : Nat) : Int))
      = ((k + 1 : Nat) : Int) + ((lowbit (k + 1) : Nat) : Int) :=
    int32_of_small _ (by omega) (by omega)
  rw [hi32]
  by_cases hp : (k + 1) + lowbit (k + 1) ≤ n
  · have hp' : (((k + 1 : Nat) : Int) + ((lowbit (k + 1) : Nat) : Int)) ≤ (n : Int) := by omega
    rw [if_pos hp', if_pos hp]
    rw [load_of_eq tree _ (k + lowbit (k + 1)) (by push_cast; omega),
      hcell (k + lowbit (k + 1)) (by omega)]
    rw [load_of_eq tree _ k (by push_cast; omega), hcell k hk]
    simp only [obind_some]
    have e1 : k + lowbit (k + 1) + 1 = (k + 1) + lowbit (k + 1) := by omega
    have hfen : a.getD k 0 + childSum a (k + 1) k = fen a (k + 1) :=
      fen_eq_child a (k + 1) (by omega)
    rw [e1, hfen]
    unfold c_assert
    by_cases hc : a.getD (k + lowbit (k + 1)) 0 + childSum a (k + 1 + lowbit (k + 1)) k
        < UINT64_MAX - fen a (k + 1)
    · rw [if_pos hc]
      simp only [hc, decide_True, if_true, obind_some]
      exact store_of_eq tree _ (k + lowbit (k + 1)) _ (by push_cast; omega) (by omega)
    · rw [if_neg hc]
      simp only [hc, decide_False, Bool.false_eq_true, if_false, obind_none]
  · have hp' : ¬ ((((k + 1 : Nat) : Int) + ((lowbit (k + 1) : Nat) : Int)) ≤ (n : Int)) := by
      omega
    rw [if_neg hp', if_neg hp]
    rfl

theorem ft_init_fold_sound (a : List Nat) (n k : Nat) (tree tree' : List Nat)
    (hn : n < 2 ^ 30) (hk : k < n) (inv : CellInv a n k tree)
    (h : ft_init_fold (n : Int) tree (k + 1) = some tree') : CellInv a n (k + 1) tree' := by
  rw [ft_init_fold_eval a n k tree hn hk inv] at h
  obtain ⟨hlen, hcell⟩ := inv
  have hl0 := lowbit_pos (k + 1) (by omega)
  by_cases hp : (k + 1) + lowbit (k + 1) ≤ n
  · rw [if_pos hp] at h
    by_cases hc : a.getD (k + lowbit (k + 1)) 0 + childSum a (k + 1 + lowbit (k + 1)) k
        < UINT64_MAX - fen a (k + 1)
    · rw [if_pos hc] at h
      have hu : uint64 (a.getD (k + lowbit (k + 1)) 0 + childSum a (k + 1 + lowbit (k + 1)) k
          + fen a (k + 1)) = a.getD (k + lowbit (k + 1)) 0
          + childSum a (k + 1 + lowbit (k + 1)) k + fen a (k + 1) := by
        apply uint64_of_small
        unfold UINT64_MAX at hc
        omega
      rw [hu] at h
      have h' := Option.some.inj h
      subst h'
      refine ⟨by simp [hlen], ?_⟩
      intro j hj
      rw [List.getElem?_set, childSum_succ]
      by_cases hjp : k + lowbit (k + 1) = j
      · subst hjp
        have hlt : k + lowbit (k + 1) < tree.length := by omega
        have e1 : k + lowbit (k + 1) + 1 = (k + 1) + lowbit (k + 1) := by omega
        simp only [if_true, hlt, e1]
        rw [Nat.add_assoc]
      · have hne : ¬ (k + 1 + lowbit (k + 1) = j + 1) := by omega
        simp only [hjp, if_false, hne, add_zero]
        exact hcell j hj
    · rw [if_neg hc] at h
      exact absurd h (by simp)
  · rw [if_neg hp] at h
    have h' := Option.some.inj h
    subst h'
    refine ⟨hlen, ?_⟩
    intro j hj
    rw [childSum_succ]
    have hne : ¬ (k + 1 + lowbit (k + 1) = j + 1) := by omega
    simp only [hne, if_false, add_zero]
    exact hcell j hj

theorem ft_init_fold_total (a : List Nat) (n k : Nat) (tree : List Nat)
    (hn : n < 2 ^ 30) (hs : ∀ j : Nat, 1 ≤ j → j ≤ n → fen a j < 2 ^ 64 - 1) (hk : k < n)
    (inv : CellInv a n k tree) :
    ∃ tree', ft_init_fold (n : Int) tree (k + 1) = some tree' := by
  rw [ft_init_fold_eval a n k tree hn hk inv]
  by_cases hp : (k + 1) + lowbit (k + 1) ≤ n
  · rw [if_pos hp]
    have hb := cell_bound a ((k + 1) + lowbit (k + 1)) (k + 1) (by omega)
    rw [childSum_succ, if_pos rfl] at hb
    have hb2 := hs ((k + 1) + lowbit (k + 1)) (by omega) hp
    have hl0 := lowbit_pos (k + 1) (by omega)
    have e2 : k + 1 + lowbit (k + 1) - 1 = k + lowbit (k + 1) := by omega
    rw [e2] at hb
    have hc : a.getD (k + lowbit (k + 1)) 0 + childSum a (k + 1 + lowbit (k + 1)) k
        < UINT64_MAX - fen a (k + 1) := by
      unfold UINT64_MAX; omega
    rw [if_pos hc]
    exact ⟨_, rfl⟩
  · rw [if_neg hp]
    exact ⟨_, rfl⟩

theorem foldlM_range_succ (f : List Nat → Nat → Option (List Nat)) (k : Nat) (tree : List Nat) :
    (List.range' 1 (k + 1)).foldlM f tree =
      ((List.range' 1 k).foldlM f tree >>= fun t => f t (k + 1)) := by
  rw [List.range'_concat, List.foldlM_append]
  congr 1
  funext t
  simp only [mul_one, List.foldlM_cons, List.foldlM_nil, one_mul, add_comm 1 k]
  cases f t (k + 1) <;> rfl

theorem ft_init_loop_sound (a : List Nat) (n : Nat) (hn : n < 2 ^ 30) :
    ∀ (k : Nat) (tree tree' : List Nat), k ≤ n → CellInv a n 0 tree →
      (List.range' 1 k).foldlM (ft_init_fold (n : Int)) tree = some tree' →
        CellInv a n k tree' := by
  intro k
  induction k with
  | zero =>
    intro tree tree' _ inv h
    simp only [List.range'_zero, List.foldlM_nil, Option.pure_def, Option.some.injEq] at h
    subst h; exact inv
  | succ k ih =>
    intro tree tree' hk inv h
    rw [foldlM_range_succ] at h
    cases h1 : (List.range' 1 k).foldlM (ft_init_fold (n : Int)) tree with
    | none => rw [h1, obind_none] at h; exact absurd h (by simp)
    | some t1 =>
      rw [h1, obind_some] at h
      exact ft_init_fold_sound a n k t1 tree' hn (by omega) (ih tree t1 (by omega) inv h1) h

theorem ft_init_loop_total (a : List Nat) (n : Nat) (hn : n < 2 ^ 30)
    (hs : ∀ j : Nat, 1 ≤ j → j ≤ n → fen a j < 2 ^ 64 - 1) :
    ∀ (k : Nat) (tree : List Nat), k ≤ n → CellInv a n 0 tree →
      ∃ tree', (List.range' 1 k).foldlM (ft_init_fold (n : Int)) tree = some tree' := by
  intro k
  induction k with
  | zero => intro tree _ _; exact ⟨tree, rfl⟩
  | succ k ih =>
    intro tree hk inv
    obtain ⟨t1, h1⟩ := ih tree (by omega) inv
    have inv1 := ft_init_loop_sound a n hn k tree t1 (by omega) inv h1
    obtain ⟨t2, h2⟩ := ft_init_fold_total a n k t1 hn hs (by omega) inv1
    exact ⟨t2, by rw [foldlM_range_succ, h1, obind_some, h2]⟩

/-- Unfolding of `ft_init` on capacities that fit `int32_t`. -/
theorem ft_init_unfold (tree a : List Nat) (n : Nat) (h2 : 2 ≤ n) (hn : n < 2 ^ 31)
    (ha : a.length = n) (ht : tree.length = n) :
    ft_init tree n a = (List.range' 1 n).foldlM (ft_init_fold (n : Int)) a := by
  have hm : int32 (n : Int) = (n : Int) := int32_of_small _ (by omega) (by omega)
  unfold ft_init c_assert
  have hc : decide (2 ≤ n ∧ n ≤ 2 ^ ft_max_bits) = true := by
    simp [ft_max_bits]; omega
  rw [hc]
  simp only [if_true, obind_some, hm, Int.toNat_ofNat]
  rw [copy_loop a n tree (by omega) (by omega)]
  simp only [obind_some]
  rw [List.take_of_length_le (by omega), List.drop_of_length_le (by omega), List.append_nil]

theorem cellInv_zero (a : List Nat) (n : Nat) (ha : a.length = n) : CellInv a n 0 a := by
  refine ⟨ha, ?_⟩
  intro j hj
  simp [childSum, List.getD_eq_getElem?_getD, List.getElem?_eq_getElem (ha ▸ hj)]

theorem built_of_cellInv (a : List Nat) (n : Nat) (tree : List Nat) (inv : CellInv a n n tree) :
    Built a n tree := by
  refine ⟨inv.1, ?_⟩
  intro j hj
  rw [inv.2 j hj, childSum_stable a (j + 1) n (by omega)]
  have hf := fen_eq_child a (j + 1) (by omega)
  rw [Nat.add_sub_cancel] at hf ⊢
  rw [hf]

/-- Whenever `ft_init` returns, the returned cells satisfy the Fenwick invariant. -/
theorem ft_init_sound (tree a tree' : List Nat) (n : Nat) (h2 : 2 ≤ n) (hn : n < 2 ^ 30)
    (ha : a.length = n) (ht : tree.length = n) (h : ft_init tree n a = some tree') :
    Built a n tree' := by
  rw [ft_init_unfold tree a n h2 (by omega) ha ht] at h
  exact built_of_cellInv a n tree'
    (ft_init_loop_sound a n hn n a tree' (le_refl _) (cellInv_zero a n ha) h)

/-- Total correctness of `ft_init` when every cell sum stays below `UINT64_MAX`. -/
theorem ft_init_spec (tree a : List Nat) (n : Nat) (h2 : 2 ≤ n) (hn : n < 2 ^ 30)
    (ha : a.length = n) (ht : tree.length = n)
    (hs : ∀ j : Nat, 1 ≤ j → j ≤ n → fen a j < 2 ^ 64 - 1) :
    ∃ tree', ft_init tree n a = some tree' ∧ Built a n tree' := by
  obtain ⟨t', h'⟩ := ft_init_loop_total a n hn hs n a (le_refl _) (cellInv_zero a n ha)
  have h : ft_init tree n a = some t' := by
    rw [ft_init_unfold tree a n h2 (by omega) ha ht]; exact h'
  exact ⟨t', h, ft_init_sound tree a t' n h2 hn ha ht h⟩

/-- Total correctness of `ft_init` when the sum of all weights stays below `UINT64_MAX`. -/
theorem ft_init_spec_sum (tree a : List Nat) (n : Nat) (h2 : 2 ≤ n) (hn : n < 2 ^ 30)
    (ha : a.length = n) (ht : tree.length = n) (hs : a.sum < 2 ^ 64 - 1) :
    ∃ tree', ft_init tree n a = some tree' ∧ Built a n tree' :=
  ft_init_spec tree a n h2 hn ha ht (fun j _ _ => lt_of_le_of_lt (fen_le_sum a j) hs)

/-! ### Correctness of `ft_query` -/

theorem fen_add_head (a : List Nat) (j : Nat) (hj : 0 < j) :
    fen a j + seg a 0 (j - lowbit j) = seg a 0 j := by
  unfold fen
  rw [add_comm]
  exact seg_consec a 0 _ _ (by omega) (by omega)

theorem ft_query_loop_spec (a tree : List Nat) (n : Nat) (hn : n < 2 ^ 31)
    (hb : Built a n tree) :
    ∀ (j fuel acc : Nat), j ≤ n → j < fuel → acc + seg a 0 j < 2 ^ 64 →
      ft_query_loop tree n fuel acc ((j : Int) - 1) = some (acc + seg a 0 j) := by
  intro j
  induction j using Nat.strong_induction_on with
  | _ j ih =>
    intro fuel acc hj hf hacc
    obtain ⟨fuel, rfl⟩ : ∃ f, fuel = f + 1 := ⟨fuel - 1, by omega⟩
    unfold ft_query_loop
    rcases Nat.eq_zero_or_pos j with rfl | hpos
    · simp [seg_self]
    · have hl0 := lowbit_pos j hpos
      have hl1 := lowbit_le j hpos
      have hge : (0 : Int) ≤ (j : Int) - 1 := by omega
      have hm : int32 (n : Int) = (n : Int) := int32_of_small _ (by omega) (by omega)
      have hlt : (j : Int) - 1 < (n : Int) := by omega
      rw [if_pos hge, hm, if_pos hlt]
      rw [load_of_eq tree _ (j - 1) (by omega), hb.2 (j - 1) (by omega)]
      have e1 : j - 1 + 1 = j := by omega
      have hfen := fen_add_head a j hpos
      have hu : uint64 (acc + fen a j) = acc + fen a j := uint64_of_small _ (by omega)
      have hi : int32 ((j : Int) - 1 + 1) = (j : Int) :=
        (int32_of_small _ (by omega) (by omega)).trans (by omega)
      simp only [obind_some, e1, hu, hi, Option.pure_def]
      rw [ft_lsb_eq j hpos (by omega)]
      simp only [obind_some]
      have hi2 : int32 ((j : Int) - 1 - ((lowbit j : Nat) : Int)) = ((j - lowbit j : Nat) : Int) - 1 :=
        (int32_of_small _ (by omega) (by omega)).trans (by omega)
      rw [hi2, ih (j - lowbit j) (by omega) fuel (acc + fen a j) (by omega) (by omega) (by omega)]
      rw [Nat.add_assoc, hfen]

theorem ft_query_spec (a tree : List Nat) (n : Nat) (h2 : 2 ≤ n) (hn : n < 2 ^ 31)
    (hb : Built a n tree) (hs : a.sum < 2 ^ 64) (j : Nat) (hj : j ≤ n) :
    ft_query tree n ((j : Int) - 1) = some (seg a 0 j) := by
  unfold ft_query c_assert
  have hc : decide (2 ≤ n ∧ n ≤ 2 ^ ft_max_bits) = true := by
    simp [ft_max_bits]; omega
  have hle := seg_le_sum a 0 j (by omega)
  rw [hc]
  simp only [if_true, obind_some]
  rw [ft_query_loop_spec a tree n hn hb j _ 0 hj (by omega) (by omega)]
  simp

/-! ### The brute-force reference `sum_of` -/

theorem sum_of_loop (a : List Nat) (x : Nat) : ∀ c : Nat, x + c ≤ a.length → a.sum < 2 ^ 64 →
    (List.range c).foldlM (fun (sum : Nat) (d : Nat) => do
      let v ← load a ((x : Int) + d)
      pure (uint64 (sum + v))) 0 = some (seg a x (x + c)) := by
  intro c
  induction c with
  | zero => intro _ _; simp [seg_self]
  | succ c ih =>
    intro h hs
    rw [List.range_succ, List.foldlM_append, ih (by omega) hs]
    have hlt : x + c < a.length := by omega
    have hle := seg_le_sum a x (x + (c + 1)) (by omega)
    have hsucc := seg_succ a x (x + c) (by omega)
    rw [List.getD_eq_getElem a 0 hlt] at hsucc
    have e : x + (c + 1) = x + c + 1 := by omega
    rw [e] at hle ⊢
    have hu : uint64 (seg a x (x + c) + a[x + c]) = seg a x (x + c) + a[x + c] :=
      uint64_of_small _ (by omega)
    simp only [obind_some, List.foldlM_cons, List.foldlM_nil]
    rw [load_of_eq a _ (x + c) (by push_cast; rfl), List.getElem?_eq_getElem hlt]
    simp only [obind_some, Option.pure_def, hu, hsucc]

theorem sum_of_spec (a : List Nat) (x y : Nat) (hxy : x ≤ y) (hy : y ≤ a.length)
    (hs : a.sum < 2 ^ 64) : sum_of a (x : Int) ((y : Int) - 1) = some (seg a x y) := by
  unfold sum_of
  have e : ((y : Int) - 1 + 1 - (x : Int)).toNat = y - x := by omega
  rw [e, sum_of_loop a x (y - x) (by omega) hs]
  congr 2; omega

/-! ### Behaviour at the capacity `2 ^ 31` -/

theorem ft_init_cap31 (tree a : List Nat) : ft_init tree (2 ^ 31) a = some tree := by
  rfl

theorem ft_query_cap31_zero (tree : List Nat) : ft_query tree (2 ^ 31) 0 = some 0 := by
  rfl

theorem ft_query_neg_one (tree : List Nat) (n : Nat) (h2 : 2 ≤ n) (hn : n ≤ 2 ^ 31) :
    ft_query tree n (-1) = some 0 := by
  unfold ft_query c_assert
  have hc : decide (2 ≤ n ∧ n ≤ 2 ^ ft_max_bits) = true := by
    simp [ft_max_bits]; omega
  rw [hc]
  rfl

theorem replicate_head (N v : Nat) (hN : 0 < N) : (List.replicate N v)[0]? = some v := by
  rw [List.getElem?_replicate, if_pos hN]

theorem sum_of_replicate_head (N v : Nat) (hN : 0 < N) (hv : v < 2 ^ 64) :
    sum_of (List.replicate N v) 0 0 = some v := by
  unfold sum_of
  have e : ((0 : Int) + 1 - 0).toNat = 1 := rfl
  have e0 : ((0 : Int) + ((0 : Nat) : Int)) = ((0 : Nat) : Int) := rfl
  rw [e]
  simp only [List.range_succ, List.range_zero, List.nil_append, List.foldlM_cons,
    List.foldlM_nil, e0, load_nat, replicate_head N v hN, obind_some, Option.pure_def,
    Nat.zero_add, uint64_of_small v hv]

theorem replicate_sum_one (N : Nat) : (List.replicate N 1).sum = N := by
  rw [List.sum_replicate]; simp

theorem seg_Ioc_one (a : List Nat) : ∑ k in Finset.Ioc (1 - 1) 1, a.getD (k - 1) 0 = a.getD 0 0 := by
  simp

/-! ### Which cells cover a position -/

theorem lowbit_lt_dvd (x j : Nat) (hx : 0 < x) (hj : 0 < j) (h : lowbit x < lowbit j) :
    2 * lowbit x ∣ lowbit j := by
  obtain ⟨s, hs⟩ := lowbit_pow x hx
  obtain ⟨t, ht⟩ := lowbit_pow j hj
  rw [hs, ht] at h ⊢
  have hst : s < t := (Nat.pow_lt_pow_iff_right (by norm_num)).1 h
  have : 2 * 2 ^ s = 2 ^ (s + 1) := by rw [pow_succ]; ring
  rw [this]
  exact pow_dvd_pow 2 hst

theorem lowbit_le_dvd (x j : Nat) (hx : 0 < x) (hj : 0 < j) (h : lowbit x ≤ lowbit j) :
    lowbit x ∣ lowbit j := by
  obtain ⟨s, hs⟩ := lowbit_pow x hx
  obtain ⟨t, ht⟩ := lowbit_pow j hj
  rw [hs, ht] at h ⊢
  exact pow_dvd_pow 2 ((Nat.pow_le_pow_iff_right (by norm_num)).1 h)

theorem lowbit_add_le_pow (w q : Nat) (h0 : 0 < q) (h1 : q < 2 ^ w) : q + lowbit q ≤ 2 ^ w := by
  obtain ⟨s, hs⟩ := lowbit_pow q h0
  have hle := lowbit_le q h0
  have hsw : s < w := by
    rw [hs] at hle
    have h2 : 2 ^ s < 2 ^ w := by omega
    exact (Nat.pow_lt_pow_iff_right (by norm_num)).1 h2
  have d1 : lowbit q ∣ 2 ^ w := by rw [hs]; exact pow_dvd_pow 2 (by omega)
  exact Nat.le_of_lt_add_of_dvd (by omega) (Dvd.dvd.add (lowbit_dvd q) (dvd_refl _)) d1

theorem inside_cell (x j : Nat) (hx : 0 < x) (h1 : j - lowbit j < x) (h2 : x < j) :
    lowbit x < lowbit j ∧ x + lowbit x ≤ j := by
  have hj : 0 < j := by omega
  have hlj := lowbit_le j hj
  have hlt : lowbit x < lowbit j := by
    by_contra hc
    have hd : lowbit j ∣ x := (lowbit_le_dvd j x hj hx (by omega)).trans (lowbit_dvd x)
    have hd2 : lowbit j ∣ j - lowbit j := Nat.dvd_sub' (lowbit_dvd j) (dvd_refl _)
    have := Nat.le_of_lt_add_of_dvd (show x < (j - lowbit j) + lowbit j by omega) hd hd2
    omega
  refine ⟨hlt, ?_⟩
  have hd : lowbit x ∣ j := (lowbit_le_dvd x j hx hj (by omega)).trans (lowbit_dvd j)
  exact Nat.le_of_lt_add_of_dvd (by omega) (Dvd.dvd.add (lowbit_dvd x) (dvd_refl _)) hd

theorem covers_step (q j : Nat) (hq : 0 < q) (hne : j ≠ q) :
    covers (q + lowbit q) j ↔ covers q j := by
  have hl0 := lowbit_pos q hq
  unfold covers
  constructor
  · rintro ⟨h1, h2⟩
    refine ⟨?_, by omega⟩
    by_contra hc
    have hj : 0 < j := by omega
    have hlj0 := lowbit_pos j hj
    have hlj := lowbit_le j hj
    -- `2 * lowbit q` divides `lowbit j`
    have h2q : 2 * lowbit q ∣ lowbit (q + lowbit q) :=
      by
        obtain ⟨s, hs⟩ := lowbit_pow q hq
        have := pow_dvd_lowbit (s + 1) (q + lowbit q) (by omega)
          (by rw [pow_succ, mul_comm, ← hs]; exact two_lowbit_dvd_add q hq)
        rw [pow_succ, mul_comm, ← hs] at this
        exact this
    have hdj : 2 * lowbit q ∣ lowbit j := by
      rcases Nat.lt_or_ge (q + lowbit q) j with hlt | hge
      · have := (inside_cell (q + lowbit q) j (by omega) h1 hlt).1
        exact h2q.trans (lowbit_le_dvd _ _ (by omega) hj (by omega))
      · have : q + lowbit q = j := by omega
        rw [← this]; exact h2q
    have hdb : 2 * lowbit q ∣ j - lowbit j :=
      Nat.dvd_sub' (hdj.trans (lowbit_dvd j)) hdj
    have hdq : lowbit q ∣ j - lowbit j := (Dvd.intro_left 2 rfl).trans hdb
    have hle : j - lowbit j ≤ q :=
      Nat.le_of_lt_add_of_dvd (by omega) hdq (lowbit_dvd q)
    have heq : j - lowbit j = q := by omega
    rw [heq] at hdb
    exact lowbit_not_two_dvd q hq hdb
  · rintro ⟨h1, h2⟩
    have := (inside_cell q j hq h1 (by omega)).2
    omega

/-! ### Correctness of `ft_update` -/

theorem Cells.congr {f g : Nat → Nat} {n : Nat} {tree : List Nat}
    (h : ∀ j : Nat, j < n → f j = g j) (hc : Cells f n tree) : Cells g n tree :=
  ⟨hc.1, fun j hj => by rw [hc.2 j hj, h j hj]⟩

theorem Cells.set {f : Nat → Nat} {n : Nat} {tree : List Nat} (hc : Cells f n tree)
    (p v : Nat) : Cells (fun j => if j = p then v else f j) n (tree.set p v) := by
  refine ⟨by simp [hc.1], ?_⟩
  intro j hj
  rw [List.getElem?_set]
  by_cases hjp : p = j
  · subst hjp
    have : p < tree.length := by rw [hc.1]; exact hj
    simp [this]
  · have : ¬ j = p := fun h => hjp h.symm
    simp only [hjp, this, if_false]
    exact hc.2 j hj

theorem Cells.eq {f : Nat → Nat} {n : Nat} {t1 t2 : List Nat}
    (h1 : Cells f n t1) (h2 : Cells f n t2) : t1 = t2 := by
  apply List.ext_getElem?
  intro j
  rcases Nat.lt_or_ge j n with hj | hj
  · rw [h1.2 j hj, h2.2 j hj]
  · rw [List.getElem?_eq_none (by rw [h1.1]; exact hj),
      List.getElem?_eq_none (by rw [h2.1]; exact hj)]

theorem ft_update_loop_spec (n inc : Nat) (hn : n < 2 ^ 31) :
    ∀ (fuel q : Nat) (f : Nat → Nat) (tree : List Nat), 0 < q → 0 < fuel → n + 2 ≤ q + fuel →
      Cells f n tree → (∀ j : Nat, j < n → covers q (j + 1) → f j + inc ≤ UINT64_MAX) →
      ∃ tree', ft_update_loop (n : Int) inc fuel tree ((q : Int) - 1) = some tree' ∧
        Cells (fun j => f j + if covers q (j + 1) then inc else 0) n tree' := by
  intro fuel
  induction fuel with
  | zero => intro q f tree _ h; omega
  | succ fuel ih =>
    intro q f tree hq _ hfuel hc hov
    have hl0 := lowbit_pos q hq
    have hl1 := lowbit_le q hq
    unfold ft_update_loop
    by_cases hqn : q ≤ n
    · have hlt : (q : Int) - 1 < (n : Int) := by omega
      have hq1 : q - 1 + 1 = q := by omega
      have hcov : covers q (q - 1 + 1) := by rw [hq1]; unfold covers; omega
      have hbound := hov (q - 1) (by omega) hcov
      have hpow := lowbit_add_le_pow 31 q hq (by omega)
      rw [if_pos hlt, load_of_eq tree _ (q - 1) (by omega), hc.2 (q - 1) (by omega)]
      have hdec : decide (f (q - 1) ≤ UINT64_MAX - inc) = true := by
        simp only [decide_eq_true_eq]; omega
      have hu : uint64 (f (q - 1) + inc) = f (q - 1) + inc :=
        uint64_of_small _ (by unfold UINT64_MAX at hbound; omega)
      have hi : int32 ((q : Int) - 1 + 1) = (q : Int) :=
        (int32_of_small _ (by omega) (by omega)).trans (by omega)
      have hst : store tree ((q : Int) - 1) (f (q - 1) + inc)
          = some (tree.set (q - 1) (f (q - 1) + inc)) :=
        store_of_eq tree _ (q - 1) _ (by omega) (by rw [hc.1]; omega)
      unfold c_assert
      simp only [obind_some, hdec, if_true, hu, hst, hi]
      rw [ft_lsb_eq q hq (by omega)]
      simp only [obind_some]
      have hi2 : int32 ((q : Int) - 1 + ((lowbit q : Nat) : Int))
          = ((q + lowbit q : Nat) : Int) - 1 :=
        (int32_of_small _ (by omega) (by omega)).trans (by push_cast; omega)
      rw [hi2]
      have hc' := hc.set (q - 1) (f (q - 1) + inc)
      obtain ⟨tree', h', hcells⟩ := ih (q + lowbit q) _ _ (by omega) (by omega) (by omega) hc'
        (by
          intro j hj hcv
          have hne : j + 1 ≠ q := by unfold covers at hcv; omega
          have : ¬ j = q - 1 := by omega
          simp only [this, if_false]
          exact hov j hj ((covers_step q (j + 1) hq hne).1 hcv))
      refine ⟨tree', h', hcells.congr ?_⟩
      intro j hj
      by_cases hjq : j = q - 1
      · have hncov : ¬ covers (q + lowbit q) (j + 1) := by unfold covers; omega
        have hcov' : covers q (j + 1) := by rw [hjq]; exact hcov
        simp only [hjq, if_true, hncov, if_false, add_zero]
        rw [if_neg (by rw [← hjq]; exact hncov), if_pos hcov]
        rfl
      · have hne : j + 1 ≠ q := by omega
        simp only [hjq, if_false]
        by_cases hcv : covers q (j + 1)
        · rw [if_pos hcv, if_pos ((covers_step q (j + 1) hq hne).2 hcv)]
        · rw [if_neg hcv, if_neg (fun h => hcv ((covers_step q (j + 1) hq hne).1 h))]
    · have hlt : ¬ ((q : Int) - 1 < (n : Int)) := by omega
      rw [if_neg hlt]
      refine ⟨tree, rfl, hc.congr ?_⟩
      intro j hj
      have hncov : ¬ covers q (j + 1) := by unfold covers; omega
      rw [if_neg hncov]; rfl

theorem ft_update_spec (tree : List Nat) (n p inc : Nat) (f : Nat → Nat) (h2 : 2 ≤ n)
    (hn : n < 2 ^ 31) (hp : p < n) (hc : Cells f n tree)
    (hov : ∀ j : Nat, j < n → covers (p + 1) (j + 1) → f j + inc ≤ UINT64_MAX) :
    ∃ tree', ft_update tree n (p : Int) inc = some tree' ∧
      Cells (fun j => f j + if covers (p + 1) (j + 1) then inc else 0) n tree' := by
  obtain ⟨tree', h, hc'⟩ := ft_update_loop_spec n inc hn (n + 1) (p + 1) f tree (by omega)
    (by omega) (by omega) hc hov
  refine ⟨tree', ?_, hc'⟩
  unfold ft_update c_assert
  have hc1 : decide (2 ≤ n ∧ n ≤ 2 ^ ft_max_bits) = true := by
    simp [ft_max_bits]; omega
  have hm : int32 (n : Int) = (n : Int) := int32_of_small _ (by omega) (by omega)
  have hc2 : decide (0 ≤ (p : Int) ∧ (p : Int) < (n : Int)) = true := by
    simp only [decide_eq_true_eq]; omega
  have e : (((p + 1 : Nat) : Int) - 1) = (p : Int) := by omega
  rw [e] at h
  simp only [hc1, if_true, obind_some, hm, hc2]
  exact h

theorem getD_set_add (a : List Nat) (p d k : Nat) (hp : p < a.length) :
    (a.set p (a.getD p 0 + d)).getD k 0 = a.getD k 0 + if k = p then d else 0 := by
  rw [List.getD_eq_getElem?_getD, List.getD_eq_getElem?_getD, List.getElem?_set]
  by_cases h : p = k
  · subst h
    simp [hp, List.getD_eq_getElem?_getD]
  · have : ¬ k = p := fun e => h e.symm
    simp [h, this]

theorem seg_set_add (a : List Nat) (p d x : Nat) (hp : p < a.length) : ∀ y : Nat, x ≤ y →
    seg (a.set p (a.getD p 0 + d)) x y = seg a x y + if x ≤ p ∧ p < y then d else 0 := by
  intro y hy
  induction y, hy using Nat.le_induction with
  | base =>
    have : ¬ (x ≤ p ∧ p < x) := by omega
    simp [seg_self, this]
  | succ y hxy ih =>
    rw [seg_succ _ x y hxy, seg_succ _ x y hxy, ih, getD_set_add a p d y hp]
    by_cases h1 : y = p
    · subst h1
      have c1 : ¬ (x ≤ y ∧ y < y) := by omega
      have c2 : x ≤ y ∧ y < y + 1 := by omega
      rw [if_neg c1, if_pos c2, if_pos rfl]
      omega
    · by_cases h2 : x ≤ p ∧ p < y
      · have c2 : x ≤ p ∧ p < y + 1 := by omega
        rw [if_pos h2, if_pos c2, if_neg h1]
        omega
      · have c2 : ¬ (x ≤ p ∧ p < y + 1) := by omega
        rw [if_neg h2, if_neg c2, if_neg h1]
        omega

theorem fen_set_add (a : List Nat) (p d j : Nat) (hp : p < a.length) :
    fen (a.set p (a.getD p 0 + d)) (j + 1) =
      fen a (j + 1) + if covers (p + 1) (j + 1) then d else 0 := by
  unfold fen
  rw [seg_set_add a p d _ hp (j + 1) (by omega)]
  congr 1
  unfold covers
  by_cases h : j + 1 - lowbit (j + 1) ≤ p ∧ p < j + 1
  · rw [if_pos h, if_pos (by omega)]
  · rw [if_neg h, if_neg (by omega)]

theorem seg_full (a : List Nat) : seg a 0 a.length = a.sum := by
  rw [seg_zero_eq_take, List.take_length]

theorem sum_set_add (a : List Nat) (p d : Nat) (hp : p < a.length) :
    (a.set p (a.getD p 0 + d)).sum = a.sum + d := by
  have h := seg_set_add a p d 0 hp a.length (by omega)
  have hl : (a.set p (a.getD p 0 + d)).length = a.length := by simp
  rw [← seg_full, hl, h, seg_full, if_pos (by omega)]

theorem built_iff_cells (a : List Nat) (n : Nat) (tree : List Nat) :
    Built a n tree ↔ Cells (fun j => fen a (j + 1)) n tree := Iff.rfl

/-- Updating a built tree yields the tree built from the updated weights. -/
theorem ft_update_built (a tree : List Nat) (n p d : Nat) (h2 : 2 ≤ n) (hn : n < 2 ^ 31)
    (ha : a.length = n) (hp : p < n) (hb : Built a n tree) (hs : a.sum + d < 2 ^ 64) :
    ∃ tree', ft_update tree n (p : Int) d = some tree' ∧
      Built (a.set p (a.getD p 0 + d)) n tree' := by
  obtain ⟨tree', h, hc⟩ := ft_update_spec tree n p d (fun j => fen a (j + 1)) h2 hn hp hb
    (by
      intro j _ _
      have := fen_le_sum a (j + 1)
      show fen a (j + 1) + d ≤ UINT64_MAX
      unfold UINT64_MAX; omega)
  refine ⟨tree', h, hc.congr ?_⟩
  intro j _
  exact (fen_set_add a p d j (by omega)).symm

/-! ### Correctness of `ft_index_of` -/

theorem lowbit_add_pow (i c : Nat) (h : 2 ^ (c + 1) ∣ i) : lowbit (i + 2 ^ c) = 2 ^ c := by
  have hp : 0 < 2 ^ c := by positivity
  have hd : 2 ^ c ∣ i := (pow_dvd_pow 2 (by omega)).trans h
  refine lowbit_eq_of _ c (by omega) (Dvd.dvd.add hd (dvd_refl _)) ?_
  intro hc
  have h1 : 2 ^ (c + 1) ∣ i + 2 ^ c - i := Nat.dvd_sub' hc h
  rw [Nat.add_sub_cancel_left] at h1
  have h2 := Nat.le_of_dvd hp h1
  have h3 : 2 ^ c < 2 ^ (c + 1) := Nat.pow_lt_pow_right (by norm_num) (by omega)
  omega

theorem seg_mono (a : List Nat) (y z : Nat) (h : y ≤ z) : seg a 0 y ≤ seg a 0 z :=
  seg_mono_right a 0 y z (by omega) h

theorem ft_index_of_loop_spec (a tree : List Nat) (n target : Nat) (hn : n ≤ 2 ^ 31)
    (hb : Built a n tree) :
    ∀ (c fuel value i : Nat), c + 2 ≤ fuel → 2 ^ (c + 1) ∣ i → i + 2 ^ (c + 1) ≤ n →
      value + seg a 0 i = target → target < seg a 0 (i + 2 ^ (c + 1)) →
      ∃ i' : Nat, ft_index_of_loop tree n fuel value i (2 ^ c) = some (target - seg a 0 i', i') ∧
        i' < n ∧ seg a 0 i' ≤ target ∧ target < seg a 0 (i' + 1) := by
  intro c
  induction c with
  | zero =>
    intro fuel value i hf hdvd hin hv ht
    obtain ⟨fuel, rfl⟩ : ∃ f, fuel = f + 2 := ⟨fuel - 2, by omega⟩
    have hl : lowbit (i + 1) = 1 := lowbit_add_pow i 0 hdvd
    have hm : (2 : Nat) ^ 0 = 1 := rfl
    have hm1 : (2 : Nat) ^ (0 + 1) = 2 := rfl
    rw [hm1] at hin ht
    rw [hm]
    unfold ft_index_of_loop
    have hne : (1 : Nat) ≠ 0 := by omega
    have hu : uint32 ((i : Int) + ((1 : Nat) : Int)) = i + 1 := by
      have := uint32_of_small (i + 1) (by omega)
      rw [← this]; rfl
    have hu1 : uint32 (((i + 1 : Nat) : Int) - 1) = i := by
      have := uint32_of_small i (by omega)
      rw [← this]; congr 1; omega
    have hsh : (1 : Nat) >>> 1 = 0 := rfl
    have hfen : fen a (i + 1) = seg a i (i + 1) := by
      unfold fen; rw [hl]
      congr 1
    have hcons := seg_consec a 0 i (i + 1) (by omega) (by omega)
    simp only [if_pos hne, hu, if_pos (show i + 1 ≤ n by omega), hu1, load_nat,
      hb.2 i (by omega), obind_some, hsh, hfen]
    by_cases hge : value ≥ seg a i (i + 1)
    · rw [if_pos hge]
      unfold ft_index_of_loop
      refine ⟨i + 1, ?_, by omega, by omega, ?_⟩
      · simp only [ne_eq, not_true_eq_false, if_false]
        congr 2; omega
      · exact ht
    · rw [if_neg hge]
      unfold ft_index_of_loop
      refine ⟨i, ?_, by omega, by omega, by omega⟩
      simp only [ne_eq, not_true_eq_false, if_false]
      congr 2; omega
  | succ c ih =>
    intro fuel value i hf hdvd hin hv ht
    obtain ⟨fuel, rfl⟩ : ∃ f, fuel = f + 1 := ⟨fuel - 1, by omega⟩
    have hp : 0 < 2 ^ (c + 1) := by positivity
    have hpp : 2 ^ (c + 1 + 1) = 2 * 2 ^ (c + 1) := by rw [pow_succ]; ring
    rw [hpp] at hin ht
    unfold ft_index_of_loop
    have hne : 2 ^ (c + 1) ≠ 0 := by omega
    have hu : uint32 ((i : Int) + ((2 ^ (c + 1) : Nat) : Int)) = i + 2 ^ (c + 1) := by
      have := uint32_of_small (i + 2 ^ (c + 1)) (by omega)
      rw [← this]; congr 1
    have hu1 : uint32 (((i + 2 ^ (c + 1) : Nat) : Int) - 1) = i + 2 ^ (c + 1) - 1 := by
      have := uint32_of_small (i + 2 ^ (c + 1) - 1) (by omega)
      rw [← this]; congr 1; omega
    have hsh : (2 ^ (c + 1)) >>> 1 = 2 ^ c := by
      rw [Nat.shiftRight_eq_div_pow, pow_succ]; simp
    have hfen : fen a (i + 2 ^ (c + 1)) = seg a i (i + 2 ^ (c + 1)) := by
      unfold fen; rw [lowbit_add_pow i (c + 1) hdvd]
      congr 1; omega
    have e1 : i + 2 ^ (c + 1) - 1 + 1 = i + 2 ^ (c + 1) := by omega
    have hcons := seg_consec a 0 i (i + 2 ^ (c + 1)) (by omega) (by omega)
    have hd1 : 2 ^ (c + 1) ∣ i := (Dvd.intro_left 2 hpp.symm).trans hdvd
    simp only [if_pos hne, hu, if_pos (show i + 2 ^ (c + 1) ≤ n by omega), hu1, load_nat,
      hb.2 (i + 2 ^ (c + 1) - 1) (by omega), obind_some, hsh, e1, hfen]
    by_cases hge : value ≥ seg a i (i + 2 ^ (c + 1))
    · rw [if_pos hge]
      exact ih fuel _ (i + 2 ^ (c + 1)) (by omega) (Dvd.dvd.add hd1 (dvd_refl _)) (by omega)
        (by omega) (by rw [show i + 2 ^ (c + 1) + 2 ^ (c + 1) = i + 2 * 2 ^ (c + 1) by omega]; exact ht)
    · rw [if_neg hge]
      exact ih fuel value i (by omega) hd1 (by omega) hv (by omega)

theorem lowbit_pow_self (b : Nat) : lowbit (2 ^ b) = 2 ^ b := by
  have hp : 0 < 2 ^ b := by positivity
  refine lowbit_eq_of _ b hp (dvd_refl _) ?_
  intro hc
  have h2 := Nat.le_of_dvd hp hc
  have h3 : 2 ^ b < 2 ^ (b + 1) := Nat.pow_lt_pow_right (by norm_num) (by omega)
  omega

theorem pow_two_land (b : Nat) : 2 ^ b &&& (2 ^ b - 1) = 0 := by
  rw [Nat.and_pow_two_sub_one_eq_mod]; simp

theorem pow_le_exp (b : Nat) (h : 2 ^ b ≤ 2 ^ 31) : b ≤ 31 :=
  (Nat.pow_le_pow_iff_right (by norm_num)).1 h

theorem ft_index_of_total (tree : List Nat) (n b target total : Nat) (hb1 : 1 ≤ b)
    (hnb : n = 2 ^ b) (hn : n ≤ 2 ^ 31) (hl : tree[n - 1]? = some total)
    (hge : total ≤ target) : ft_index_of tree n target = some ((n : Int) - 1) := by
  have h2 : 2 ≤ n := by
    rw [hnb]; calc 2 = 2 ^ 1 := rfl
      _ ≤ 2 ^ b := Nat.pow_le_pow_right (by norm_num) hb1
  unfold ft_index_of c_assert
  have hc1 : decide (2 ≤ n ∧ n ≤ 2 ^ ft_max_bits) = true := by
    simp [ft_max_bits]; omega
  have hc2 : decide (n &&& (n - 1) = 0) = true := by
    simp only [decide_eq_true_eq]; rw [hnb]; exact pow_two_land b
  have hi : int32 ((n : Int) - 1) = (n : Int) - 1 := int32_of_small _ (by omega) (by omega)
  simp only [hc1, hc2, if_true, obind_some]
  rw [load_of_eq tree _ (n - 1) (by omega), hl]
  simp only [obind_some, if_pos (show target ≥ total from hge), hi, Option.pure_def]

theorem ft_index_of_descent (a tree : List Nat) (n b target : Nat) (hb1 : 1 ≤ b)
    (hnb : n = 2 ^ b) (hn : n ≤ 2 ^ 31) (hb : Built a n tree) (hlt : target < seg a 0 n) :
    ∃ i' : Nat, i' < n ∧ ft_index_of tree n target = some ((i' : Int) - 1) ∧
      seg a 0 i' ≤ target ∧ target < seg a 0 (i' + 1) := by
  have hb31 : b ≤ 31 := pow_le_exp b (hnb ▸ hn)
  have h2 : 2 ≤ n := by
    rw [hnb]; calc 2 = 2 ^ 1 := rfl
      _ ≤ 2 ^ b := Nat.pow_le_pow_right (by norm_num) hb1
  obtain ⟨c, rfl⟩ : ∃ c, b = c + 1 := ⟨b - 1, by omega⟩
  have hfen : fen a n = seg a 0 n := by
    unfold fen; rw [hnb, lowbit_pow_self]; simp
  have hl : tree[n - 1]? = some (seg a 0 n) := by
    have := hb.2 (n - 1) (by omega)
    rw [show n - 1 + 1 = n by omega, hfen] at this
    exact this
  obtain ⟨i', hloop, hi'n, hle, hlt'⟩ := ft_index_of_loop_spec a tree n target hn hb c 33 target 0
    (by omega) (dvd_zero _) (by omega) (by simp [seg_self]) (by rw [Nat.zero_add, ← hnb]; exact hlt)
  refine ⟨i', hi'n, ?_, hle, hlt'⟩
  unfold ft_index_of c_assert
  have hc1 : decide (2 ≤ n ∧ n ≤ 2 ^ ft_max_bits) = true := by
    simp [ft_max_bits]; omega
  have hc2 : decide (n &&& (n - 1) = 0) = true := by
    simp only [decide_eq_true_eq]; rw [hnb]; exact pow_two_land (c + 1)
  have hsh : n >>> 1 = 2 ^ c := by
    rw [Nat.shiftRight_eq_div_pow, hnb, pow_succ]; simp
  have hpc : 2 ^ c < 2 ^ 32 := Nat.pow_lt_pow_right (by norm_num) (by omega)
  have hu : uint32 ((n >>> 1 : Nat) : Int) = 2 ^ c := by
    rw [hsh]; exact uint32_of_small _ hpc
  simp only [hc1, hc2, if_true, obind_some]
  rw [load_of_eq tree _ (n - 1) (by omega), hl]
  simp only [obind_some, if_neg (show ¬ target ≥ seg a 0 n by omega), hu, hloop, Option.pure_def]
  congr 1
  rcases Nat.eq_zero_or_pos i' with h0 | hpos
  · subst h0
    have : ¬ ((0 : Nat) = 0 ∧ target - seg a 0 0 < target) := by
      rw [seg_self]; omega
    rw [if_neg this]
    decide
  · have : ¬ (i' = 0 ∧ target - seg a 0 i' < target) := by omega
    rw [if_neg this]
    have hu2 : uint32 ((i' : Int) - 1) = i' - 1 := by
      have := uint32_of_small (i' - 1) (by omega)
      rw [← this]; congr 1; omega
    rw [hu2]
    exact (int32_of_small _ (by omega) (by omega)).trans (by omega)

/-! ### Length preservation and the descent on a constant array -/

theorem store_length (mem : List Nat) (i : Int) (v : Nat) (mem' : List Nat)
    (h : store mem i v = some mem') : mem'.length = mem.length := by
  unfold store at h
  by_cases hc : 0 ≤ i ∧ i.toNat < mem.length
  · rw [if_pos hc] at h
    have := Option.some.inj h
    subst this
    simp
  · rw [if_neg hc] at h
    exact absurd h (by simp)

theorem bind_eq_some_elim {α β : Type} {x : Option α} {f : α → Option β} {b : β}
    (h : (x >>= f) = some b) : ∃ v, x = some v ∧ f v = some b := by
  cases x with
  | none => rw [obind_none] at h; exact absurd h (by simp)
  | some v => rw [obind_some] at h; exact ⟨v, rfl, h⟩

theorem ft_init_copy_length (a tree : List Nat) (i : Nat) (tree' : List Nat)
    (h : ft_init_copy a tree i = some tree') : tree'.length = tree.length := by
  unfold ft_init_copy at h
  obtain ⟨v, _, h2⟩ := bind_eq_some_elim h
  exact store_length _ _ _ _ h2

theorem ft_init_fold_length (m : Int) (tree : List Nat) (i : Nat) (tree' : List Nat)
    (h : ft_init_fold m tree i = some tree') : tree'.length = tree.length := by
  unfold ft_init_fold at h
  obtain ⟨l, _, h2⟩ := bind_eq_some_elim h
  simp only at h2
  by_cases hc : int32 ((i : Int) + l) ≤ m
  · rw [if_pos hc] at h2
    obtain ⟨tp, _, h3⟩ := bind_eq_some_elim h2
    obtain ⟨ti, _, h4⟩ := bind_eq_some_elim h3
    obtain ⟨_, _, h5⟩ := bind_eq_some_elim h4
    exact store_length _ _ _ _ h5
  · rw [if_neg hc] at h2
    have := Option.some.inj h2
    subst this
    rfl

theorem foldlM_length (f : List Nat → Nat → Option (List Nat))
    (hf : ∀ t i t', f t i = some t' → t'.length = t.length) :
    ∀ (l : List Nat) (t t' : List Nat), l.foldlM f t = some t' → t'.length = t.length := by
  intro l
  induction l with
  | nil =>
    intro t t' h
    simp only [List.foldlM_nil, Option.pure_def, Option.some.injEq] at h
    subst h; rfl
  | cons x xs ih =>
    intro t t' h
    rw [List.foldlM_cons] at h
    obtain ⟨t1, h1, h2⟩ := bind_eq_some_elim h
    rw [ih t1 t' h2, hf t x t1 h1]

theorem ft_init_length (tree a tree' : List Nat) (n : Nat) (h : ft_init tree n a = some tree') :
    tree'.length = tree.length := by
  unfold ft_init at h
  obtain ⟨_, _, h1⟩ := bind_eq_some_elim h
  obtain ⟨t1, h2, h3⟩ := bind_eq_some_elim h1
  rw [foldlM_length _ (ft_init_fold_length _) _ _ _ h3,
    foldlM_length _ (ft_init_copy_length a) _ _ _ h2]

theorem ft_init_cap (tree a tree' : List Nat) (n : Nat) (h : ft_init tree n a = some tree') :
    2 ≤ n ∧ n ≤ 2 ^ 31 := by
  unfold ft_init c_assert at h
  obtain ⟨_, h1, _⟩ := bind_eq_some_elim h
  by_cases hc : decide (2 ≤ n ∧ n ≤ 2 ^ ft_max_bits) = true
  · simpa [ft_max_bits] using hc
  · rw [if_neg hc] at h1
    exact absurd h1 (by simp)

theorem ft_index_of_loop_const (N v value : Nat) (hv : value < v) :
    ∀ (c fuel : Nat), c + 2 ≤ fuel → 2 ^ c ≤ N → c < 32 →
      ft_index_of_loop (List.replicate N v) N fuel value 0 (2 ^ c) = some (value, 0) := by
  intro c
  induction c with
  | zero =>
    intro fuel hf hN _
    obtain ⟨fuel, rfl⟩ : ∃ f, fuel = f + 2 := ⟨fuel - 2, by omega⟩
    have h1 : (2 : Nat) ^ 0 = 1 := rfl
    rw [h1] at hN ⊢
    unfold ft_index_of_loop
    have hu : uint32 (((0 : Nat) : Int) + ((1 : Nat) : Int)) = 1 := by decide
    have hu1 : uint32 (((1 : Nat) : Int) - 1) = 0 := by decide
    have hl : load (List.replicate N v) ((0 : Nat) : Int) = some v := by
      rw [load_nat]; exact replicate_head N v (by omega)
    have hsh : (1 : Nat) >>> 1 = 0 := rfl
    simp only [if_pos (show (1 : Nat) ≠ 0 by omega), hu, if_pos hN, hu1, hl, obind_some,
      if_neg (show ¬ value ≥ v by omega), hsh]
    unfold ft_index_of_loop
    simp
  | succ c ih =>
    intro fuel hf hN hc
    obtain ⟨fuel, rfl⟩ : ∃ f, fuel = f + 1 := ⟨fuel - 1, by omega⟩
    have hp : 0 < 2 ^ (c + 1) := by positivity
    have hpc : 2 ^ (c + 1) < 2 ^ 32 := Nat.pow_lt_pow_right (by norm_num) hc
    have hle : 2 ^ c ≤ 2 ^ (c + 1) := Nat.pow_le_pow_right (by norm_num) (by omega)
    unfold ft_index_of_loop
    have hu : uint32 (((0 : Nat) : Int) + ((2 ^ (c + 1) : Nat) : Int)) = 2 ^ (c + 1) := by
      have e : ((0 : Nat) : Int) + ((2 ^ (c + 1) : Nat) : Int) = ((2 ^ (c + 1) : Nat) : Int) := by
        omega
      rw [e]; exact uint32_of_small _ hpc
    have hu1 : uint32 (((2 ^ (c + 1) : Nat) : Int) - 1) = 2 ^ (c + 1) - 1 := by
      have := uint32_of_small (2 ^ (c + 1) - 1) (by omega)
      rw [← this]; congr 1; omega
    have hl : load (List.replicate N v) ((2 ^ (c + 1) - 1 : Nat) : Int) = some v := by
      rw [load_nat, List.getElem?_replicate, if_pos (by omega)]
    have hsh : (2 ^ (c + 1)) >>> 1 = 2 ^ c := by
      rw [Nat.shiftRight_eq_div_pow, pow_succ]; simp
    simp only [if_pos (show 2 ^ (c + 1) ≠ 0 by omega), hu, if_pos hN, hu1, hl, obind_some,
      if_neg (show ¬ value ≥ v by omega), hsh]
    exact ih fuel (by omega) (by omega) (by omega)

/-- At the capacity `2 ^ 31` on cells that all hold `v`, a target below `v` descends to `-1`. -/
theorem ft_index_of_cap31_const (v target : Nat) (hv : target < v) :
    ft_index_of (List.replicate (2 ^ 31) v) (2 ^ 31) target = some (-1) := by
  unfold ft_index_of c_assert
  have hc1 : decide (2 ≤ 2 ^ 31 ∧ 2 ^ 31 ≤ 2 ^ ft_max_bits) = true := by decide
  have hc2 : decide (2 ^ 31 &&& (2 ^ 31 - 1) = 0) = true := by decide
  have hl : load (List.replicate (2 ^ 31) v) (((2 ^ 31 : Nat) : Int) - 1) = some v := by
    rw [load_of_eq _ _ (2 ^ 31 - 1) (by norm_num), List.getElem?_replicate,
      if_pos (by norm_num)]
  have hu : uint32 (((2 ^ 31 >>> 1 : Nat)) : Int) = 2 ^ 30 := by decide
  have hloop := ft_index_of_loop_const (2 ^ 31) v target hv 30 33 (by omega)
    (by norm_num) (by omega)
  simp only [hc1, hc2, if_true, obind_some, hl, if_neg (show ¬ (target ≥ v) by omega), hu,
    hloop, Option.pure_def, Nat.lt_irrefl, and_false, if_false]
  decide

theorem ft_index_of_cap31_zero :
    ft_index_of (List.replicate (2 ^ 31) 0) (2 ^ 31) 0 = some (2 ^ 31 - 1) := by
  have h := ft_index_of_total (List.replicate (2 ^ 31) 0) (2 ^ 31) 31 0 0 (by omega) rfl
    (le_refl _) (by rw [List.getElem?_replicate, if_pos (by norm_num)]) (le_refl _)
  rw [h]
  norm_num

theorem brackets_iff (tree : List Nat) (n target : Nat) (q : Int) :
    brackets tree n target q ↔ ∃ x y : Nat, ft_query tree n q = some x ∧
      ft_query tree n (q + 1) = some y ∧ x ≤ target ∧ target < y := by
  unfold brackets
  constructor
  · intro h
    split at h
    · next x y hx hy => exact ⟨x, y, hx, hy, h.1, h.2⟩
    · exact absurd h (by simp)
  · rintro ⟨x, y, hx, hy, h1, h2⟩
    rw [hx, hy]
    exact ⟨h1, h2⟩

/-! ### Capacities from `2 ^ 30` up: `i + ft_lsb(i)` leaves `int32_t` -/

theorem foldlM_none_at (f : List Nat → Nat → Option (List Nat)) (x : Nat)
    (hx : ∀ t, f t x = none) : ∀ (l1 l2 : List Nat) (t : List Nat),
    (l1 ++ x :: l2).foldlM f t = none := by
  intro l1
  induction l1 with
  | nil =>
    intro l2 t
    rw [List.nil_append, List.foldlM_cons, hx t, obind_none]
  | cons y ys ih =>
    intro l2 t
    rw [List.cons_append, List.foldlM_cons]
    cases f t y with
    | none => rw [obind_none]
    | some t1 => rw [obind_some]; exact ih l2 t1

theorem ft_init_fold_cap30 (m : Int) (hm : -2 ^ 31 ≤ m) (tree : List Nat) :
    ft_init_fold m tree (2 ^ 30) = none := by
  unfold ft_init_fold
  have hl : ft_lsb (((2 ^ 30 : Nat)) : Int) = some ((2 ^ 30 : Nat) : Int) := by decide
  have hp : int32 (((2 ^ 30 : Nat) : Int) + ((2 ^ 30 : Nat) : Int)) = -2 ^ 31 := by decide
  have hld : load tree (-2 ^ 31 - 1) = none := by
    unfold load; rw [if_neg (by omega)]
  simp only [hl, obind_some, hp, if_pos hm, hld, obind_none]

/-- For every capacity `2 ^ 30 ≤ n < 2 ^ 31` the build does not complete: at `i = 2 ^ 30` the
parent index `i + ft_lsb(i)` wraps to a negative `int32_t` and the cell access is out of
range. -/
theorem ft_init_cap30 (tree a : List Nat) (n : Nat) (h30 : 2 ^ 30 ≤ n) (hn : n < 2 ^ 31) :
    ft_init tree n a = none := by
  have hm : int32 (n : Int) = (n : Int) := int32_of_small _ (by omega) (by omega)
  have hsplit : List.range' 1 n
      = List.range' 1 (2 ^ 30 - 1) ++ 2 ^ 30 :: List.range' (2 ^ 30 + 1) (n - 2 ^ 30) := by
    have h2 := List.range'_append 1 (2 ^ 30 - 1) ((n - 2 ^ 30) + 1) 1
    have e1 : 1 + 1 * (2 ^ 30 - 1) = 2 ^ 30 := by norm_num
    have e2 : n - 2 ^ 30 + 1 + (2 ^ 30 - 1) = n := by omega
    rw [List.range'_succ, e1, e2] at h2
    exact h2.symm
  unfold ft_init
  simp only [hm, Int.toNat_ofNat]
  cases c_assert (decide (2 ≤ n ∧ n ≤ 2 ^ ft_max_bits)) with
  | none => rfl
  | some _ =>
    rw [obind_some]
    cases (List.range' 0 n).foldlM (ft_init_copy a) tree with
    | none => rfl
    | some t1 =>
      rw [obind_some, hsplit]
      exact foldlM_none_at _ _ (ft_init_fold_cap30 (n : Int) (by omega)) _ _ t1

/-- Capacities above `2 ^ 31` are rejected by the capacity assertion. -/
theorem ft_init_reject (tree a : List Nat) (n : Nat) (h : 2 ^ 31 < n) :
    ft_init tree n a = none := by
  unfold ft_init c_assert
  have hc : decide (2 ≤ n ∧ n ≤ 2 ^ ft_max_bits) = false := by
    simp only [decide_eq_false_iff_not, ft_max_bits]; omega
  rw [hc]
  rfl

/-! ### Helpers for the lookup on built trees -/

theorem pow_exp_pos (n b : Nat) (h2 : 2 ≤ n) (hnb : n = 2 ^ b) : 1 ≤ b := by
  rcases Nat.eq_zero_or_pos b with h0 | h0
  · subst h0; simp at hnb; omega
  · exact h0

theorem built_total (a tree : List Nat) (n b : Nat) (h2 : 2 ≤ n) (hnb : n = 2 ^ b)
    (hb : Built a n tree) : tree[n - 1]? = some (seg a 0 n) := by
  have hfen : fen a n = seg a 0 n := by
    unfold fen; rw [hnb, lowbit_pow_self]; simp
  have h := hb.2 (n - 1) (by omega)
  rw [show n - 1 + 1 = n by omega, hfen] at h
  exact h

theorem seg_one (a : List Nat) : seg a 0 1 = a.getD 0 0 := by
  rw [seg_succ a 0 0 (le_refl _), seg_self]; simp

theorem seg_lt_of_pos (a : List Nat) (hpos : ∀ k : Nat, k < a.length → 0 < a.getD k 0)
    (x y : Nat) (hxy : x < y) (hy : y ≤ a.length) : seg a 0 x < seg a 0 y := by
  have h1 := seg_mono a (x + 1) y (by omega)
  have h2 := seg_succ a 0 x (by omega)
  have h3 := hpos x (by omega)
  omega

theorem replicate_getD (N v k : Nat) (hk : k < N) : (List.replicate N v).getD k 0 = v := by
  rw [List.getD_eq_getElem?_getD, List.getElem?_replicate, if_pos hk]; rfl

theorem getElem_getD_some (tree : List Nat) (j : Nat) (hj : j < tree.length) :
    tree[j]? = some (tree.getD j 0) := by
  rw [List.getD_eq_getElem?_getD, List.getElem?_eq_getElem hj]; rfl

theorem cells_self (tree : List Nat) (n : Nat) (hlen : tree.length = n) :
    Cells (fun j => tree.getD j 0) n tree :=
  ⟨hlen, fun j hj => getElem_getD_some tree j (by omega)⟩

theorem append_replicate_getD (N k v w : Nat) (hk : k < N) :
    (List.replicate N v ++ [w]).getD k 0 = v := by
  rw [List.getD_eq_getElem?_getD, List.getElem?_append_left (by rw [List.length_replicate]; exact hk),
    List.getElem?_replicate, if_pos hk]
  rfl

theorem append_replicate_last (N v w : Nat) : (List.replicate N v ++ [w])[N]? = some w := by
  rw [List.getElem?_append_right (by rw [List.length_replicate])]
  simp

/-- `ft_index_of` is its two assertions followed by `ft_index_of_body`. -/
theorem ft_index_of_eq_body (tree : List Nat) (n sum : Nat) :
    ft_index_of tree n sum =
      (c_assert (decide (2 ≤ n ∧ n ≤ 2 ^ ft_max_bits)) >>= fun _ =>
        c_assert (decide (n &&& (n - 1) = 0)) >>= fun _ => ft_index_of_body tree n sum) := by
  rfl

/-! ### The descent of `ft_index_of` on arbitrary cells -/

theorem shiftRight_one_eq (m : Nat) : m >>> 1 = m / 2 := by
  rw [Nat.shiftRight_eq_div_pow]

theorem ft_index_of_loop_exit (tree : List Nat) (n fuel value i : Nat) :
    ft_index_of_loop tree n (fuel + 1) value i 0 = some (value, i) := by
  unfold ft_index_of_loop
  simp

theorem ft_index_of_loop_succ (tree : List Nat) (n fuel value i mask : Nat) (hn : n ≤ 2 ^ 31)
    (hlen : tree.length = n) (hm : mask ≠ 0) (hin : i + mask ≤ n) :
    ft_index_of_loop tree n (fuel + 1) value i mask =
      if value ≥ tree.getD (i + mask - 1) 0 then
        ft_index_of_loop tree n fuel (value - tree.getD (i + mask - 1) 0) (i + mask) (mask / 2)
      else ft_index_of_loop tree n fuel value i (mask / 2) := by
  rw [ft_index_of_loop]
  have hu : uint32 ((i : Int) + (mask : Int)) = i + mask := by
    have := uint32_of_small (i + mask) (by omega)
    rw [← this]; congr 1
  have hu1 : uint32 (((i + mask : Nat) : Int) - 1) = i + mask - 1 := by
    have := uint32_of_small (i + mask - 1) (by omega)
    rw [← this]; congr 1; omega
  have hld : tree[i + mask - 1]? = some (tree.getD (i + mask - 1) 0) := by
    rw [List.getD_eq_getElem?_getD, List.getElem?_eq_getElem (by omega)]; rfl
  simp only [if_pos hm, hu, if_pos hin, hu1, load_nat, hld, obind_some, shiftRight_one_eq]

theorem ft_index_of_loop_mono (tree : List Nat) (n : Nat) (hn : n ≤ 2 ^ 31)
    (hlen : tree.length = n) :
    ∀ (fuel v1 v2 i mask : Nat), mask < 2 ^ fuel → i + 2 * mask ≤ n → v1 ≤ v2 →
      ∃ r1 r2 : Nat × Nat, ft_index_of_loop tree n (fuel + 1) v1 i mask = some r1 ∧
        ft_index_of_loop tree n (fuel + 1) v2 i mask = some r2 ∧
        i ≤ r1.2 ∧ r1.2 ≤ r2.2 ∧ r2.2 ≤ i + (2 * mask - 1) := by
  intro fuel
  induction fuel with
  | zero =>
    intro v1 v2 i mask hm _ _
    have h0 : mask = 0 := by
      have : (2 : Nat) ^ 0 = 1 := rfl
      omega
    subst h0
    exact ⟨(v1, i), (v2, i), ft_index_of_loop_exit _ _ _ _ _, ft_index_of_loop_exit _ _ _ _ _,
      le_refl _, le_refl _, by simp⟩
  | succ fuel ih =>
    intro v1 v2 i mask hm hin hv
    rcases Nat.eq_zero_or_pos mask with h0 | hpos
    · subst h0
      exact ⟨(v1, i), (v2, i), ft_index_of_loop_exit _ _ _ _ _,
        ft_index_of_loop_exit _ _ _ _ _, le_refl _, le_refl _, by simp⟩
    · have hm2 : mask / 2 < 2 ^ fuel := by
        rw [pow_succ] at hm; omega
      rw [ft_index_of_loop_succ tree n (fuel + 1) v1 i mask hn hlen (by omega) (by omega),
        ft_index_of_loop_succ tree n (fuel + 1) v2 i mask hn hlen (by omega) (by omega)]
      by_cases h1 : v1 ≥ tree.getD (i + mask - 1) 0
      · have h2 : v2 ≥ tree.getD (i + mask - 1) 0 := by omega
        rw [if_pos h1, if_pos h2]
        obtain ⟨r1, r2, e1, e2, b1, b2, b3⟩ := ih (v1 - tree.getD (i + mask - 1) 0)
          (v2 - tree.getD (i + mask - 1) 0) (i + mask) (mask / 2) hm2 (by omega) (by omega)
        exact ⟨r1, r2, e1, e2, by omega, b2, by omega⟩
      · rw [if_neg h1]
        by_cases h2 : v2 ≥ tree.getD (i + mask - 1) 0
        · rw [if_pos h2]
          obtain ⟨r1, _, e1, _, b1, b2, b3⟩ := ih v1 v1 i (mask / 2) hm2 (by omega) (le_refl _)
          obtain ⟨_, r2, _, e2, c1, c2, c3⟩ := ih (v2 - tree.getD (i + mask - 1) 0)
            (v2 - tree.getD (i + mask - 1) 0) (i + mask) (mask / 2) hm2 (by omega) (le_refl _)
          exact ⟨r1, r2, e1, e2, b1, by omega, by omega⟩
        · rw [if_neg h2]
          obtain ⟨r1, r2, e1, e2, b1, b2, b3⟩ := ih v1 v2 i (mask / 2) hm2 (by omega) hv
          exact ⟨r1, r2, e1, e2, b1, b2, by omega⟩

theorem ft_index_of_result (v i sum : Nat) (hi : i < 2 ^ 31) :
    (if i = 0 ∧ v < sum then (-1 : Int) else int32 (uint32 ((i : Int) - 1))) = (i : Int) - 1 := by
  rcases Nat.eq_zero_or_pos i with h0 | hpos
  · subst h0
    have e : int32 (uint32 (((0 : Nat) : Int) - 1)) = -1 := by decide
    rw [e]; simp
  · have hc : ¬ (i = 0 ∧ v < sum) := by omega
    rw [if_neg hc]
    have hu2 : uint32 ((i : Int) - 1) = i - 1 := by
      have := uint32_of_small (i - 1) (by omega)
      rw [← this]; congr 1; omega
    rw [hu2]
    exact (int32_of_small _ (by omega) (by omega)).trans (by omega)

/-- On any cell array of length `n = 2 ^ b ≤ 2 ^ 31` the lookup returns `n - 1` at or above
`tree[n-1]` and otherwise the exit index of the descent minus one. -/
theorem ft_index_of_any (tree : List Nat) (n b target : Nat) (hb1 : 1 ≤ b) (hnb : n = 2 ^ b)
    (hn : n ≤ 2 ^ 31) (hlen : tree.length = n) :
    (tree.getD (n - 1) 0 ≤ target ∧ ft_index_of tree n target = some ((n : Int) - 1)) ∨
      (target < tree.getD (n - 1) 0 ∧ ∃ r : Nat × Nat,
        ft_index_of_loop tree n 33 target 0 (n / 2) = some r ∧ r.2 < n ∧
        ft_index_of tree n target = some ((r.2 : Int) - 1)) := by
  have h2 : 2 ≤ n := by
    rw [hnb]; calc 2 = 2 ^ 1 := rfl
      _ ≤ 2 ^ b := Nat.pow_le_pow_right (by norm_num) hb1
  have hld : tree[n - 1]? = some (tree.getD (n - 1) 0) := by
    rw [List.getD_eq_getElem?_getD, List.getElem?_eq_getElem (by omega)]; rfl
  rcases Nat.lt_or_ge target (tree.getD (n - 1) 0) with hlt | hge
  · right
    refine ⟨hlt, ?_⟩
    obtain ⟨r, _, e1, _, _, _, b3⟩ := ft_index_of_loop_mono tree n hn hlen 32 target target 0
      (n / 2) (by omega) (by omega) (le_refl _)
    refine ⟨r, e1, by omega, ?_⟩
    unfold ft_index_of c_assert
    have hc1 : decide (2 ≤ n ∧ n ≤ 2 ^ ft_max_bits) = true := by
      simp [ft_max_bits]; omega
    have hc2 : decide (n &&& (n - 1) = 0) = true := by
      simp only [decide_eq_true_eq]; rw [hnb]; exact pow_two_land b
    have hu : uint32 ((n >>> 1 : Nat) : Int) = n / 2 := by
      rw [shiftRight_one_eq]; exact uint32_of_small _ (by omega)
    simp only [hc1, hc2, if_true, obind_some]
    rw [load_of_eq tree _ (n - 1) (by omega), hld]
    simp only [obind_some, if_neg (show ¬ target ≥ tree.getD (n - 1) 0 by omega), hu, e1,
      Option.pure_def]
    rw [ft_index_of_result r.1 r.2 target (by omega)]
  · left
    exact ⟨hge, ft_index_of_total tree n b target _ hb1 hnb hn hld hge⟩

/-! ### Set bits and iteration counts -/

theorem popcount_zero : popcount 0 = 0 := by rw [popcount]; simp

theorem popcount_odd (h : Nat) : popcount (2 * h + 1) = popcount h + 1 := by
  rw [popcount]
  have h1 : ¬ (2 * h + 1 = 0) := by omega
  have h2 : (2 * h + 1) % 2 = 1 := by omega
  have h3 : (2 * h + 1) / 2 = h := by omega
  rw [if_neg h1, h2, h3]; omega

theorem popcount_two_mul (h : Nat) : popcount (2 * h) = popcount h := by
  rcases Nat.eq_zero_or_pos h with rfl | hp
  · rfl
  · rw [popcount]
    have h1 : ¬ (2 * h = 0) := by omega
    have h2 : (2 * h) % 2 = 0 := by omega
    have h3 : (2 * h) / 2 = h := by omega
    rw [if_neg h1, h2, h3]; omega

theorem popcount_sub_lowbit : ∀ j : Nat, 0 < j → popcount (j - lowbit j) + 1 = popcount j := by
  intro j
  induction j using Nat.strong_induction_on with
  | _ j ih =>
    intro hj
    rcases Nat.even_or_odd' j with ⟨h, rfl | rfl⟩
    · have hl := lowbit_le h (by omega)
      rw [lowbit_two_mul, popcount_two_mul, ← Nat.mul_sub, popcount_two_mul]
      exact ih h (by omega) (by omega)
    · rw [lowbit_odd, popcount_odd, Nat.add_sub_cancel, popcount_two_mul]

theorem popcount_le_self : ∀ j : Nat, popcount j ≤ j := by
  intro j
  induction j using Nat.strong_induction_on with
  | _ j ih =>
    rcases Nat.even_or_odd' j with ⟨h, rfl | rfl⟩
    · rcases Nat.eq_zero_or_pos h with rfl | hp
      · rw [popcount_zero]
      · rw [popcount_two_mul]
        have := ih h (by omega)
        omega
    · rw [popcount_odd]
      have := ih h (by omega)
      omega

theorem popcount_le_log : ∀ j : Nat, 0 < j → popcount j ≤ Nat.log 2 j + 1 := by
  intro j
  induction j using Nat.strong_induction_on with
  | _ j ih =>
    intro hj
    rcases Nat.even_or_odd' j with ⟨h, rfl | rfl⟩
    · rw [popcount_two_mul, Nat.log_of_one_lt_of_le (by norm_num) (by omega),
        show 2 * h / 2 = h by omega]
      have := ih h (by omega) (by omega)
      omega
    · rcases Nat.eq_zero_or_pos h with rfl | hp
      · rw [popcount_odd, popcount_zero]; omega
      · rw [popcount_odd, Nat.log_of_one_lt_of_le (by norm_num) (by omega),
          show (2 * h + 1) / 2 = h by omega]
        have := ih h (by omega) hp
        omega

theorem pow_le_log (s n : Nat) (hn : 0 < n) (h : 2 ^ s ≤ n) : s ≤ Nat.log 2 n :=
  (Nat.pow_le_iff_le_log (by norm_num) (by omega)).1 h

/-! ### The counting loops -/

theorem ft_query_loop_count_sound (tree : List Nat) (n : Nat) :
    ∀ (fuel sum : Nat) (i : Int) (r : Nat × Int × Nat),
      ft_query_loop_count tree n fuel sum i = some r →
      ft_query_loop tree n fuel sum i = some r.1 := by
  intro fuel
  induction fuel with
  | zero =>
    intro sum i r h
    unfold ft_query_loop_count at h
    exact absurd h (by simp)
  | succ fuel ih =>
    intro sum i r h
    unfold ft_query_loop_count at h
    unfold ft_query_loop
    by_cases hc : 0 ≤ i
    · rw [if_pos hc] at h ⊢
      by_cases hlt : i < int32 (n : Int)
      · simp only [if_pos hlt] at h ⊢
        cases hld : load tree i with
        | none => rw [hld] at h; simp only [obind_none] at h; exact absurd h (by simp)
        | some ti =>
          rw [hld] at h
          simp only [obind_some, Option.pure_def] at h ⊢
          cases hl : ft_lsb (int32 (i + 1)) with
          | none => rw [hl] at h; simp only [obind_none] at h; exact absurd h (by simp)
          | some l =>
            rw [hl] at h
            simp only [obind_some] at h ⊢
            cases hr : ft_query_loop_count tree n fuel (uint64 (sum + ti)) (int32 (i - l)) with
            | none => rw [hr] at h; simp only [obind_none] at h; exact absurd h (by simp)
            | some r' =>
              rw [hr] at h
              simp only [obind_some, Option.pure_def] at h
              rw [ih _ _ _ hr, ← Option.some.inj h]
      · simp only [if_neg hlt, obind_some, Option.pure_def] at h ⊢
        cases hl : ft_lsb (int32 (i + 1)) with
        | none => rw [hl] at h; simp only [obind_none] at h; exact absurd h (by simp)
        | some l =>
          rw [hl] at h
          simp only [obind_some] at h ⊢
          cases hr : ft_query_loop_count tree n fuel sum (int32 (i - l)) with
          | none => rw [hr] at h; simp only [obind_none] at h; exact absurd h (by simp)
          | some r' =>
            rw [hr] at h
            simp only [obind_some, Option.pure_def] at h
            rw [ih _ _ _ hr, ← Option.some.inj h]
    · rw [if_neg hc] at h ⊢
      have := Option.some.inj h
      rw [← this]

theorem ft_query_loop_count_spec (tree : List Nat) (n : Nat) (hn : n < 2 ^ 31)
    (hlen : tree.length = n) :
    ∀ (j fuel acc : Nat), j ≤ n → popcount j < fuel →
      ∃ v : Nat, ft_query_loop_count tree n fuel acc ((j : Int) - 1)
        = some (v, -1, popcount j) := by
  intro j
  induction j using Nat.strong_induction_on with
  | _ j ih =>
    intro fuel acc hj hf
    obtain ⟨fuel, rfl⟩ : ∃ f, fuel = f + 1 := ⟨fuel - 1, by omega⟩
    unfold ft_query_loop_count
    rcases Nat.eq_zero_or_pos j with rfl | hpos
    · refine ⟨acc, ?_⟩
      rw [popcount_zero]
      rfl
    · have hl0 := lowbit_pos j hpos
      have hl1 := lowbit_le j hpos
      have hge : (0 : Int) ≤ (j : Int) - 1 := by omega
      have hm : int32 (n : Int) = (n : Int) := int32_of_small _ (by omega) (by omega)
      have hlt : (j : Int) - 1 < (n : Int) := by omega
      have hld : tree[j - 1]? = some (tree.getD (j - 1) 0) := by
        rw [List.getD_eq_getElem?_getD, List.getElem?_eq_getElem (by omega)]; rfl
      rw [if_pos hge, hm, if_pos hlt]
      rw [load_of_eq tree _ (j - 1) (by omega), hld]
      have hi : int32 ((j : Int) - 1 + 1) = (j : Int) :=
        (int32_of_small _ (by omega) (by omega)).trans (by omega)
      simp only [obind_some, hi, Option.pure_def]
      rw [ft_lsb_eq j hpos (by omega)]
      simp only [obind_some]
      have hi2 : int32 ((j : Int) - 1 - ((lowbit j : Nat) : Int))
          = ((j - lowbit j : Nat) : Int) - 1 :=
        (int32_of_small _ (by omega) (by omega)).trans (by omega)
      have hpc := popcount_sub_lowbit j hpos
      obtain ⟨v, hv⟩ := ih (j - lowbit j) (by omega) fuel
        (uint64 (acc + tree.getD (j - 1) 0)) (by omega) (by omega)
      rw [hi2, hv]
      refine ⟨v, ?_⟩
      simp only [obind_some, hpc]

theorem ft_update_loop_count_complete (m : Int) (inc : Nat) :
    ∀ (fuel : Nat) (tree : List Nat) (i : Int) (tree' : List Nat),
      ft_update_loop m inc fuel tree i = some tree' →
      ∃ (i' : Int) (k : Nat), ft_update_loop_count m inc fuel tree i = some (tree', i', k) := by
  intro fuel
  induction fuel with
  | zero =>
    intro tree i tree' h
    unfold ft_update_loop at h
    exact absurd h (by simp)
  | succ fuel ih =>
    intro tree i tree' h
    unfold ft_update_loop at h
    unfold ft_update_loop_count
    by_cases hc : i < m
    · rw [if_pos hc] at h ⊢
      obtain ⟨ti, h1, g1⟩ := bind_eq_some_elim h
      obtain ⟨u, h2, g2⟩ := bind_eq_some_elim g1
      obtain ⟨t1, h3, g3⟩ := bind_eq_some_elim g2
      obtain ⟨l, h4, g4⟩ := bind_eq_some_elim g3
      obtain ⟨i', k, h5⟩ := ih _ _ _ g4
      refine ⟨i', k + 1, ?_⟩
      rw [h1]; simp only [obind_some]
      rw [h2]; simp only [obind_some]
      rw [h3]; simp only [obind_some]
      rw [h4]; simp only [obind_some]
      rw [h5]; simp only [obind_some, Option.pure_def]
    · rw [if_neg hc] at h ⊢
      have := Option.some.inj h
      exact ⟨i, 0, by rw [this]⟩

theorem ft_update_loop_count_bound (n inc : Nat) (hn : n < 2 ^ 31) :
    ∀ (fuel q : Nat) (tree tree' : List Nat) (i' : Int) (k : Nat), 0 < q →
      ft_update_loop_count (n : Int) inc fuel tree ((q : Int) - 1) = some (tree', i', k) →
      (n : Int) ≤ i' ∧ (n < q → k = 0) ∧
        (q ≤ n → 1 ≤ k ∧ ∃ s : Nat, lowbit q = 2 ^ s ∧ k + s ≤ Nat.log 2 n + 1) := by
  intro fuel
  induction fuel with
  | zero =>
    intro q tree tree' i' k _ h
    unfold ft_update_loop_count at h
    exact absurd h (by simp)
  | succ fuel ih =>
    intro q tree tree' i' k hq h
    have hl0 := lowbit_pos q hq
    have hl1 := lowbit_le q hq
    unfold ft_update_loop_count at h
    by_cases hqn : q ≤ n
    · have hlt : (q : Int) - 1 < (n : Int) := by omega
      rw [if_pos hlt] at h
      obtain ⟨ti, h1, g1⟩ := bind_eq_some_elim h
      obtain ⟨u, h2, g2⟩ := bind_eq_some_elim g1
      obtain ⟨t1, h3, g3⟩ := bind_eq_some_elim g2
      obtain ⟨l, h4, g4⟩ := bind_eq_some_elim g3
      obtain ⟨r, h5, g5⟩ := bind_eq_some_elim g4
      have hi : int32 ((q : Int) - 1 + 1) = (q : Int) :=
        (int32_of_small _ (by omega) (by omega)).trans (by omega)
      rw [hi, ft_lsb_eq q hq (by omega)] at h4
      have hl : l = ((lowbit q : Nat) : Int) := (Option.some.inj h4).symm
      rw [hl] at h5
      have hpow := lowbit_add_le_pow 31 q hq (by omega)
      have hi2 : int32 ((q : Int) - 1 + ((lowbit q : Nat) : Int))
          = ((q + lowbit q : Nat) : Int) - 1 :=
        (int32_of_small _ (by omega) (by omega)).trans (by push_cast; omega)
      rw [hi2] at h5
      have hr := Option.some.inj g5
      have hr1 : r.2.1 = i' := congrArg (fun x => x.2.1) hr
      have hr2 : r.2.2 + 1 = k := congrArg (fun x => x.2.2) hr
      obtain ⟨b1, b2, b3⟩ := ih (q + lowbit q) t1 r.1 r.2.1 r.2.2 (by omega) h5
      obtain ⟨s, hs⟩ := lowbit_pow q hq
      have hsn : 2 ^ s ≤ n := by rw [← hs]; omega
      have hslog := pow_le_log s n (by omega) hsn
      refine ⟨by omega, fun hc => by omega, fun _ => ⟨by omega, s, hs, ?_⟩⟩
      by_cases hq' : q + lowbit q ≤ n
      · obtain ⟨_, s', hs', hk'⟩ := b3 hq'
        have hd : 2 ^ (s + 1) ∣ q + lowbit q := by
          have := two_lowbit_dvd_add q hq
          rw [hs] at this
          rw [pow_succ, Nat.mul_comm]
          rw [hs]; exact this
        have hd2 := pow_dvd_lowbit (s + 1) (q + lowbit q) (by omega) hd
        rw [hs'] at hd2
        have hle : s + 1 ≤ s' := (Nat.pow_dvd_pow_iff_le_right (by norm_num)).1 hd2
        omega
      · have := b2 (by omega)
        omega
    · have hlt : ¬ ((q : Int) - 1 < (n : Int)) := by omega
      rw [if_neg hlt] at h
      have hr := Option.some.inj h
      have hr1 : (q : Int) - 1 = i' := congrArg (fun x => x.2.1) hr
      have hr2 : 0 = k := congrArg (fun x => x.2.2) hr
      exact ⟨by omega, fun _ => hr2.symm, fun hc => absurd hc hqn⟩

/-! ### The 1-based variant of `ft.c` agrees with the 0-based one -/

theorem int_not_add_one (i : Nat) : Int.not (i : Int) + 1 = -(i : Int) := by
  cases i with
  | zero => rfl
  | succ k =>
    show Int.negSucc (k + 1) + 1 = -((k + 1 : Nat) : Int)
    rw [Int.negSucc_eq]; push_cast; ring

theorem ft_lsb_c_eq (j : Nat) (h0 : 0 < j) (h1 : j < 2 ^ 31) :
    ft_lsb_c (size_t (j : Int)) = some ((lowbit j : Nat) : Int) := by
  have hle := lowbit_le j h0
  have hs : size_t (j : Int) = j := by unfold size_t; omega
  have hi : int32 ((j : Nat) : Int) = (j : Int) := int32_of_small _ (by omega) (by omega)
  unfold ft_lsb_c c_assert
  rw [hs, hi]
  dsimp only
  rw [int_not_add_one]
  have hc1 : decide (j < 2 ^ ft_max_bits) = true := by
    simp [ft_max_bits]; omega
  have hc2 : decide ((j : Int) ≠ 0) = true := by
    simp only [decide_eq_true_eq]; omega
  have hc3 : decide (uint32 (j : Int) &&& uint32 (-(j : Int))
      = uint32 (j : Int) &&& uint32 (-(j : Int))) = true := by
    simp only [decide_eq_true_eq]
  simp only [hc1, hc2, hc3, if_true, obind_some, Option.pure_def]
  rw [uint32_of_small j (by omega), uint32_neg j h0 (by omega), land_neg 32 j h0 (by omega)]
  exact congrArg some (int32_of_small _ (by omega) (by omega))

theorem ft_update_c_loop_eq (n inc : Nat) (hn : n < 2 ^ 30) :
    ∀ (fuel : Nat) (tree : List Nat) (k : Nat), k < 2 ^ 31 - 1 →
      ft_update_c_loop (n : Int) inc fuel tree ((k : Int) + 1)
        = ft_update_loop (n : Int) inc fuel tree (k : Int) := by
  intro fuel
  induction fuel with
  | zero => intro tree k _; rfl
  | succ fuel ih =>
    intro tree k hk
    rw [ft_update_c_loop, ft_update_loop]
    have hm1 : int32 ((n : Int) + 1) = (n : Int) + 1 := int32_of_small _ (by omega) (by omega)
    rw [hm1]
    by_cases hc : k < n
    · have hl0 := lowbit_pos (k + 1) (by omega)
      have hl1 := lowbit_le (k + 1) (by omega)
      have c1 : (k : Int) + 1 < (n : Int) + 1 := by omega
      have c2 : (k : Int) < (n : Int) := by omega
      have e1 : (k : Int) + 1 - 1 = (k : Int) := by omega
      have hs : ft_lsb_c (size_t ((k : Int) + 1)) = some ((lowbit (k + 1) : Nat) : Int) :=
        ft_lsb_c_eq (k + 1) (by omega) (by omega)
      have hh : ft_lsb (int32 ((k : Int) + 1)) = some ((lowbit (k + 1) : Nat) : Int) := by
        rw [int32_of_small _ (by omega) (by omega)]
        exact ft_lsb_eq (k + 1) (by omega) (by omega)
      have hn1 : int32 ((k : Int) + 1 + ((lowbit (k + 1) : Nat) : Int))
          = ((k + lowbit (k + 1) : Nat) : Int) + 1 :=
        (int32_of_small _ (by omega) (by omega)).trans (by push_cast; omega)
      have hn2 : int32 ((k : Int) + ((lowbit (k + 1) : Nat) : Int))
          = ((k + lowbit (k + 1) : Nat) : Int) :=
        (int32_of_small _ (by omega) (by omega)).trans (by push_cast; omega)
      have ih' := fun t => ih t (k + lowbit (k + 1)) (by omega)
      rw [if_pos c1, if_pos c2, e1]
      simp only [hs, hh, obind_some, hn1, hn2, ih']
    · have c1 : ¬ ((k : Int) + 1 < (n : Int) + 1) := by omega
      have c2 : ¬ ((k : Int) < (n : Int)) := by omega
      rw [if_neg c1, if_neg c2]

theorem ft_update_c_eq (tree : List Nat) (n inc : Nat) (i : Int) (h2 : 2 ≤ n) (hn : n < 2 ^ 30)
    (h0 : 0 ≤ i) (hi : i < (n : Int)) : ft_update_c tree n i inc = ft_update tree n i inc := by
  obtain ⟨k, rfl⟩ : ∃ k : Nat, i = (k : Int) := ⟨i.toNat, by omega⟩
  unfold ft_update_c ft_update c_assert
  have hc1 : decide (2 ≤ n ∧ n ≤ 2 ^ ft_max_bits) = true := by
    simp [ft_max_bits]; omega
  have hm : int32 (n : Int) = (n : Int) := int32_of_small _ (by omega) (by omega)
  have hc2 : decide (0 ≤ (k : Int) ∧ (k : Int) < (n : Int)) = true := by
    simp only [decide_eq_true_eq]; omega
  have hi1 : int32 ((k : Int) + 1) = (k : Int) + 1 := int32_of_small _ (by omega) (by omega)
  have hm1 : int32 ((n : Int) + 1) = (n : Int) + 1 := int32_of_small _ (by omega) (by omega)
  have hc3 : decide ((k : Int) + 1 < (n : Int) + 1) = true := by
    simp only [decide_eq_true_eq]; omega
  simp only [hc1, hm, hc2, hi1, hm1, hc3, if_true, obind_some]
  exact ft_update_c_loop_eq n inc hn (n + 1) tree k (by omega)

theorem ft_query_c_loop_eq (tree : List Nat) (n : Nat) (hn : n < 2 ^ 31) :
    ∀ (fuel sum j : Nat), j ≤ n →
      ft_query_c_loop tree (n : Int) fuel sum (j : Int)
        = ft_query_loop tree n fuel sum ((j : Int) - 1) := by
  intro fuel
  induction fuel with
  | zero => intro sum j _; rfl
  | succ fuel ih =>
    intro sum j hj
    rw [ft_query_c_loop, ft_query_loop]
    rcases Nat.eq_zero_or_pos j with rfl | hpos
    · have c1 : ¬ ((0 : Int) < ((0 : Nat) : Int)) := by omega
      have c2 : ¬ ((0 : Int) ≤ ((0 : Nat) : Int) - 1) := by omega
      rw [if_neg c1, if_neg c2]
    · have hl0 := lowbit_pos j hpos
      have hl1 := lowbit_le j hpos
      have c1 : (0 : Int) < (j : Int) := by omega
      have c2 : (0 : Int) ≤ (j : Int) - 1 := by omega
      have hm : int32 (n : Int) = (n : Int) := int32_of_small _ (by omega) (by omega)
      have c3 : (j : Int) - 1 < (n : Int) := by omega
      have hc : decide (0 ≤ (j : Int) - 1 ∧ (j : Int) - 1 < (n : Int)) = true := by
        simp only [decide_eq_true_eq]; omega
      have hs : ft_lsb_c (size_t (j : Int)) = some ((lowbit j : Nat) : Int) :=
        ft_lsb_c_eq j hpos (by omega)
      have hh : ft_lsb (int32 ((j : Int) - 1 + 1)) = some ((lowbit j : Nat) : Int) := by
        rw [(int32_of_small _ (by omega) (by omega)).trans
          (show (j : Int) - 1 + 1 = (j : Int) by omega)]
        exact ft_lsb_eq j hpos (by omega)
      have hn1 : int32 ((j : Int) - ((lowbit j : Nat) : Int)) = ((j - lowbit j : Nat) : Int) :=
        (int32_of_small _ (by omega) (by omega)).trans (by omega)
      have hn2 : int32 ((j : Int) - 1 - ((lowbit j : Nat) : Int))
          = ((j - lowbit j : Nat) : Int) - 1 :=
        (int32_of_small _ (by omega) (by omega)).trans (by omega)
      have ih' := fun s => ih s (j - lowbit j) (by omega)
      unfold c_assert
      simp only [if_pos c1, if_pos c2, hm, if_pos c3, hc, if_true, obind_some]
      cases hld : load tree ((j : Int) - 1) with
      | none => simp only [obind_none]
      | some ti => simp only [obind_some, Option.pure_def, hs, hh, hn1, hn2, ih']

theorem ft_query_c_eq (tree : List Nat) (n : Nat) (i : Int) (h2 : 2 ≤ n) (hn : n < 2 ^ 31)
    (h0 : -1 ≤ i) (hi : i < (n : Int)) : ft_query_c tree n i = ft_query tree n i := by
  have hc1 : decide (2 ≤ n ∧ n ≤ 2 ^ ft_max_bits) = true := by
    simp [ft_max_bits]; omega
  by_cases hneg : i = -1
  · subst hneg
    rw [ft_query_neg_one tree n h2 (by omega)]
    unfold ft_query_c c_assert
    simp only [hc1, if_true, obind_some, Option.pure_def]
  · obtain ⟨k, rfl⟩ : ∃ k : Nat, i = (k : Int) := ⟨i.toNat, by omega⟩
    unfold ft_query_c ft_query c_assert
    have hm : int32 (n : Int) = (n : Int) := int32_of_small _ (by omega) (by omega)
    have hi1 : int32 ((k : Int) + 1) = ((k + 1 : Nat) : Int) :=
      (int32_of_small _ (by omega) (by omega)).trans (by push_cast; rfl)
    simp only [hc1, if_true, obind_some, if_neg hneg, hm, hi1]
    rw [ft_query_c_loop_eq tree n hn _ 0 (k + 1) (by omega)]
    have e : ((k + 1 : Nat) : Int) - 1 = (k : Int) := by omega
    rw [e]

/-- On any cell array of length `n` the query loop started at `j - 1` runs `popcount j`
iterations, exits at index `-1`, and `ft_query` returns its sum. -/
theorem ft_query_count (tree : List Nat) (n j : Nat) (h2 : 2 ≤ n) (hn : n < 2 ^ 31)
    (hlen : tree.length = n) (hj : j ≤ n) :
    ∃ v : Nat, ft_query_loop_count tree n (((j : Int) - 1).toNat + 2) 0 ((j : Int) - 1)
        = some (v, -1, popcount j) ∧ ft_query tree n ((j : Int) - 1) = some v := by
  have hp := popcount_le_self j
  obtain ⟨v, hv⟩ := ft_query_loop_count_spec tree n hn hlen j (((j : Int) - 1).toNat + 2) 0 hj
    (by omega)
  refine ⟨v, hv, ?_⟩
  have h := ft_query_loop_count_sound tree n _ _ _ _ hv
  unfold ft_query c_assert
  have hc1 : decide (2 ≤ n ∧ n ≤ 2 ^ ft_max_bits) = true := by
    simp [ft_max_bits]; omega
  simp only [hc1, if_true, obind_some]
  exact h

/-! ### The traced descent -/

theorem ft_index_of_loop_trace_exit (tree : List Nat) (n fuel value i : Nat) :
    ft_index_of_loop_trace tree n (fuel + 1) value i 0 = some [(value, i, 0)] := by
  unfold ft_index_of_loop_trace
  simp

theorem ft_index_of_loop_trace_succ (tree : List Nat) (n fuel value i mask : Nat)
    (hn : n ≤ 2 ^ 31) (hlen : tree.length = n) (hm : mask ≠ 0) (hin : i + mask ≤ n) :
    ft_index_of_loop_trace tree n (fuel + 1) value i mask =
      if value ≥ tree.getD (i + mask - 1) 0 then
        (ft_index_of_loop_trace tree n fuel (value - tree.getD (i + mask - 1) 0) (i + mask)
          (mask / 2) >>= fun tr => some ((value, i, mask) :: tr))
      else
        (ft_index_of_loop_trace tree n fuel value i (mask / 2) >>= fun tr =>
          some ((value, i, mask) :: tr)) := by
  rw [ft_index_of_loop_trace]
  have hu : uint32 ((i : Int) + (mask : Int)) = i + mask := by
    have := uint32_of_small (i + mask) (by omega)
    rw [← this]; congr 1
  have hu1 : uint32 (((i + mask : Nat) : Int) - 1) = i + mask - 1 := by
    have := uint32_of_small (i + mask - 1) (by omega)
    rw [← this]; congr 1; omega
  have hld : tree[i + mask - 1]? = some (tree.getD (i + mask - 1) 0) := by
    rw [List.getD_eq_getElem?_getD, List.getElem?_eq_getElem (by omega)]; rfl
  simp only [if_pos hm, hu, if_pos hin, hu1, load_nat, hld, obind_some, shiftRight_one_eq,
    Option.pure_def]

theorem ft_index_of_loop_trace_total (tree : List Nat) (n : Nat) (hn : n ≤ 2 ^ 31)
    (hlen : tree.length = n) :
    ∀ (fuel value i mask : Nat), mask < 2 ^ fuel → i + 2 * mask ≤ n →
      ∃ tr : List (Nat × Nat × Nat),
        ft_index_of_loop_trace tree n (fuel + 1) value i mask = some ((value, i, mask) :: tr) := by
  intro fuel
  induction fuel with
  | zero =>
    intro value i mask hm _
    have h0 : mask = 0 := by
      have : (2 : Nat) ^ 0 = 1 := rfl
      omega
    subst h0
    exact ⟨[], ft_index_of_loop_trace_exit _ _ _ _ _⟩
  | succ fuel ih =>
    intro value i mask hm hin
    rcases Nat.eq_zero_or_pos mask with h0 | hpos
    · subst h0
      exact ⟨[], ft_index_of_loop_trace_exit _ _ _ _ _⟩
    · have hm2 : mask / 2 < 2 ^ fuel := by
        rw [pow_succ] at hm; omega
      rw [ft_index_of_loop_trace_succ tree n (fuel + 1) value i mask hn hlen (by omega)
        (by omega)]
      by_cases h1 : value ≥ tree.getD (i + mask - 1) 0
      · rw [if_pos h1]
        obtain ⟨tr, e⟩ := ih (value - tree.getD (i + mask - 1) 0) (i + mask) (mask / 2) hm2
          (by omega)
        rw [e]
        simp only [obind_some]
        exact ⟨_, rfl⟩
      · rw [if_neg h1]
        obtain ⟨tr, e⟩ := ih value i (mask / 2) hm2 (by omega)
        rw [e]
        simp only [obind_some]
        exact ⟨_, rfl⟩

theorem getLast_cons_of_some {α : Type} (x y : α) (l : List α) (h : l.getLast? = some y) :
    (x :: l).getLast? = some y := by
  cases l with
  | nil => simp at h
  | cons z l => rw [List.getLast?_cons_cons]; exact h

theorem built_cell (a tree : List Nat) (n i c : Nat) (hb : Built a n tree)
    (hdvd : 2 ^ (c + 1) ∣ i) (hin : i + 2 ^ c ≤ n) :
    tree.getD (i + 2 ^ c - 1) 0 = seg a i (i + 2 ^ c) := by
  have hp : 0 < 2 ^ c := by positivity
  have h := hb.2 (i + 2 ^ c - 1) (by omega)
  rw [show i + 2 ^ c - 1 + 1 = i + 2 ^ c by omega] at h
  rw [List.getD_eq_getElem?_getD, h]
  unfold fen
  rw [lowbit_add_pow i c hdvd, Nat.add_sub_cancel]
  rfl

theorem ft_index_of_loop_trace_spec (a tree : List Nat) (n target : Nat) (hn : n ≤ 2 ^ 31)
    (hb : Built a n tree) :
    ∀ (c fuel value i : Nat), c + 2 ≤ fuel → 2 ^ (c + 1) ∣ i → i + 2 ^ (c + 1) ≤ n →
      value + seg a 0 i = target →
      ∃ (tr : List (Nat × Nat × Nat)) (v' i' : Nat),
        ft_index_of_loop_trace tree n fuel value i (2 ^ c) = some tr ∧
        (∀ st ∈ tr, st.1 + seg a 0 st.2.1 = target ∧ (st.2.2 ≠ 0 → 2 * st.2.2 ∣ st.2.1)) ∧
        tr.getLast? = some (v', i', 0) ∧
        ft_index_of_loop tree n fuel value i (2 ^ c) = some (v', i') ∧
        v' + seg a 0 i' = target := by
  intro c
  induction c with
  | zero =>
    intro fuel value i hf hdvd hin hv
    obtain ⟨fuel, rfl⟩ : ∃ f, fuel = f + 2 := ⟨fuel - 2, by omega⟩
    have hcell := built_cell a tree n i 0 hb hdvd (by rw [pow_succ] at hin; omega)
    have hm1 : (2 : Nat) ^ (0 + 1) = 2 := rfl
    have hm0 : (2 : Nat) ^ 0 = 1 := rfl
    rw [hm1] at hin hdvd
    rw [hm0] at hcell ⊢
    have hcons := seg_consec a 0 i (i + 1) (by omega) (by omega)
    rw [ft_index_of_loop_trace_succ tree n (fuel + 1) value i 1 hn hb.1 (by omega) (by omega),
      ft_index_of_loop_succ tree n (fuel + 1) value i 1 hn hb.1 (by omega) (by omega), hcell,
      show 1 / 2 = 0 by rfl, ft_index_of_loop_trace_exit, ft_index_of_loop_trace_exit,
      ft_index_of_loop_exit, ft_index_of_loop_exit]
    simp only [obind_some]
    by_cases hge : value ≥ seg a i (i + 1)
    · rw [if_pos hge, if_pos hge]
      refine ⟨_, value - seg a i (i + 1), i + 1, rfl, ?_, rfl, rfl, by omega⟩
      intro st hst
      rcases List.mem_cons.1 hst with h | h
      · subst h
        exact ⟨hv, fun _ => by simpa using hdvd⟩
      · rw [List.mem_singleton] at h
        subst h
        exact ⟨by show value - seg a i (i + 1) + seg a 0 (i + 1) = target; omega,
          fun h => absurd rfl h⟩
    · rw [if_neg hge, if_neg hge]
      refine ⟨_, value, i, rfl, ?_, rfl, rfl, hv⟩
      intro st hst
      rcases List.mem_cons.1 hst with h | h
      · subst h
        exact ⟨hv, fun _ => by simpa using hdvd⟩
      · rw [List.mem_singleton] at h
        subst h
        exact ⟨hv, fun h => absurd rfl h⟩
  | succ c ih =>
    intro fuel value i hf hdvd hin hv
    obtain ⟨fuel, rfl⟩ : ∃ f, fuel = f + 1 := ⟨fuel - 1, by omega⟩
    have hp : 0 < 2 ^ (c + 1) := by positivity
    have hpp : 2 ^ (c + 1 + 1) = 2 * 2 ^ (c + 1) := by rw [pow_succ]; ring
    have hcell := built_cell a tree n i (c + 1) hb hdvd (by omega)
    have hd1 : 2 ^ (c + 1) ∣ i := (Dvd.intro_left 2 hpp.symm).trans hdvd
    have hhalf : 2 ^ (c + 1) / 2 = 2 ^ c := by rw [pow_succ]; simp
    have hcons := seg_consec a 0 i (i + 2 ^ (c + 1)) (by omega) (by omega)
    rw [ft_index_of_loop_trace_succ tree n fuel value i _ hn hb.1 (by omega) (by omega),
      ft_index_of_loop_succ tree n fuel value i _ hn hb.1 (by omega) (by omega), hcell, hhalf]
    have hfirst : value + seg a 0 i = target ∧
        (2 ^ (c + 1) ≠ 0 → 2 * 2 ^ (c + 1) ∣ i) := ⟨hv, fun _ => hpp ▸ hdvd⟩
    by_cases hge : value ≥ seg a i (i + 2 ^ (c + 1))
    · rw [if_pos hge, if_pos hge]
      obtain ⟨tr, v', i', e1, e2, e3, e4, e5⟩ := ih fuel (value - seg a i (i + 2 ^ (c + 1)))
        (i + 2 ^ (c + 1)) (by omega) (Dvd.dvd.add hd1 (dvd_refl _)) (by omega) (by omega)
      rw [e1, e4]
      simp only [obind_some]
      refine ⟨_, v', i', rfl, ?_, getLast_cons_of_some _ _ _ e3, rfl, e5⟩
      intro st hst
      rcases List.mem_cons.1 hst with h | h
      · subst h; exact hfirst
      · exact e2 st h
    · rw [if_neg hge, if_neg hge]
      obtain ⟨tr, v', i', e1, e2, e3, e4, e5⟩ := ih fuel value i (by omega) hd1 (by omega) hv
      rw [e1, e4]
      simp only [obind_some]
      refine ⟨_, v', i', rfl, ?_, getLast_cons_of_some _ _ _ e3, rfl, e5⟩
      intro st hst
      rcases List.mem_cons.1 hst with h | h
      · subst h; exact hfirst
      · exact e2 st h

theorem int32_uint32_pred (i : Nat) (hi : i < 2 ^ 31) :
    int32 (uint32 ((i : Int) - 1)) = (i : Int) - 1 := by
  have h := ft_index_of_result 0 i 0 hi
  rw [if_neg (by omega)] at h
  exact h

theorem int32_int32_pred (i : Nat) (hi : i < 2 ^ 31) :
    int32 (int32 (i : Int) - 1) = (i : Int) - 1 := by
  rw [int32_of_small (i : Int) (by omega) (by omega)]
  exact int32_of_small _ (by omega) (by omega)

/-- On `n` cells with `n = 2 ^ b < 2 ^ 31` the lookup of `ft.c` returns what the one of
`ft.h` returns. -/
theorem ft_index_of_c_eq (tree : List Nat) (n b target : Nat) (hb1 : 1 ≤ b) (hnb : n = 2 ^ b)
    (hn : n < 2 ^ 31) (hlen : tree.length = n) :
    ft_index_of_c tree n target = ft_index_of tree n target := by
  have h2 : 2 ≤ n := by
    rw [hnb]; calc 2 = 2 ^ 1 := rfl
      _ ≤ 2 ^ b := Nat.pow_le_pow_right (by norm_num) hb1
  unfold ft_index_of_c ft_index_of c_assert
  have hc1 : decide (2 ≤ n ∧ n ≤ 2 ^ ft_max_bits) = true := by
    simp [ft_max_bits]; omega
  have hc2 : decide (n &&& (n - 1) = 0) = true := by
    simp only [decide_eq_true_eq]; rw [hnb]; exact pow_two_land b
  have hu : uint32 ((n >>> 1 : Nat) : Int) = n / 2 := by
    rw [shiftRight_one_eq]; exact uint32_of_small _ (by omega)
  have hr1 : int32 (int32 (n : Int) - 1) = int32 ((n : Int) - 1) := by
    rw [int32_int32_pred n hn, int32_of_small _ (by omega) (by omega)]
  obtain ⟨r, _, e1, _, _, _, b3⟩ := ft_index_of_loop_mono tree n (by omega) hlen 32 target target
    0 (n / 2) (by omega) (by omega) (le_refl _)
  have hr2 : int32 (int32 (r.2 : Int) - 1) = int32 (uint32 ((r.2 : Int) - 1)) := by
    rw [int32_int32_pred r.2 (by omega), int32_uint32_pred r.2 (by omega)]
  simp only [hc1, hc2, if_true, obind_some, hu, e1, hr1, hr2]

/-! ### Update against rebuild -/

/-- For `2 ≤ n < 2 ^ 30`, if every cell sum of the updated weights `a'` (`a` with `a[p]`
replaced by `a[p] + d`) stays below `UINT64_MAX`, then `ft_init(a)`,
`ft_update(ft_init(a), n, p, d)` and `ft_init(a')` all complete, and the last two return the
same cell array, which satisfies the Fenwick invariant for `a'`. -/
theorem ft_update_commutes_init (tree0 a : List Nat) (n p d : Nat) (h2 : 2 ≤ n)
    (hn : n < 2 ^ 30) (ha : a.length = n) (ht : tree0.length = n) (hp : p < n)
    (hs : ∀ j : Nat, 1 ≤ j → j ≤ n → fen (a.set p (a.getD p 0 + d)) j < 2 ^ 64 - 1) :
    ∃ t1 t2 : List Nat, ft_init tree0 n a = some t1 ∧ ft_update t1 n (p : Int) d = some t2 ∧
      ft_init tree0 n (a.set p (a.getD p 0 + d)) = some t2 ∧
      Built (a.set p (a.getD p 0 + d)) n t2 := by
  have hfen : ∀ j : Nat, j < n → fen (a.set p (a.getD p 0 + d)) (j + 1)
      = fen a (j + 1) + if covers (p + 1) (j + 1) then d else 0 :=
    fun j _ => fen_set_add a p d j (by omega)
  obtain ⟨t1, h1, hb1⟩ := ft_init_spec tree0 a n h2 hn ha ht (by
    intro j hj1 hjn
    have h := hs j hj1 hjn
    have e := hfen (j - 1) (by omega)
    rw [show j - 1 + 1 = j by omega] at e
    omega)
  obtain ⟨t2, hu, hc⟩ := ft_update_spec t1 n p d (fun j => fen a (j + 1)) h2 (by omega) hp hb1
    (by
      intro j hj hcov
      have h := hs (j + 1) (by omega) (by omega)
      have e := hfen j hj
      rw [if_pos hcov] at e
      show fen a (j + 1) + d ≤ UINT64_MAX
      unfold UINT64_MAX; omega)
  have hb2 : Built (a.set p (a.getD p 0 + d)) n t2 :=
    hc.congr (fun j hj => (hfen j hj).symm)
  obtain ⟨t3, h3, hb3⟩ := ft_init_spec tree0 (a.set p (a.getD p 0 + d)) n h2 hn
    (by simp [ha]) ht hs
  have e23 : t3 = t2 := Cells.eq hb3 hb2
  subst e23
  exact ⟨t1, t3, h1, hu, h3, hb3⟩

/-! ## Claims -/

/-- C1 as stated fails: capacities above `2 ^ 31` (here `2 ^ 32`) are rejected by the
capacity assertion; at the capacity `n = 2 ^ 31`, which the assertion accepts,
`(int32_t)n` is negative, both loops of `ft_init` are skipped and cell `0` keeps its old
content `0` although the invariant asks for `a[0] = 1`; at `n = 2 ^ 30` the build does not
complete, because `i + ft_lsb(i)` leaves `int32_t` at `i = 2 ^ 30`; and for `n = 2` with
weights `[0, 2 ^ 64 - 1]`, whose sum fits 64 bits, the overflow assertion of `ft_init`
fails. -/
theorem C1_build_invariant_counterexample :
    ((List.replicate (2 ^ 31) 1).length = 2 ^ 31 ∧ (List.replicate (2 ^ 31) 1).sum < 2 ^ 64 ∧
      ft_init (List.replicate (2 ^ 31) 0) (2 ^ 31) (List.replicate (2 ^ 31) 1)
        = some (List.replicate (2 ^ 31) 0) ∧
      ft_lsb 1 = some 1 ∧
      (List.replicate (2 ^ 31) 0)[1 - 1]? = some 0 ∧
      ∑ k in Finset.Ioc (1 - 1) 1, (List.replicate (2 ^ 31) 1).getD (k - 1) 0 = 1) ∧
    ft_init (List.replicate (2 ^ 30) 0) (2 ^ 30) (List.replicate (2 ^ 30) 1) = none ∧
    ft_init (List.replicate (2 ^ 32) 0) (2 ^ 32) (List.replicate (2 ^ 32) 1) = none ∧
    ([0, 2 ^ 64 - 1].sum < 2 ^ 64 ∧ ft_init [0, 0] 2 [0, 2 ^ 64 - 1] = none) := by
  refine ⟨⟨List.length_replicate _ _, ?_, ft_init_cap31 _ _, by decide,
    replicate_head _ _ (by norm_num), ?_⟩,
    ft_init_cap30 _ _ (2 ^ 30) (le_refl _) (by norm_num),
    ft_init_reject _ _ (2 ^ 32) (by norm_num), by decide, by decide⟩
  · rw [replicate_sum_one]; norm_num
  · rw [seg_Ioc_one, List.getD_eq_getElem?_getD, replicate_head _ _ (by norm_num)]; rfl

/-- C1 (amended): for every capacity `2 ≤ n < 2 ^ 30` and weights `a` of length `n` whose
partial sums over the cell ranges `(j - lowbit j, j]`, `j ∈ [1, n]`, stay below `UINT64_MAX`,
`ft_init` returns a cell array of length `n` in which every 1-based position `i ∈ [1, n]`
holds the sum of `a[k-1]` over `k ∈ (i - lowbit i, i]`, where `lowbit i` is the value
`ft_lsb i` computes. -/
theorem C1_build_invariant (tree0 a : List Nat) (n : Nat) (h2 : 2 ≤ n) (hn : n < 2 ^ 30)
    (ha : a.length = n) (ht : tree0.length = n)
    (hs : ∀ j : Nat, 1 ≤ j → j ≤ n →
      ∑ k in Finset.Ioc (j - lowbit j) j, a.getD (k - 1) 0 < 2 ^ 64 - 1) :
    ∃ tree, ft_init tree0 n a = some tree ∧ tree.length = n ∧
      ∀ i : Nat, 1 ≤ i → i ≤ n → ∃ l : Nat, ft_lsb (i : Int) = some (l : Int) ∧
        tree[i - 1]? = some (∑ k in Finset.Ioc (i - l) i, a.getD (k - 1) 0) := by
  obtain ⟨tree, h, hb⟩ := ft_init_spec tree0 a n h2 hn ha ht
    (fun j h1 hj => by have := hs j h1 hj; rw [seg_Ioc] at this; exact this)
  refine ⟨tree, h, hb.1, ?_⟩
  intro i h1 hi
  refine ⟨lowbit i, ft_lsb_eq i (by omega) (by omega), ?_⟩
  rw [hb.2 (i - 1) (by omega), seg_Ioc]
  have e : i - 1 + 1 = i := by omega
  rw [e]; rfl

/-- Witness for C1: capacity 2, weights `[1, 2]`. -/
theorem C1_build_invariant_witness :
    ∃ tree, ft_init [0, 0] 2 [1, 2] = some tree ∧ tree.length = 2 ∧
      ∀ i : Nat, 1 ≤ i → i ≤ 2 → ∃ l : Nat, ft_lsb (i : Int) = some (l : Int) ∧
        tree[i - 1]? = some (∑ k in Finset.Ioc (i - l) i, [1, 2].getD (k - 1) 0) :=
  C1_build_invariant [0, 0] [1, 2] 2 (by decide) (by decide) (by decide) (by decide)
    (fun j _ _ => by
      rw [seg_Ioc]
      exact lt_of_le_of_lt (seg_le_sum [1, 2] _ _ (Nat.sub_le _ _)) (by decide))

/-- C2 as stated fails: capacities above `2 ^ 31` (here `2 ^ 32`) are rejected by the
capacity assertion, and at the capacity `n = 2 ^ 31` `ft_init` returns without touching the
cells and `ft_query` skips every cell because `(int32_t)n` is negative, so
`ft_query(tree, n, 0)` is `0` while `sum_of(a, 0, 0)` is `a[0] = 1`. -/
theorem C2_query_vs_sum_of_counterexample :
    (List.replicate (2 ^ 31) 1).length = 2 ^ 31 ∧ (List.replicate (2 ^ 31) 1).sum < 2 ^ 64 ∧
      ft_init (List.replicate (2 ^ 31) 0) (2 ^ 31) (List.replicate (2 ^ 31) 1)
        = some (List.replicate (2 ^ 31) 0) ∧
      ft_query (List.replicate (2 ^ 31) 0) (2 ^ 31) 0 = some 0 ∧
      sum_of (List.replicate (2 ^ 31) 1) 0 0 = some 1 ∧
      ft_init (List.replicate (2 ^ 32) 0) (2 ^ 32) (List.replicate (2 ^ 32) 1) = none := by
  refine ⟨List.length_replicate _ _, ?_, ft_init_cap31 _ _, ft_query_cap31_zero _,
    sum_of_replicate_head _ _ (by norm_num) (by norm_num),
    ft_init_reject _ _ (2 ^ 32) (by norm_num)⟩
  rw [replicate_sum_one]; norm_num

/-- C2 (amended): for every capacity `2 ≤ n < 2 ^ 30`, weights `a` of length `n` whose sum
fits 64 bits and every `i ∈ [0, n-1]`, on the cells returned by `ft_init` the query
`ft_query(tree, n, i)` returns `sum_of(a, 0, i) = a[0] + ... + a[i]`, and
`ft_query(tree, n, -1)` returns `0`. -/
theorem C2_query_vs_sum_of (tree0 a tree : List Nat) (n : Nat) (h2 : 2 ≤ n) (hn : n < 2 ^ 30)
    (ha : a.length = n) (ht : tree0.length = n) (hs : a.sum < 2 ^ 64)
    (hinit : ft_init tree0 n a = some tree) :
    (∀ i : Nat, i < n → ∃ s : Nat, sum_of a 0 (i : Int) = some s ∧
      ft_query tree n (i : Int) = some s) ∧ ft_query tree n (-1) = some 0 := by
  have hb := ft_init_sound tree0 a tree n h2 hn ha ht hinit
  refine ⟨?_, ft_query_neg_one tree n h2 (by omega)⟩
  intro i hi
  refine ⟨seg a 0 (i + 1), ?_, ?_⟩
  · have h := sum_of_spec a 0 (i + 1) (by omega) (by omega) hs
    have e : (((i + 1 : Nat) : Int) - 1) = (i : Int) := by omega
    rw [e] at h; exact h
  · have h := ft_query_spec a tree n h2 (by omega) hb hs (i + 1) (by omega)
    have e : (((i + 1 : Nat) : Int) - 1) = (i : Int) := by omega
    rw [e] at h; exact h

/-- Witness for C2: capacity 4, weights `[1, 2, 3, 4]`. -/
theorem C2_query_vs_sum_of_witness :
    (∀ i : Nat, i < 4 → ∃ s : Nat, sum_of [1, 2, 3, 4] 0 (i : Int) = some s ∧
      ft_query [1, 3, 3, 10] 4 (i : Int) = some s) ∧ ft_query [1, 3, 3, 10] 4 (-1) = some 0 :=
  C2_query_vs_sum_of [0, 0, 0, 0] [1, 2, 3, 4] [1, 3, 3, 10] 4 (by decide) (by decide)
    (by decide) (by decide) (by decide) (by decide)

/-- C3 as stated fails: on the weights `[1, 2, 3, 4]` the query at `i = 0` returns `1`
and the query at `i = 1` returns `3`, while `S(0) = 0` and `S(1) = 1`. -/
theorem C3_query_vs_S_counterexample :
    ft_init [0, 0, 0, 0] 4 [1, 2, 3, 4] = some [1, 3, 3, 10] ∧
      ft_query [1, 3, 3, 10] 4 0 = some 1 ∧ S [1, 2, 3, 4] 0 = 0 ∧
      ft_query [1, 3, 3, 10] 4 1 = some 3 ∧ S [1, 2, 3, 4] 1 = 1 := by
  decide

/-- C3 (amended): for every capacity `2 ≤ n < 2 ^ 30`, weights of length `n` whose sum fits
64 bits and every `i ∈ [-1, n-1]`, on the cells returned by `ft_init` the query
`ft_query(tree, n, i)` returns `S(i + 1)`, the sum of the weights at positions `≤ i`. -/
theorem C3_query_vs_S (tree0 a tree : List Nat) (n : Nat) (h2 : 2 ≤ n) (hn : n < 2 ^ 30)
    (ha : a.length = n) (ht : tree0.length = n) (hs : a.sum < 2 ^ 64)
    (hinit : ft_init tree0 n a = some tree) (i : Int) (h1 : -1 ≤ i) (hi : i < (n : Int)) :
    ft_query tree n i = some (S a (i + 1)) := by
  have hb := ft_init_sound tree0 a tree n h2 hn ha ht hinit
  have h := ft_query_spec a tree n h2 (by omega) hb hs (i + 1).toNat (by omega)
  have e : (((i + 1).toNat : Nat) : Int) - 1 = i := by omega
  rw [e] at h
  rw [h]
  unfold S seg
  rw [Finset.range_eq_Ico]

/-- Witness for C3: capacity 4, weights `[1, 2, 3, 4]`, query at `i = 2`. -/
theorem C3_query_vs_S_witness : ft_query [1, 3, 3, 10] 4 2 = some (S [1, 2, 3, 4] (2 + 1)) :=
  C3_query_vs_S [0, 0, 0, 0] [1, 2, 3, 4] [1, 3, 3, 10] 4 (by decide) (by decide)
    (by decide) (by decide) (by decide) (by decide) 2 (by decide) (by decide)

/-- C4 as stated fails: the power-of-two capacities above `2 ^ 31` (here `2 ^ 32`) are
rejected by the capacity assertion, and at `n = 2 ^ 31` `ft_init` leaves the cells
(here all `1`) unbuilt, the total read from `tree[n-1]` is `1`, for the target `0` the lookup
returns `p = -1`, yet `p + 1 ≠ n` and `ft_query(tree, n, p + 1)` is `0`, not above the
target. -/
theorem C4_bracketing_counterexample :
    (List.replicate (2 ^ 31) 1).length = 2 ^ 31 ∧ (List.replicate (2 ^ 31) 1).sum < 2 ^ 64 ∧
      ft_init (List.replicate (2 ^ 31) 1) (2 ^ 31) (List.replicate (2 ^ 31) 1)
        = some (List.replicate (2 ^ 31) 1) ∧
      (List.replicate (2 ^ 31) 1)[2 ^ 31 - 1]? = some 1 ∧
      ft_index_of (List.replicate (2 ^ 31) 1) (2 ^ 31) 0 = some (-1) ∧
      ((-1 : Int) + 1 ≠ ((2 ^ 31 : Nat) : Int)) ∧
      ft_query (List.replicate (2 ^ 31) 1) (2 ^ 31) (-1 + 1) = some 0 ∧ ¬ (0 < 0) ∧
      ft_init (List.replicate (2 ^ 32) 0) (2 ^ 32) (List.replicate (2 ^ 32) 1) = none := by
  refine ⟨List.length_replicate _ _, ?_, ft_init_cap31 _ _, ?_,
    ft_index_of_cap31_const 1 0 (by omega), by norm_num, ft_query_cap31_zero _, by omega,
    ft_init_reject _ _ (2 ^ 32) (by norm_num)⟩
  · rw [replicate_sum_one]; norm_num
  · rw [List.getElem?_replicate, if_pos (by norm_num)]

/-- C4 (amended): for every power-of-two capacity `2 ≤ n < 2 ^ 30`, weights `a` of length `n`
whose sum fits 64 bits, `tree` returned by `ft_init`, `total = tree[n-1]` and every target in
`[0, total]`, `ft_index_of(tree, n, target)` returns some `p ∈ [-1, n-1]` with
`ft_query(tree, n, p) ≤ target` and (`p + 1 = n` or `target < ft_query(tree, n, p + 1)`). -/
theorem C4_bracketing (tree0 a tree : List Nat) (n b target total : Nat) (h2 : 2 ≤ n)
    (hnb : n = 2 ^ b) (hn : n < 2 ^ 30) (ha : a.length = n) (ht : tree0.length = n)
    (hs : a.sum < 2 ^ 64) (hinit : ft_init tree0 n a = some tree)
    (htot : tree[n - 1]? = some total) (htar : target ≤ total) :
    ∃ (p : Int) (q : Nat), ft_index_of tree n target = some p ∧ -1 ≤ p ∧ p < (n : Int) ∧
      ft_query tree n p = some q ∧ q ≤ target ∧
      (p + 1 = (n : Int) ∨ ∃ q' : Nat, ft_query tree n (p + 1) = some q' ∧ target < q') := by
  have hb := ft_init_sound tree0 a tree n h2 hn ha ht hinit
  have hb1 : 1 ≤ b := by
    rcases Nat.eq_zero_or_pos b with h0 | h0
    · subst h0; simp at hnb; omega
    · exact h0
  have hfen : fen a n = seg a 0 n := by
    unfold fen; rw [hnb, lowbit_pow_self]; simp
  have htot' : total = seg a 0 n := by
    have h := hb.2 (n - 1) (by omega)
    rw [show n - 1 + 1 = n by omega, hfen, htot] at h
    exact Option.some.inj h
  rcases Nat.lt_or_ge target total with hlt | hge
  · obtain ⟨i', hi', hidx, hle, hlt'⟩ := ft_index_of_descent a tree n b target hb1 hnb
      (by omega) hb (by omega)
    refine ⟨(i' : Int) - 1, seg a 0 i', hidx, by omega, by omega,
      ft_query_spec a tree n h2 (by omega) hb hs i' (by omega), hle, Or.inr ⟨seg a 0 (i' + 1), ?_,
      hlt'⟩⟩
    have h := ft_query_spec a tree n h2 (by omega) hb hs (i' + 1) (by omega)
    have e : (((i' + 1 : Nat) : Int) - 1) = (i' : Int) - 1 + 1 := by omega
    rw [e] at h; exact h
  · refine ⟨(n : Int) - 1, seg a 0 n, ft_index_of_total tree n b target total hb1 hnb
      (by omega) htot hge, by omega, by omega,
      ft_query_spec a tree n h2 (by omega) hb hs n (le_refl _), by omega, Or.inl (by omega)⟩

/-- Witness for C4: capacity 4, weights `[1, 2, 3, 4]`, target 5. -/
theorem C4_bracketing_witness :
    ∃ (p : Int) (q : Nat), ft_index_of [1, 3, 3, 10] 4 5 = some p ∧ -1 ≤ p ∧
      p < ((4 : Nat) : Int) ∧ ft_query [1, 3, 3, 10] 4 p = some q ∧ q ≤ 5 ∧
      (p + 1 = ((4 : Nat) : Int) ∨
        ∃ q' : Nat, ft_query [1, 3, 3, 10] 4 (p + 1) = some q' ∧ 5 < q') :=
  C4_bracketing [0, 0, 0, 0] [1, 2, 3, 4] [1, 3, 3, 10] 4 2 5 10 (by decide) (by decide)
    (by decide) (by decide) (by decide) (by decide) (by decide) (by decide) (by decide)

/-- C5 as stated fails: the power-of-two capacities above `2 ^ 31` (here `2 ^ 32`) are
rejected by the capacity assertion, and at `n = 2 ^ 31`, on the unbuilt cells (all
`7`, total `7`) the target `3` is below the total and the lookup returns `-1`, but `-1` does
not bracket the target, since `ft_query(tree, n, 0)` is `0`. -/
theorem C5_unique_position_counterexample :
    (List.replicate (2 ^ 31) 1).length = 2 ^ 31 ∧ (List.replicate (2 ^ 31) 1).sum < 2 ^ 64 ∧
      ft_init (List.replicate (2 ^ 31) 7) (2 ^ 31) (List.replicate (2 ^ 31) 1)
        = some (List.replicate (2 ^ 31) 7) ∧
      (List.replicate (2 ^ 31) 7)[2 ^ 31 - 1]? = some 7 ∧
      ft_index_of (List.replicate (2 ^ 31) 7) (2 ^ 31) 3 = some (-1) ∧
      ¬ brackets (List.replicate (2 ^ 31) 7) (2 ^ 31) 3 (-1) ∧
      ft_init (List.replicate (2 ^ 32) 0) (2 ^ 32) (List.replicate (2 ^ 32) 1) = none := by
  refine ⟨List.length_replicate _ _, ?_, ft_init_cap31 _ _, ?_,
    ft_index_of_cap31_const 7 3 (by omega), ?_, ft_init_reject _ _ (2 ^ 32) (by norm_num)⟩
  · rw [replicate_sum_one]; norm_num
  · rw [List.getElem?_replicate, if_pos (by norm_num)]
  · intro hbr
    obtain ⟨x, y, _, hy, _, hlt⟩ := (brackets_iff _ _ _ _).1 hbr
    have h0 : ft_query (List.replicate (2 ^ 31) 7) (2 ^ 31) (-1 + 1) = some 0 :=
      ft_query_cap31_zero _
    rw [h0] at hy
    have := Option.some.inj hy
    omega

/-- C5 (amended): for every power-of-two capacity `2 ≤ n < 2 ^ 30`, weights `a` of length `n`
whose sum fits 64 bits, `tree` returned by `ft_init` and every target below the total
`tree[n-1]`, `ft_index_of(tree, n, target)` returns a position `p ∈ [-1, n-2]` with
`ft_query(p) ≤ target < ft_query(p+1)`; every `q ∈ [-1, n-2]` with
`ft_query(q) ≤ target < ft_query(q+1)` equals `p`; and `p = -1` exactly when no such
position `≥ 0` exists. -/
theorem C5_unique_position (tree0 a tree : List Nat) (n b target total : Nat) (h2 : 2 ≤ n)
    (hnb : n = 2 ^ b) (hn : n < 2 ^ 30) (ha : a.length = n) (ht : tree0.length = n)
    (hs : a.sum < 2 ^ 64) (hinit : ft_init tree0 n a = some tree)
    (htot : tree[n - 1]? = some total) (htar : target < total) :
    ∃ p : Int, ft_index_of tree n target = some p ∧ -1 ≤ p ∧ p ≤ (n : Int) - 2 ∧
      brackets tree n target p ∧
      (∀ q : Int, -1 ≤ q → q ≤ (n : Int) - 2 → brackets tree n target q → q = p) ∧
      (p = -1 ↔ ¬ ∃ q : Int, 0 ≤ q ∧ q ≤ (n : Int) - 2 ∧ brackets tree n target q) := by
  have hb := ft_init_sound tree0 a tree n h2 hn ha ht hinit
  have hb1 : 1 ≤ b := by
    rcases Nat.eq_zero_or_pos b with h0 | h0
    · subst h0; simp at hnb; omega
    · exact h0
  have hfen : fen a n = seg a 0 n := by
    unfold fen; rw [hnb, lowbit_pow_self]; simp
  have htot' : total = seg a 0 n := by
    have h := hb.2 (n - 1) (by omega)
    rw [show n - 1 + 1 = n by omega, hfen, htot] at h
    exact Option.some.inj h
  obtain ⟨i', hi', hidx, hle, hlt'⟩ := ft_index_of_descent a tree n b target hb1 hnb
    (by omega) hb (by omega)
  -- the query at any position of `[-1, n-1]`
  have hq : ∀ j : Nat, j ≤ n → ft_query tree n ((j : Int) - 1) = some (seg a 0 j) :=
    fun j hj => ft_query_spec a tree n h2 (by omega) hb hs j hj
  have hbr : brackets tree n target ((i' : Int) - 1) := by
    refine (brackets_iff _ _ _ _).2 ⟨seg a 0 i', seg a 0 (i' + 1), hq i' (by omega), ?_, hle, hlt'⟩
    have h := hq (i' + 1) (by omega)
    have e : (((i' + 1 : Nat) : Int) - 1) = (i' : Int) - 1 + 1 := by omega
    rw [e] at h; exact h
  have huniq : ∀ q : Int, -1 ≤ q → q ≤ (n : Int) - 2 → brackets tree n target q →
      q = (i' : Int) - 1 := by
    intro q hq1 hq2 hqb
    obtain ⟨x, y, hx, hy, hxl, hyl⟩ := (brackets_iff _ _ _ _).1 hqb
    have e1 : (((q + 1).toNat : Nat) : Int) - 1 = q := by omega
    have e2 : (((q + 1).toNat + 1 : Nat) : Int) - 1 = q + 1 := by omega
    have h1 := hq (q + 1).toNat (by omega)
    have h2' := hq ((q + 1).toNat + 1) (by omega)
    rw [e1, hx] at h1
    rw [e2, hy] at h2'
    have hx' := Option.some.inj h1
    have hy' := Option.some.inj h2'
    rcases Nat.lt_trichotomy (q + 1).toNat i' with hlt | heq | hgt
    · have := seg_mono a ((q + 1).toNat + 1) i' (by omega)
      omega
    · omega
    · have := seg_mono a (i' + 1) (q + 1).toNat (by omega)
      omega
  refine ⟨(i' : Int) - 1, hidx, by omega, by omega, hbr, huniq, ?_⟩
  constructor
  · rintro hp ⟨q, hq0, hq2, hqb⟩
    have := huniq q (by omega) hq2 hqb
    omega
  · intro hno
    by_contra hne
    exact hno ⟨(i' : Int) - 1, by omega, by omega, hbr⟩

/-- Witness for C5: capacity 4, weights `[1, 2, 3, 4]`, target 5. -/
theorem C5_unique_position_witness :
    ∃ p : Int, ft_index_of [1, 3, 3, 10] 4 5 = some p ∧ -1 ≤ p ∧ p ≤ ((4 : Nat) : Int) - 2 ∧
      brackets [1, 3, 3, 10] 4 5 p ∧
      (∀ q : Int, -1 ≤ q → q ≤ ((4 : Nat) : Int) - 2 → brackets [1, 3, 3, 10] 4 5 q → q = p) ∧
      (p = -1 ↔ ¬ ∃ q : Int, 0 ≤ q ∧ q ≤ ((4 : Nat) : Int) - 2 ∧ brackets [1, 3, 3, 10] 4 5 q) :=
  C5_unique_position [0, 0, 0, 0] [1, 2, 3, 4] [1, 3, 3, 10] 4 2 5 10 (by decide) (by decide)
    (by decide) (by decide) (by decide) (by decide) (by decide) (by decide) (by decide)

/-- C6 as stated fails: the power-of-two capacities above `2 ^ 31` (here `2 ^ 32`) are
rejected by the capacity assertion, and at `n = 2 ^ 31` the weights are all `1`,
so the target `0` is below `a[0]`, but on the unbuilt cells (all `0`) the lookup returns
`n - 1`, not `-1`. -/
theorem C6_sentinel_counterexample :
    (List.replicate (2 ^ 31) 1).length = 2 ^ 31 ∧ (List.replicate (2 ^ 31) 1).sum < 2 ^ 64 ∧
      ft_init (List.replicate (2 ^ 31) 0) (2 ^ 31) (List.replicate (2 ^ 31) 1)
        = some (List.replicate (2 ^ 31) 0) ∧
      ft_index_of (List.replicate (2 ^ 31) 0) (2 ^ 31) 0 = some (2 ^ 31 - 1) ∧
      (List.replicate (2 ^ 31) 1)[0]? = some 1 ∧ 0 < 1 ∧
      ft_init (List.replicate (2 ^ 32) 0) (2 ^ 32) (List.replicate (2 ^ 32) 1) = none := by
  refine ⟨List.length_replicate _ _, ?_, ft_init_cap31 _ _, ft_index_of_cap31_zero,
    replicate_head _ _ (by norm_num), by omega, ft_init_reject _ _ (2 ^ 32) (by norm_num)⟩
  rw [replicate_sum_one]; norm_num

/-- C6 (amended): for every power-of-two capacity `2 ≤ n < 2 ^ 30`, weights `a` of length `n`
whose sum fits 64 bits, `tree` returned by `ft_init` and every target, `ft_index_of` returns
a value, and that value is `-1` if and only if `target < a[0]`. -/
theorem C6_sentinel (tree0 a tree : List Nat) (n b target : Nat) (h2 : 2 ≤ n)
    (hnb : n = 2 ^ b) (hn : n < 2 ^ 30) (ha : a.length = n) (ht : tree0.length = n)
    (hinit : ft_init tree0 n a = some tree) :
    ∃ p : Int, ft_index_of tree n target = some p ∧ (p = -1 ↔ target < a.getD 0 0) := by
  have hb := ft_init_sound tree0 a tree n h2 hn ha ht hinit
  have hb1 : 1 ≤ b := by
    rcases Nat.eq_zero_or_pos b with h0 | h0
    · subst h0; simp at hnb; omega
    · exact h0
  have hfen : fen a n = seg a 0 n := by
    unfold fen; rw [hnb, lowbit_pow_self]; simp
  have htot : tree[n - 1]? = some (seg a 0 n) := by
    have h := hb.2 (n - 1) (by omega)
    rw [show n - 1 + 1 = n by omega, hfen] at h
    exact h
  have h01 : seg a 0 1 = a.getD 0 0 := by
    rw [seg_succ a 0 0 (le_refl _), seg_self]; simp
  rcases Nat.lt_or_ge target (seg a 0 n) with hlt | hge
  · obtain ⟨i', hi', hidx, hle, hlt'⟩ := ft_index_of_descent a tree n b target hb1 hnb
      (by omega) hb hlt
    refine ⟨(i' : Int) - 1, hidx, ?_⟩
    constructor
    · intro hp
      have : i' = 0 := by omega
      subst this
      rw [← h01]; exact hlt'
    · intro hlt0
      rw [← h01] at hlt0
      rcases Nat.eq_zero_or_pos i' with h0 | hpos
      · omega
      · have := seg_mono a 1 i' (by omega)
        omega
  · refine ⟨(n : Int) - 1, ft_index_of_total tree n b target _ hb1 hnb (by omega) htot hge, ?_⟩
    have h1n := seg_mono a 1 n (by omega)
    constructor
    · intro hp; omega
    · intro hlt0; rw [← h01] at hlt0; omega

/-- Witness for C6: capacity 4, weights `[1, 2, 3, 4]`, target 0. -/
theorem C6_sentinel_witness :
    ∃ p : Int, ft_index_of [1, 3, 3, 10] 4 0 = some p ∧
      (p = -1 ↔ 0 < [1, 2, 3, 4].getD 0 0) :=
  C6_sentinel [0, 0, 0, 0] [1, 2, 3, 4] [1, 3, 3, 10] 4 2 0 (by decide) (by decide)
    (by decide) (by decide) (by decide) (by decide)

/-- C7: for every power-of-two capacity `n ≥ 2` and every tree returned by `ft_init`, the
total weight is read from `tree[n-1]`, and for every target at or above it (in particular
`UINT64_MAX`) `ft_index_of(tree, n, target)` returns `n - 1`. -/
theorem C7_saturating_total (tree0 a tree : List Nat) (n b : Nat) (h2 : 2 ≤ n)
    (hnb : n = 2 ^ b) (ht : tree0.length = n) (hinit : ft_init tree0 n a = some tree) :
    ∃ total : Nat, tree[n - 1]? = some total ∧
      ∀ target : Nat, total ≤ target → ft_index_of tree n target = some ((n : Int) - 1) := by
  have hcap := ft_init_cap tree0 a tree n hinit
  have hlen : tree.length = n := by rw [ft_init_length tree0 a tree n hinit, ht]
  have hb1 : 1 ≤ b := by
    rcases Nat.eq_zero_or_pos b with h0 | h0
    · subst h0; simp at hnb; omega
    · exact h0
  have hlt : n - 1 < tree.length := by omega
  refine ⟨tree[n - 1], List.getElem?_eq_getElem hlt, ?_⟩
  intro target hge
  exact ft_index_of_total tree n b target _ hb1 hnb hcap.2 (List.getElem?_eq_getElem hlt) hge

/-- Witness for C7: capacity 2, weights `[1, 2]`, as in the self-test. -/
theorem C7_saturating_total_witness :
    ∃ total : Nat, [1, 3][2 - 1]? = some total ∧
      ∀ target : Nat, total ≤ target → ft_index_of [1, 3] 2 target = some (((2 : Nat) : Int) - 1) :=
  C7_saturating_total [0, 0] [1, 2] [1, 3] 2 1 (by decide) (by decide) (by decide) (by decide)

/-- C8 as stated fails: on the tree built from `[1, 2, 3, 4]`, `ft_update(tree, 4, 2, 5)`
changes the query at `i = p = 2` from `6` to `11` (the claim says it is unchanged and equal
to `3`) and the query at `i = 3` becomes `15` (the claim says `11`). -/
theorem C8_increment_counterexample :
    ft_init [0, 0, 0, 0] 4 [1, 2, 3, 4] = some [1, 3, 3, 10] ∧
      ft_update [1, 3, 3, 10] 4 2 5 = some [1, 3, 8, 15] ∧
      ft_query [1, 3, 3, 10] 4 2 = some 6 ∧ ft_query [1, 3, 8, 15] 4 2 = some 11 ∧
      ft_query [1, 3, 8, 15] 4 3 = some 15 := by
  decide

/-- C8 (amended): for every capacity `2 ≤ n < 2 ^ 30`, every tree built by `ft_init` from
weights `a`, every position `p ∈ [0, n)` and delta `d` with `sum a + d < 2 ^ 64`,
`ft_update(tree, n, p, d)` succeeds and afterwards `ft_query(tree, n, i)` has increased by
exactly `d` for every `i ≥ p` and is unchanged for every `i < p`, for all `i ∈ [-1, n-1]`. -/
theorem C8_increment (tree0 a tree : List Nat) (n p d : Nat) (h2 : 2 ≤ n) (hn : n < 2 ^ 30)
    (ha : a.length = n) (ht : tree0.length = n) (hp : p < n) (hs : a.sum + d < 2 ^ 64)
    (hinit : ft_init tree0 n a = some tree) :
    ∃ tree', ft_update tree n (p : Int) d = some tree' ∧
      ∀ i : Int, -1 ≤ i → i < (n : Int) → ∃ q : Nat, ft_query tree n i = some q ∧
        ft_query tree' n i = some (q + if (p : Int) ≤ i then d else 0) := by
  have hb := ft_init_sound tree0 a tree n h2 hn ha ht hinit
  obtain ⟨tree', hu, hb'⟩ := ft_update_built a tree n p d h2 (by omega) ha hp hb hs
  refine ⟨tree', hu, ?_⟩
  intro i h1 hi
  have e : (((i + 1).toNat : Nat) : Int) - 1 = i := by omega
  have hq := ft_query_spec a tree n h2 (by omega) hb (by omega) (i + 1).toNat (by omega)
  have hs' : (a.set p (a.getD p 0 + d)).sum < 2 ^ 64 := by
    rw [sum_set_add a p d (by omega)]; exact hs
  have hq' := ft_query_spec _ tree' n h2 (by omega) hb' hs' (i + 1).toNat (by omega)
  rw [e] at hq hq'
  refine ⟨_, hq, ?_⟩
  rw [hq', seg_set_add a p d 0 (by omega) _ (by omega)]
  congr 2
  by_cases hpi : (p : Int) ≤ i
  · rw [if_pos hpi, if_pos (by omega)]
  · rw [if_neg hpi, if_neg (by omega)]

/-- Witness for C8: weights `[1, 2, 3, 4]`, position 2, delta 5. -/
theorem C8_increment_witness :
    ∃ tree', ft_update [1, 3, 3, 10] 4 ((2 : Nat) : Int) 5 = some tree' ∧
      ∀ i : Int, -1 ≤ i → i < ((4 : Nat) : Int) → ∃ q : Nat,
        ft_query [1, 3, 3, 10] 4 i = some q ∧
        ft_query tree' 4 i = some (q + if ((2 : Nat) : Int) ≤ i then 5 else 0) :=
  C8_increment [0, 0, 0, 0] [1, 2, 3, 4] [1, 3, 3, 10] 4 2 5 (by decide) (by decide)
    (by decide) (by decide) (by decide) (by decide) (by decide)

/-- C9 fails on the code. With `n = 2`, weights `[0, 0]`, `p = 1` and `d = 2 ^ 64 - 1` no
accumulator overflows (`0 + d ≤ UINT64_MAX`) and `ft_update(ft_init(a), n, p, d)` yields
the cells `[0, 2 ^ 64 - 1]`, but `ft_init` on the updated weights `[0, 2 ^ 64 - 1]` fails
its overflow assertion (the strict `<` of `ft_init`, where `ft_update` has `<=`). At the
capacity `n = 2 ^ 31`, accepted by the capacity assertion, `ft_init` returns the cells
untouched on both weight arrays while `ft_update` fails its index assertion. -/
theorem C9_update_commutes :
    (ft_init [0, 0] 2 [0, 0] = some [0, 0] ∧
      0 + (2 ^ 64 - 1) ≤ UINT64_MAX ∧
      ft_update [0, 0] 2 1 (2 ^ 64 - 1) = some [0, 2 ^ 64 - 1] ∧
      [0, 0].set 1 ([0, 0].getD 1 0 + (2 ^ 64 - 1)) = [0, 2 ^ 64 - 1] ∧
      ft_init [0, 0] 2 [0, 2 ^ 64 - 1] = none) ∧
    (c_assert (decide (2 ≤ 2 ^ 31 ∧ 2 ^ 31 ≤ 2 ^ ft_max_bits)) = some () ∧
      ft_init (List.replicate (2 ^ 31) 0) (2 ^ 31) (List.replicate (2 ^ 31) 1)
        = some (List.replicate (2 ^ 31) 0) ∧
      ft_update (List.replicate (2 ^ 31) 0) (2 ^ 31) 0 1 = none ∧
      ft_init (List.replicate (2 ^ 31) 0) (2 ^ 31)
          ((List.replicate (2 ^ 31) 1).set 0 ((List.replicate (2 ^ 31) 1).getD 0 0 + 1))
        = some (List.replicate (2 ^ 31) 0)) := by
  exact ⟨by decide, by decide, ft_init_cap31 _ _, rfl, ft_init_cap31 _ _⟩

/-- C10 as stated fails: capacities above `2 ^ 31` (here `2 ^ 32`) are rejected by the
capacity assertion, and at the capacity `n = 2 ^ 31` the cells are left unbuilt and both
queries return `0`, so for `i = 0`, `j = 1` the difference is `0` while `sum_of(a, 0, 0)`
is `a[0] = 1`. -/
theorem C10_range_sum_counterexample :
    (List.replicate (2 ^ 31) 1).length = 2 ^ 31 ∧ (List.replicate (2 ^ 31) 1).sum < 2 ^ 64 ∧
      ft_init (List.replicate (2 ^ 31) 0) (2 ^ 31) (List.replicate (2 ^ 31) 1)
        = some (List.replicate (2 ^ 31) 0) ∧
      sum_of (List.replicate (2 ^ 31) 1) 0 (1 - 1) = some 1 ∧
      ft_query (List.replicate (2 ^ 31) 0) (2 ^ 31) (1 - 1) = some 0 ∧
      ft_query (List.replicate (2 ^ 31) 0) (2 ^ 31) (0 - 1) = some 0 ∧
      (1 : Int) ≠ ((0 : Int) - 0) % 2 ^ 64 ∧
      ft_init (List.replicate (2 ^ 32) 0) (2 ^ 32) (List.replicate (2 ^ 32) 1) = none := by
  refine ⟨List.length_replicate _ _, ?_, ft_init_cap31 _ _,
    sum_of_replicate_head _ _ (by norm_num) (by norm_num), ft_query_cap31_zero _,
    ft_query_neg_one _ _ (by norm_num) (le_refl _), by decide,
    ft_init_reject _ _ (2 ^ 32) (by norm_num)⟩
  rw [replicate_sum_one]; norm_num

/-- C10 (amended): for every capacity `2 ≤ n < 2 ^ 30`, weights of length `n` whose sum fits
64 bits and all `0 ≤ i < j ≤ n`, on the cells returned by `ft_init` the brute-force sum
`sum_of(a, i, j-1) = a[i] + ... + a[j-1]` equals the unsigned 64-bit difference
`ft_query(tree, n, j-1) - ft_query(tree, n, i-1)`, which does not wrap. -/
theorem C10_range_sum (tree0 a tree : List Nat) (n : Nat) (h2 : 2 ≤ n) (hn : n < 2 ^ 30)
    (ha : a.length = n) (ht : tree0.length = n) (hs : a.sum < 2 ^ 64)
    (hinit : ft_init tree0 n a = some tree) (i j : Nat) (hij : i < j) (hj : j ≤ n) :
    ∃ s q1 q2 : Nat, sum_of a (i : Int) ((j : Int) - 1) = some s ∧
      ft_query tree n ((j : Int) - 1) = some q1 ∧ ft_query tree n ((i : Int) - 1) = some q2 ∧
      q2 ≤ q1 ∧ (s : Int) = ((q1 : Int) - (q2 : Int)) % 2 ^ 64 := by
  have hb := ft_init_sound tree0 a tree n h2 hn ha ht hinit
  have hc := seg_consec a 0 i j (by omega) (by omega)
  have hle := seg_le_sum a 0 j (by omega)
  refine ⟨seg a i j, seg a 0 j, seg a 0 i, sum_of_spec a i j (by omega) (by omega) hs,
    ft_query_spec a tree n h2 (by omega) hb hs j hj,
    ft_query_spec a tree n h2 (by omega) hb hs i (by omega), by omega, ?_⟩
  omega

/-- Witness for C10: capacity 4, weights `[1, 2, 3, 4]`, range `[1, 3)`. -/
theorem C10_range_sum_witness :
    ∃ s q1 q2 : Nat, sum_of [1, 2, 3, 4] ((1 : Nat) : Int) (((3 : Nat) : Int) - 1) = some s ∧
      ft_query [1, 3, 3, 10] 4 (((3 : Nat) : Int) - 1) = some q1 ∧
      ft_query [1, 3, 3, 10] 4 (((1 : Nat) : Int) - 1) = some q2 ∧
      q2 ≤ q1 ∧ (s : Int) = ((q1 : Int) - (q2 : Int)) % 2 ^ 64 :=
  C10_range_sum [0, 0, 0, 0] [1, 2, 3, 4] [1, 3, 3, 10] 4 (by decide) (by decide)
    (by decide) (by decide) (by decide) (by decide) 1 3 (by decide) (by decide)

/-- C11 as stated fails at target 5: after building capacity 4 from `[1, 2, 3, 4]` the cells
are `[1, 3, 3, 10]` and `ft_index_of(tree, 4, 5)` returns `1`, not `2`; the inclusive sums
`ft_query(1) = 3` and `ft_query(2) = 6` bracket the target 5 at position 1. -/
theorem C11_scenario_counterexample :
    ft_init [0, 0, 0, 0] 4 [1, 2, 3, 4] = some [1, 3, 3, 10] ∧
      ft_index_of [1, 3, 3, 10] 4 5 = some 1 ∧ ft_index_of [1, 3, 3, 10] 4 5 ≠ some 2 ∧
      ft_query [1, 3, 3, 10] 4 1 = some 3 ∧ ft_query [1, 3, 3, 10] 4 2 = some 6 := by
  decide

/-- C11 (amended): for `n = 4` and weights `[1, 2, 3, 4]` (total 10), after the build,
`ft_index_of` returns `-1` for target 0, `0` for target 1, `1` for target 5, `3` for
target 10 and `3` for target 999. -/
theorem C11_scenario :
    ft_init [0, 0, 0, 0] 4 [1, 2, 3, 4] = some [1, 3, 3, 10] ∧
      ft_index_of [1, 3, 3, 10] 4 0 = some (-1) ∧
      ft_index_of [1, 3, 3, 10] 4 1 = some 0 ∧
      ft_index_of [1, 3, 3, 10] 4 5 = some 1 ∧
      ft_index_of [1, 3, 3, 10] 4 10 = some 3 ∧
      ft_index_of [1, 3, 3, 10] 4 999 = some 3 := by
  decide

/-- C12 fails on the code at the weights `[0, 2 ^ 64 - 1]` with `n = 2`: their total
`2 ^ 64 - 1` fits 64 bits and no partial sum exceeds the range, yet the overflow assertion
of `ft_init` (a strict `<`) fails; `ft_update`, whose assertion is `<=`, adds the same
amount to the same cell without failure. -/
theorem C12_overflow_check_boundary :
    [0, 2 ^ 64 - 1].sum ≤ 2 ^ 64 - 1 ∧
      ft_init [0, 0] 2 [0, 2 ^ 64 - 1] = none ∧
      ft_init_copy [0, 2 ^ 64 - 1] [0, 0] 0 = some [0, 0] ∧
      ft_init_copy [0, 2 ^ 64 - 1] [0, 0] 1 = some [0, 2 ^ 64 - 1] ∧
      ft_init_fold 2 [0, 2 ^ 64 - 1] 1 = none ∧
      c_assert (decide (2 ^ 64 - 1 < UINT64_MAX - 0)) = none ∧
      ft_update [0, 0] 2 1 (2 ^ 64 - 1) = some [0, 2 ^ 64 - 1] := by
  decide

/-- C13 fails on the code at both ends of the accepted range. At `n = 2 ^ 31` the capacity
assertion passes but `m = (int32_t)n` is `-2 ^ 31`, not `n`. At `n = 2 ^ 30` the iteration
`i = 2 ^ 30` has `ft_lsb(i) = 2 ^ 30`, so `i + ft_lsb(i) = 2 ^ 31` is outside the `int32_t`
range; wrapped to `-2 ^ 31` it passes `parent <= m` and the cell index `parent - 1` is
negative, so `ft_init` does not complete for any capacity in `[2 ^ 30, 2 ^ 31)`. -/
theorem C13_capacity_range_overflow (tree a : List Nat) :
    c_assert (decide (2 ≤ 2 ^ 31 ∧ 2 ^ 31 ≤ 2 ^ ft_max_bits)) = some () ∧
      int32 ((2 ^ 31 : Nat) : Int) = -2 ^ 31 ∧
      c_assert (decide (2 ≤ 2 ^ 30 ∧ 2 ^ 30 ≤ 2 ^ ft_max_bits)) = some () ∧
      int32 ((2 ^ 30 : Nat) : Int) = 2 ^ 30 ∧
      ft_lsb (2 ^ 30) = some (2 ^ 30) ∧
      ¬ ((2 ^ 30 : Int) + 2 ^ 30 < 2 ^ 31) ∧
      int32 ((2 ^ 30 : Int) + 2 ^ 30) = -2 ^ 31 ∧
      int32 ((2 ^ 30 : Int) + 2 ^ 30) ≤ int32 ((2 ^ 30 : Nat) : Int) ∧
      load tree (int32 ((2 ^ 30 : Int) + 2 ^ 30) - 1) = none ∧
      ft_init_fold (int32 ((2 ^ 30 : Nat) : Int)) tree (2 ^ 30) = none ∧
      (∀ n : Nat, 2 ^ 30 ≤ n → n < 2 ^ 31 → ft_init tree n a = none) := by
  refine ⟨by decide, by decide, by decide, by decide, by decide, by decide, by decide,
    by decide, ?_, ?_, fun n h1 h2 => ft_init_cap30 tree a n h1 h2⟩
  · have e : int32 ((2 ^ 30 : Int) + 2 ^ 30) - 1 = -2 ^ 31 - 1 := by decide
    rw [e]; unfold load; rw [if_neg (by decide)]
  · exact ft_init_fold_cap30 _ (by decide) tree

/-- C14 as stated fails: with `n = 2` and weights `[1, 0]` the built cells are `[1, 1]` and
`ft_index_of(tree, 2, 0)` returns `-1` although `a[1] = 0`. At `n = 2 ^ 31` the cells stay
unbuilt: with cells all `1` and weights all `0` the lookup of target `0` returns `-1`
although `a[0] = 0`. -/
theorem C14_sentinel_positive_counterexample :
    ft_init [0, 0] 2 [1, 0] = some [1, 1] ∧ ft_index_of [1, 1] 2 0 = some (-1) ∧
      [1, 0].getD 1 0 = 0 ∧
      ft_init (List.replicate (2 ^ 31) 1) (2 ^ 31) (List.replicate (2 ^ 31) 0)
        = some (List.replicate (2 ^ 31) 1) ∧
      ft_index_of (List.replicate (2 ^ 31) 1) (2 ^ 31) 0 = some (-1) ∧
      (List.replicate (2 ^ 31) 0).getD 0 0 = 0 := by
  refine ⟨by decide, by decide, by decide, ft_init_cap31 _ _,
    ft_index_of_cap31_const 1 0 (by omega), replicate_getD _ _ _ (by norm_num)⟩

/-- C14 (amended): for every power-of-two capacity `2 ≤ n < 2 ^ 30`, weights `a` of length
`n` built with `ft_init`, and target, if `ft_index_of(tree, n, target)` returns `-1` then
the first weight `a[0]` is greater than 0 (it is greater than the target). -/
theorem C14_sentinel_positive (tree0 a tree : List Nat) (n b target : Nat) (h2 : 2 ≤ n)
    (hnb : n = 2 ^ b) (hn : n < 2 ^ 30) (ha : a.length = n) (ht : tree0.length = n)
    (hinit : ft_init tree0 n a = some tree) (hret : ft_index_of tree n target = some (-1)) :
    0 < a.getD 0 0 ∧ target < a.getD 0 0 := by
  have hb := ft_init_sound tree0 a tree n h2 hn ha ht hinit
  have hb1 := pow_exp_pos n b h2 hnb
  have htot := built_total a tree n b h2 hnb hb
  rcases Nat.lt_or_ge target (seg a 0 n) with hlt | hge
  · obtain ⟨i', hi', hidx, hle, hlt'⟩ := ft_index_of_descent a tree n b target hb1 hnb
      (by omega) hb hlt
    rw [hidx] at hret
    have h0 : (i' : Int) - 1 = -1 := Option.some.inj hret
    have : i' = 0 := by omega
    subst this
    rw [seg_one] at hlt'
    omega
  · have h := ft_index_of_total tree n b target _ hb1 hnb (by omega) htot hge
    rw [h] at hret
    have h0 : (n : Int) - 1 = -1 := Option.some.inj hret
    omega

/-- Witness for C14: capacity 2, weights `[1, 0]`, target 0. -/
theorem C14_sentinel_positive_witness :
    0 < [1, 0].getD 0 0 ∧ 0 < [1, 0].getD 0 0 :=
  C14_sentinel_positive [0, 0] [1, 0] [1, 1] 2 1 0 (by decide) (by decide) (by decide)
    (by decide) (by decide) (by decide) (by decide)

/-- C15: the power-of-two precondition is necessary. For the capacity `n = 3` (not a power
of two, rejected by the assertion of `ft_index_of`), the weights `[1, 1, 5]` (total 7) and
the target `3 < 7`, the body of `ft_index_of` run on the output `[1, 2, 5]` of `ft_init`
takes the descent (the target is below `tree[n-1] = 5`) and returns `p = 0`, which violates
`ft_query(p) ≤ target < ft_query(p+1)` since `ft_query(1) = 2`. -/
theorem C15_power_of_two_necessary :
    ∃ (n : Nat) (a tree : List Nat) (target : Nat) (p : Int),
      2 ≤ n ∧ (¬ ∃ b : Nat, n = 2 ^ b) ∧ n &&& (n - 1) ≠ 0 ∧ a.length = n ∧
      ft_init (List.replicate n 0) n a = some tree ∧ target < a.sum ∧
      ft_index_of tree n target = none ∧
      (∃ total : Nat, load tree ((n : Int) - 1) = some total ∧ target < total) ∧
      ft_index_of_body tree n target = some p ∧ ¬ brackets tree n target p := by
  refine ⟨3, [1, 1, 5], [1, 2, 5], 3, 0, by decide, ?_, by decide, by decide, by decide,
    by decide, by decide, ⟨5, by decide, by decide⟩, by decide, by decide⟩
  rintro ⟨b, hb⟩
  cases b with
  | zero => omega
  | succ b => rw [pow_succ] at hb; omega

/-- C16: for every capacity `2 ≤ n < 2 ^ 30` and every cell array of length `n`, the 1-based
`ft_update` of `ft.c` and the 0-based `ft_update` of `ft.h` have the same outcome for every
`i ∈ [0, n)` (the same final cell array, which both produce whenever no cell plus the
increment exceeds `UINT64_MAX`), and the two `ft_query` return the same value for every
`i ∈ [-1, n-1]`. -/
theorem C16_variants_agree (tree : List Nat) (n inc : Nat) (h2 : 2 ≤ n) (hn : n < 2 ^ 30)
    (hlen : tree.length = n) :
    (∀ i : Int, 0 ≤ i → i < (n : Int) →
      ft_update_c tree n i inc = ft_update tree n i inc ∧
      ((∀ j : Nat, j < n → tree.getD j 0 + inc ≤ UINT64_MAX) →
        ∃ tree' : List Nat, ft_update tree n i inc = some tree' ∧
          ft_update_c tree n i inc = some tree')) ∧
    (∀ i : Int, -1 ≤ i → i ≤ (n : Int) - 1 →
      ∃ v : Nat, ft_query tree n i = some v ∧ ft_query_c tree n i = some v) := by
  constructor
  · intro i h0 hi
    have heq := ft_update_c_eq tree n inc i h2 hn h0 hi
    refine ⟨heq, ?_⟩
    intro hov
    obtain ⟨p, rfl⟩ : ∃ p : Nat, i = (p : Int) := ⟨i.toNat, by omega⟩
    have hc := cells_self tree n hlen
    obtain ⟨tree', h, _⟩ := ft_update_spec tree n p inc _ h2 (by omega) (by omega) hc
      (fun j hj _ => hov j hj)
    exact ⟨tree', h, heq.trans h⟩
  · intro i h0 hi
    obtain ⟨v, _, hv⟩ := ft_query_count tree n (i + 1).toNat h2 (by omega) hlen (by omega)
    have e : (((i + 1).toNat : Nat) : Int) - 1 = i := by omega
    rw [e] at hv
    exact ⟨v, hv, (ft_query_c_eq tree n i h2 (by omega) h0 (by omega)).trans hv⟩

/-- Witness for C16: the cells `[1, 3, 3, 10]` with capacity 4 and increment 5. -/
theorem C16_variants_agree_witness :
    (∀ i : Int, 0 ≤ i → i < ((4 : Nat) : Int) →
      ft_update_c [1, 3, 3, 10] 4 i 5 = ft_update [1, 3, 3, 10] 4 i 5 ∧
      ((∀ j : Nat, j < 4 → [1, 3, 3, 10].getD j 0 + 5 ≤ UINT64_MAX) →
        ∃ tree' : List Nat, ft_update [1, 3, 3, 10] 4 i 5 = some tree' ∧
          ft_update_c [1, 3, 3, 10] 4 i 5 = some tree')) ∧
    (∀ i : Int, -1 ≤ i → i ≤ ((4 : Nat) : Int) - 1 →
      ∃ v : Nat, ft_query [1, 3, 3, 10] 4 i = some v ∧ ft_query_c [1, 3, 3, 10] 4 i = some v) :=
  C16_variants_agree [1, 3, 3, 10] 4 5 (by decide) (by decide) (by decide)

/-- C17: for every capacity `2 ≤ n < 2 ^ 31`, every cell array of length `n` and every
`i ∈ [0, n)`: at every index `k ∈ [0, n)` the step of `ft_update` strictly increases the
index and the step of `ft_query` strictly decreases it, never below `-1`; the loop of
`ft_query` started at `i` exits at index exactly `-1` after exactly `popcount(i+1)`
iterations, which is at most `floor(log2(n)) + 1`; and the loop of `ft_update` started at
`i` (when no overflow assertion aborts it) exits at an index `≥ n` after at least one and
at most `floor(log2(n)) + 1` iterations. -/
theorem C17_logarithmic_steps (tree : List Nat) (n i inc : Nat) (h2 : 2 ≤ n) (hn : n < 2 ^ 31)
    (hlen : tree.length = n) (hi : i < n) :
    (∀ k : Nat, k < n → ∃ l : Int, ft_lsb (int32 ((k : Int) + 1)) = some l ∧
        (k : Int) < int32 ((k : Int) + l) ∧ int32 ((k : Int) - l) < (k : Int) ∧
        -1 ≤ int32 ((k : Int) - l)) ∧
    (∃ v : Nat, ft_query_loop_count tree n ((i : Int).toNat + 2) 0 (i : Int)
          = some (v, -1, popcount (i + 1)) ∧ ft_query tree n (i : Int) = some v) ∧
    popcount (i + 1) ≤ Nat.log 2 n + 1 ∧
    ((∀ j : Nat, j < n → tree.getD j 0 + inc ≤ UINT64_MAX) →
      ∃ (tree' : List Nat) (i' : Int) (k : Nat),
        ft_update_loop_count (int32 (n : Int)) inc (n + 1) tree (i : Int) = some (tree', i', k) ∧
        ft_update tree n (i : Int) inc = some tree' ∧ (n : Int) ≤ i' ∧ 1 ≤ k ∧
        k ≤ Nat.log 2 n + 1) := by
  have hm : int32 (n : Int) = (n : Int) := int32_of_small _ (by omega) (by omega)
  have e : (((i + 1 : Nat) : Int) - 1) = (i : Int) := by omega
  refine ⟨?_, ?_, ?_, ?_⟩
  · intro k hk
    have hl0 := lowbit_pos (k + 1) (by omega)
    have hl1 := lowbit_le (k + 1) (by omega)
    have hpow := lowbit_add_le_pow 31 (k + 1) (by omega) (by omega)
    refine ⟨((lowbit (k + 1) : Nat) : Int), ?_, ?_, ?_, ?_⟩
    · rw [int32_of_small _ (by omega) (by omega)]
      exact ft_lsb_eq (k + 1) (by omega) (by omega)
    · rw [int32_of_small _ (by omega) (by omega)]; omega
    · rw [int32_of_small _ (by omega) (by omega)]; omega
    · rw [int32_of_small _ (by omega) (by omega)]; omega
  · obtain ⟨v, h1, h2'⟩ := ft_query_count tree n (i + 1) h2 hn hlen (by omega)
    rw [e] at h1 h2'
    exact ⟨v, h1, h2'⟩
  · have h1 := popcount_le_log (i + 1) (by omega)
    have h2' : Nat.log 2 (i + 1) ≤ Nat.log 2 n := Nat.log_mono_right (by omega)
    omega
  · intro hov
    have hc := cells_self tree n hlen
    obtain ⟨tree', h, _⟩ := ft_update_loop_spec n inc hn (n + 1) (i + 1) _ tree (by omega)
      (by omega) (by omega) hc (fun j hj _ => hov j hj)
    obtain ⟨i', k, hk⟩ := ft_update_loop_count_complete (n : Int) inc (n + 1) tree _ tree' h
    obtain ⟨b1, _, b3⟩ := ft_update_loop_count_bound n inc hn (n + 1) (i + 1) tree tree' i' k
      (by omega) hk
    obtain ⟨b4, s, _, b5⟩ := b3 (by omega)
    rw [e] at h hk
    refine ⟨tree', i', k, by rw [hm]; exact hk, ?_, b1, b4, by omega⟩
    unfold ft_update c_assert
    have hc1 : decide (2 ≤ n ∧ n ≤ 2 ^ ft_max_bits) = true := by
      simp [ft_max_bits]; omega
    have hc2 : decide (0 ≤ (i : Int) ∧ (i : Int) < (n : Int)) = true := by
      simp only [decide_eq_true_eq]; omega
    simp only [hc1, if_true, obind_some, hm, hc2]
    exact h

/-- Witness for C17: the cells `[1, 3, 3, 10]` with capacity 4, index 2 and increment 5. -/
theorem C17_logarithmic_steps_witness :
    (∀ k : Nat, k < 4 → ∃ l : Int, ft_lsb (int32 ((k : Int) + 1)) = some l ∧
        (k : Int) < int32 ((k : Int) + l) ∧ int32 ((k : Int) - l) < (k : Int) ∧
        -1 ≤ int32 ((k : Int) - l)) ∧
    (∃ v : Nat, ft_query_loop_count [1, 3, 3, 10] 4 (((2 : Nat) : Int).toNat + 2) 0 ((2 : Nat) : Int)
          = some (v, -1, popcount (2 + 1)) ∧ ft_query [1, 3, 3, 10] 4 ((2 : Nat) : Int) = some v) ∧
    popcount (2 + 1) ≤ Nat.log 2 4 + 1 ∧
    ((∀ j : Nat, j < 4 → [1, 3, 3, 10].getD j 0 + 5 ≤ UINT64_MAX) →
      ∃ (tree' : List Nat) (i' : Int) (k : Nat),
        ft_update_loop_count (int32 ((4 : Nat) : Int)) 5 (4 + 1) [1, 3, 3, 10] ((2 : Nat) : Int)
          = some (tree', i', k) ∧
        ft_update [1, 3, 3, 10] 4 ((2 : Nat) : Int) 5 = some tree' ∧ ((4 : Nat) : Int) ≤ i' ∧
        1 ≤ k ∧ k ≤ Nat.log 2 4 + 1) :=
  C17_logarithmic_steps [1, 3, 3, 10] 4 2 5 (by decide) (by decide) (by decide) (by decide)

/-- C18: for every power-of-two capacity `n ≥ 2`, every tree returned by `ft_init` and all
targets `s ≤ t`, both lookups return a value and
`ft_index_of(tree, n, s) ≤ ft_index_of(tree, n, t)`. -/
theorem C18_monotone (tree0 a tree : List Nat) (n b s t : Nat) (h2 : 2 ≤ n) (hnb : n = 2 ^ b)
    (ht : tree0.length = n) (hinit : ft_init tree0 n a = some tree) (hst : s ≤ t) :
    ∃ p q : Int, ft_index_of tree n s = some p ∧ ft_index_of tree n t = some q ∧ p ≤ q := by
  have hcap := ft_init_cap tree0 a tree n hinit
  have hlen : tree.length = n := by rw [ft_init_length tree0 a tree n hinit, ht]
  have hb1 := pow_exp_pos n b h2 hnb
  rcases ft_index_of_any tree n b t hb1 hnb hcap.2 hlen with ⟨ht1, ht2⟩ | ⟨ht1, rt, ht2, ht3, ht4⟩
  · rcases ft_index_of_any tree n b s hb1 hnb hcap.2 hlen with
      ⟨_, hs2⟩ | ⟨_, rs, _, hs3, hs4⟩
    · exact ⟨_, _, hs2, ht2, le_refl _⟩
    · exact ⟨_, _, hs4, ht2, by omega⟩
  · rcases ft_index_of_any tree n b s hb1 hnb hcap.2 hlen with
      ⟨hs1, _⟩ | ⟨_, rs, hs2, _, hs4⟩
    · omega
    · obtain ⟨r1, r2, e1, e2, _, b2, _⟩ := ft_index_of_loop_mono tree n hcap.2 hlen 32 s t 0
        (n / 2) (by omega) (by omega) hst
      rw [hs2] at e1
      rw [ht2] at e2
      have h1 := Option.some.inj e1
      have h2' := Option.some.inj e2
      subst h1; subst h2'
      exact ⟨_, _, hs4, ht4, by omega⟩

/-- Witness for C18: capacity 4, weights `[1, 2, 3, 4]`, targets `2 ≤ 7`. -/
theorem C18_monotone_witness :
    ∃ p q : Int, ft_index_of [1, 3, 3, 10] 4 2 = some p ∧ ft_index_of [1, 3, 3, 10] 4 7 = some q ∧
      p ≤ q :=
  C18_monotone [0, 0, 0, 0] [1, 2, 3, 4] [1, 3, 3, 10] 4 2 2 7 (by decide) (by decide)
    (by decide) (by decide) (by decide)

/-- C19 as stated fails: the power-of-two capacities above `2 ^ 31` (here `2 ^ 32`) are
rejected by the capacity assertion, and at `n = 2 ^ 31` with weights all `1` the cells stay
unbuilt (all `0`): `ft_query(tree, n, 0)` is `0` and `ft_index_of(tree, n, 0)` is `n - 1`,
not `0`. -/
theorem C19_round_trip_counterexample :
    (∀ x ∈ List.replicate (2 ^ 31) 1, 0 < x) ∧ (List.replicate (2 ^ 31) 1).sum < 2 ^ 64 ∧
      ft_init (List.replicate (2 ^ 31) 0) (2 ^ 31) (List.replicate (2 ^ 31) 1)
        = some (List.replicate (2 ^ 31) 0) ∧
      ft_query (List.replicate (2 ^ 31) 0) (2 ^ 31) 0 = some 0 ∧
      ft_index_of (List.replicate (2 ^ 31) 0) (2 ^ 31) 0 = some (2 ^ 31 - 1) ∧
      ft_init (List.replicate (2 ^ 32) 0) (2 ^ 32) (List.replicate (2 ^ 32) 1) = none := by
  refine ⟨?_, ?_, ft_init_cap31 _ _, ft_query_cap31_zero _, ft_index_of_cap31_zero,
    ft_init_reject _ _ (2 ^ 32) (by norm_num)⟩
  · intro x hx
    rw [List.eq_of_mem_replicate hx]; omega
  · rw [replicate_sum_one]; norm_num

/-- C19 (amended): for every power-of-two capacity `2 ≤ n < 2 ^ 30` and every weight array
of length `n` whose entries are all strictly positive and whose sum fits 64 bits, with
`tree` returned by `ft_init`, for every position `p ∈ [0, n-1]`,
`ft_index_of(tree, n, ft_query(tree, n, p)) = p`. -/
theorem C19_round_trip (tree0 a tree : List Nat) (n b p : Nat) (h2 : 2 ≤ n)
    (hnb : n = 2 ^ b) (hn : n < 2 ^ 30) (ha : a.length = n) (ht : tree0.length = n)
    (hs : a.sum < 2 ^ 64) (hpos : ∀ x ∈ a, 0 < x) (hinit : ft_init tree0 n a = some tree)
    (hp : p < n) :
    ∃ q : Nat, ft_query tree n (p : Int) = some q ∧ ft_index_of tree n q = some (p : Int) := by
  have hb := ft_init_sound tree0 a tree n h2 hn ha ht hinit
  have hb1 := pow_exp_pos n b h2 hnb
  have htot := built_total a tree n b h2 hnb hb
  have hpos' : ∀ k : Nat, k < a.length → 0 < a.getD k 0 := by
    intro k hk
    rw [List.getD_eq_getElem a 0 hk]
    exact hpos _ (List.getElem_mem hk)
  have hq := ft_query_spec a tree n h2 (by omega) hb hs (p + 1) (by omega)
  have e : (((p + 1 : Nat) : Int) - 1) = (p : Int) := by omega
  rw [e] at hq
  refine ⟨seg a 0 (p + 1), hq, ?_⟩
  rcases Nat.lt_or_ge (p + 1) n with hlt | hge
  · have hlt2 := seg_lt_of_pos a hpos' (p + 1) n hlt (by omega)
    obtain ⟨i', hi', hidx, hle, hlt'⟩ := ft_index_of_descent a tree n b (seg a 0 (p + 1)) hb1
      hnb (by omega) hb hlt2
    have hi : i' = p + 1 := by
      rcases Nat.lt_trichotomy i' (p + 1) with h | h | h
      · have h1 := seg_mono a (i' + 1) (p + 1) (by omega)
        omega
      · exact h
      · have h1 := seg_lt_of_pos a hpos' (p + 1) i' h (by omega)
        omega
    rw [hidx, hi]
    exact congrArg some e
  · have hpn : p + 1 = n := by omega
    have h := ft_index_of_total tree n b (seg a 0 (p + 1)) _ hb1 hnb (by omega) htot
      (by rw [hpn])
    rw [h]
    exact congrArg some (by omega)

/-- Witness for C19: capacity 4, weights `[1, 2, 3, 4]`, position 2. -/
theorem C19_round_trip_witness :
    ∃ q : Nat, ft_query [1, 3, 3, 10] 4 ((2 : Nat) : Int) = some q ∧
      ft_index_of [1, 3, 3, 10] 4 q = some ((2 : Nat) : Int) :=
  C19_round_trip [0, 0, 0, 0] [1, 2, 3, 4] [1, 3, 3, 10] 4 2 2 (by decide) (by decide)
    (by decide) (by decide) (by decide) (by decide) (by decide) (by decide) (by decide)

/-- C20 as stated fails: the power-of-two capacities above `2 ^ 31` (here `2 ^ 32`) are
rejected by the capacity assertion, and at `n = 2 ^ 31` with weights all `1` the cells stay
unbuilt; on the cells `0, ..., 0, 1` (total `tree[n-1] = 1`) the descent for target `0`
commits its first probe and reaches the state `value = 0, i = 2 ^ 30, mask = 2 ^ 29`, where
`value` plus the sum of the first `i` weights is not the target. -/
theorem C20_descent_invariant_counterexample :
    ∃ tr : List (Nat × Nat × Nat),
      ft_init (List.replicate (2 ^ 31 - 1) 0 ++ [1]) (2 ^ 31) (List.replicate (2 ^ 31) 1)
        = some (List.replicate (2 ^ 31 - 1) 0 ++ [1]) ∧
      (List.replicate (2 ^ 31 - 1) 0 ++ [1])[2 ^ 31 - 1]? = some 1 ∧
      ft_index_of_loop_trace (List.replicate (2 ^ 31 - 1) 0 ++ [1]) (2 ^ 31) 33 0 0
        (uint32 (((2 ^ 31 : Nat) >>> 1 : Nat) : Int)) = some tr ∧
      (0, 2 ^ 30, 2 ^ 29) ∈ tr ∧ 0 + seg (List.replicate (2 ^ 31) 1) 0 (2 ^ 30) ≠ 0 ∧
      ft_init (List.replicate (2 ^ 32) 0) (2 ^ 32) (List.replicate (2 ^ 32) 1) = none := by
  have hlen : (List.replicate (2 ^ 31 - 1) 0 ++ [1]).length = 2 ^ 31 := by
    rw [List.length_append, List.length_replicate]; rfl
  have hu : uint32 (((2 ^ 31 : Nat) >>> 1 : Nat) : Int) = 2 ^ 30 := by decide
  have hcell : (List.replicate (2 ^ 31 - 1) 0 ++ [1]).getD (0 + 2 ^ 30 - 1) 0 = 0 :=
    append_replicate_getD _ _ 0 1 (by norm_num)
  obtain ⟨tr, htr⟩ := ft_index_of_loop_trace_total (List.replicate (2 ^ 31 - 1) 0 ++ [1])
    (2 ^ 31) (le_refl _) hlen 31 0 (2 ^ 30) (2 ^ 29) (by norm_num) (by norm_num)
  have hstep := ft_index_of_loop_trace_succ (List.replicate (2 ^ 31 - 1) 0 ++ [1]) (2 ^ 31) 32
    0 0 (2 ^ 30) (le_refl _) hlen (by norm_num) (by norm_num)
  rw [hcell, if_pos (le_refl _), show (0 : Nat) - 0 = 0 by rfl,
    show 0 + 2 ^ 30 = 2 ^ 30 by norm_num, show 2 ^ 30 / 2 = 2 ^ 29 by norm_num, htr] at hstep
  simp only [obind_some] at hstep
  refine ⟨_, ft_init_cap31 _ _, append_replicate_last _ 0 1, by rw [hu]; exact hstep, ?_, ?_,
    ft_init_reject _ _ (2 ^ 32) (by norm_num)⟩
  · exact List.mem_cons_of_mem _ (List.mem_cons_self _ _)
  · have h1 := seg_mono (List.replicate (2 ^ 31) 1) 1 (2 ^ 30) (by norm_num)
    rw [seg_one, replicate_getD _ _ _ (by norm_num)] at h1
    omega

/-- C20 (amended): on a tree returned by `ft_init` with power-of-two capacity
`2 ≤ n < 2 ^ 30` and target below the total `tree[n-1]`, the descent of `ft_index_of` runs
to its exit, and at every evaluation of the loop condition `value = target - (sum of the
first i weights)`, with `i` a multiple of `2 * mask` at every iteration (`mask ≠ 0`);
at loop exit `i = 0` implies `value = target`, the condition `i == 0 && value < sum` is
false, the returned value equals `(int32_t)(i - 1)` (in `ft.c`: `(int32_t)i - 1`, the same
value), and it is `-1` exactly when `i = 0`. -/
theorem C20_descent_invariant (tree0 a tree : List Nat) (n b target total : Nat) (h2 : 2 ≤ n)
    (hnb : n = 2 ^ b) (hn : n < 2 ^ 30) (ha : a.length = n) (ht : tree0.length = n)
    (hinit : ft_init tree0 n a = some tree) (htot : tree[n - 1]? = some total)
    (htar : target < total) :
    ∃ (tr : List (Nat × Nat × Nat)) (value i : Nat),
      ft_index_of_loop_trace tree n 33 target 0 (uint32 ((n >>> 1 : Nat) : Int)) = some tr ∧
      (∀ st ∈ tr, seg a 0 st.2.1 ≤ target ∧ st.1 = target - seg a 0 st.2.1 ∧
        (st.2.2 ≠ 0 → 2 * st.2.2 ∣ st.2.1)) ∧
      tr.getLast? = some (value, i, 0) ∧
      ft_index_of_loop tree n 33 target 0 (uint32 ((n >>> 1 : Nat) : Int)) = some (value, i) ∧
      (i = 0 → value = target) ∧ ¬ (i = 0 ∧ value < target) ∧
      ft_index_of tree n target = some (int32 (uint32 ((i : Int) - 1))) ∧
      ft_index_of_c tree n target = some (int32 (int32 (i : Int) - 1)) ∧
      (int32 (uint32 ((i : Int) - 1)) = -1 ↔ i = 0) := by
  have hb := ft_init_sound tree0 a tree n h2 hn ha ht hinit
  have hb1 := pow_exp_pos n b h2 hnb
  have hb31 : b ≤ 31 := pow_le_exp b (by rw [← hnb]; omega)
  obtain ⟨c, rfl⟩ : ∃ c, b = c + 1 := ⟨b - 1, by omega⟩
  have hhalf : n / 2 = 2 ^ c := by rw [hnb, pow_succ]; simp
  have hu : uint32 ((n >>> 1 : Nat) : Int) = 2 ^ c := by
    rw [shiftRight_one_eq, hhalf]
    exact uint32_of_small _ (by rw [← hhalf]; omega)
  obtain ⟨tr, v', i', e1, e2, e3, e4, e5⟩ := ft_index_of_loop_trace_spec a tree n target
    (by omega) hb c 33 target 0 (by omega) (dvd_zero _) (by rw [Nat.zero_add, ← hnb])
    (by simp [seg_self])
  obtain ⟨_, r2, _, m2, _, _, m3⟩ := ft_index_of_loop_mono tree n (by omega) hb.1 32 target
    target 0 (2 ^ c) (by rw [← hhalf]; omega) (by rw [← hhalf]; omega) (le_refl _)
  rw [e4] at m2
  have hr2 : r2 = (v', i') := (Option.some.inj m2).symm
  rw [hr2] at m3
  have hi' : i' < n := by
    have : 0 < 2 ^ c := by positivity
    have h3 : i' ≤ 0 + (2 * 2 ^ c - 1) := m3
    rw [← hhalf] at h3 this
    omega
  have hi31 : i' < 2 ^ 31 := by omega
  have hn31 : n < 2 ^ 31 := by omega
  have hlast : ((i' : Int) - 1 = -1 ↔ i' = 0) := by omega
  have htot' := built_total a tree n (c + 1) h2 hnb hb
  have htt : total = seg a 0 n := by
    rw [htot] at htot'; exact Option.some.inj htot'
  have hidx : ft_index_of tree n target = some ((i' : Int) - 1) := by
    rcases ft_index_of_any tree n (c + 1) target hb1 hnb (by omega) hb.1 with
      ⟨h1, _⟩ | ⟨_, r, h3, _, h5⟩
    · rw [List.getD_eq_getElem?_getD, htot] at h1
      have : total ≤ target := h1
      omega
    · rw [hhalf, e4] at h3
      rw [h5, ← Option.some.inj h3]
  have h00 : seg a 0 0 = 0 := seg_self a 0
  refine ⟨tr, v', i', by rw [hu]; exact e1, ?_, e3, by rw [hu]; exact e4, ?_, ?_, ?_, ?_, ?_⟩
  · intro st hst
    obtain ⟨s1, s2⟩ := e2 st hst
    exact ⟨by omega, by omega, s2⟩
  · intro h0; subst h0; omega
  · rintro ⟨h0, hlt⟩; subst h0; omega
  · rw [int32_uint32_pred i' hi31]; exact hidx
  · rw [ft_index_of_c_eq tree n (c + 1) target hb1 hnb hn31 hb.1, int32_int32_pred i' hi31]
    exact hidx
  · rw [int32_uint32_pred i' hi31]; exact hlast

/-- Witness for C20: capacity 4, weights `[1, 2, 3, 4]`, target 5. -/
theorem C20_descent_invariant_witness :
    ∃ (tr : List (Nat × Nat × Nat)) (value i : Nat),
      ft_index_of_loop_trace [1, 3, 3, 10] 4 33 5 0 (uint32 ((4 >>> 1 : Nat) : Int)) = some tr ∧
      (∀ st ∈ tr, seg [1, 2, 3, 4] 0 st.2.1 ≤ 5 ∧ st.1 = 5 - seg [1, 2, 3, 4] 0 st.2.1 ∧
        (st.2.2 ≠ 0 → 2 * st.2.2 ∣ st.2.1)) ∧
      tr.getLast? = some (value, i, 0) ∧
      ft_index_of_loop [1, 3, 3, 10] 4 33 5 0 (uint32 ((4 >>> 1 : Nat) : Int)) = some (value, i) ∧
      (i = 0 → value = 5) ∧ ¬ (i = 0 ∧ value < 5) ∧
      ft_index_of [1, 3, 3, 10] 4 5 = some (int32 (uint32 ((i : Int) - 1))) ∧
      ft_index_of_c [1, 3, 3, 10] 4 5 = some (int32 (int32 (i : Int) - 1)) ∧
      (int32 (uint32 ((i : Int) - 1)) = -1 ↔ i = 0) :=
  C20_descent_invariant [0, 0, 0, 0] [1, 2, 3, 4] [1, 3, 3, 10] 4 2 5 10 (by decide) (by decide)
    (by decide) (by decide) (by decide) (by decide) (by decide) (by decide)

end Ft
